import Mathlib

set_option maxRecDepth 4000

/-!
Verification of the LoongArch64 MMU translation-table manager of this
repository against its natural-language specification.

Two implementations are modelled, each in its own namespace:

* `CpuMmu`    — `UefiCpuPkg/Library/CpuMmuLib/LoongArch64/CpuMmu.c`
  (recursive region mapper with a run-time geometry of 3, 4 or 5 levels).
* `CommonMmu` — `UefiCpuPkg/Library/LoongArch64CpuMmuLib/CommonMmuLib.c`
  (fixed 4-level PGD/PUD/PMD/PTE mapper).

Machine words (`UINTN`) are modelled as `Nat` with explicit 64-bit masks
where the C code relies on word width.  Physical memory holding the page
tables is an association list from page-aligned table base addresses to
their entry arrays, and the page allocator is a list of page addresses
still available; allocation fails when the list is empty, which is how
allocation failure is injected for the rollback claims.  Loops are
modelled with an explicit recursion budget (`fuel`); exhausting the
budget returns a sentinel status that no real EFI path produces, so all
theorems about real executions are unaffected.
-/

namespace MmuSpec

/-! ## EFI status codes (UEFI specification values, `MdePkg`) -/

def EFI_SUCCESS : Nat := 0

def EFI_INVALID_PARAMETER : Nat := 2 ^ 63 + 2

def EFI_UNSUPPORTED : Nat := 2 ^ 63 + 3

def EFI_OUT_OF_RESOURCES : Nat := 2 ^ 63 + 9

def EFI_NOT_FOUND : Nat := 2 ^ 63 + 14

/-- Model artifact: status returned when the modelling recursion budget is
exhausted.  It is an error in the sense of `EFI_ERROR` but is distinct from
every status the C code can produce. -/
def EFI_NO_FUEL : Nat := 2 ^ 63 + 999

/-- Status test `EFI_ERROR`: EFI error codes have the top bit set. -/
def EFI_ERROR (s : Nat) : Bool := decide (2 ^ 63 ≤ s)

/-! ## Page-table entry bit layout

From `UefiCpuPkg/Include/Library/CpuMmuLib.h` (in `src/`). -/

def LOONGARCH_MMU_PAGE_SHIFT : Nat := 12

def EFI_PAGE_SIZE : Nat := 4096

def EFI_PAGE_MASK : Nat := 4095

def MAX_ADDRESS : Nat := 2 ^ 64 - 1

def PAGE_VALID : Nat := 1

def PAGE_DIRTY : Nat := 2

def PAGE_PLV : Nat := 3 <<< 2

def CACHE_SHIFT : Nat := 4

def CACHE_MASK : Nat := 3 <<< 4

def PAGE_GLOBAL : Nat := 1 <<< 6

def PAGE_HUGE : Nat := 1 <<< 6

def PAGE_HGLOBAL : Nat := 1 <<< 12

def PAGE_NO_READ : Nat := 1 <<< 61

def PAGE_NO_EXEC : Nat := 1 <<< 62

def PAGE_RPLV : Nat := 1 <<< 63

def PLV_KERNEL : Nat := 0

def CACHE_SUC : Nat := 0 <<< 4

def CACHE_CC : Nat := 1 <<< 4

def CACHE_WUC : Nat := 2 <<< 4

/-! ## UEFI memory attribute constants (UEFI specification, `MdePkg`) -/

def EFI_MEMORY_UC : Nat := 0x1

def EFI_MEMORY_WC : Nat := 0x2

def EFI_MEMORY_WT : Nat := 0x4

def EFI_MEMORY_WB : Nat := 0x8

def EFI_MEMORY_UCE : Nat := 0x10

def EFI_MEMORY_WP : Nat := 0x1000

def EFI_MEMORY_RP : Nat := 0x2000

def EFI_MEMORY_XP : Nat := 0x4000

def EFI_MEMORY_RO : Nat := 0x20000

/-- From `CpuMmuLib.h` (in `src/`): all cache-type attribute bits. -/
def EFI_MEMORY_CACHETYPE_MASK : Nat :=
  EFI_MEMORY_UC ||| EFI_MEMORY_WC ||| EFI_MEMORY_WT ||| EFI_MEMORY_WB ||| EFI_MEMORY_UCE

/-- Modelled from the spec: the header `Page.h` of `CpuMmuLib` is not in
`src/`.  The cache-attribute switch of its `EfiAttributeConverse` has cases
for `EFI_MEMORY_UC/WC/WT/WB` and `EFI_MEMORY_WP`, so the mask must cover the
cache-type bits and the write-protect bit. -/
def EFI_CACHE_ATTRIBUTE_MASK : Nat := EFI_MEMORY_CACHETYPE_MASK ||| EFI_MEMORY_WP

/-- Modelled from the spec: the header `Page.h` of `CpuMmuLib` is not in
`src/`.  The access-permission switch has cases for `EFI_MEMORY_RP/XP/RO`. -/
def EFI_MEMORY_ACCESS_MASK : Nat := EFI_MEMORY_RP ||| EFI_MEMORY_XP ||| EFI_MEMORY_RO

/-- Modelled from the spec: `Page.h` is not in `src/`.  An invalid entry is
the all-zero word (fresh tables are zero-filled and their entries are not
valid). -/
def INVALID_PAGE : Nat := 0

/-- Modelled from the spec: `Page.h` is not in `src/`.  The
physical-page-number field occupies the bits from `PAGE_PFN_SHIFT` (12) up
to `PAGE_PFN_END_SHIFT` (48), both from `CpuMmuLib.h`. -/
def PTE_PPN_MASK : Nat := (2 ^ 48 - 1) - (2 ^ 12 - 1)

def PTE_PPN_SHIFT : Nat := 12

/-- Modelled from the spec: `Page.h` is not in `src/`.  The attribute bits
of an entry are all bits outside the physical-page-number field that the
layout in `CpuMmuLib.h` assigns meaning to: bits 0..11 and the three
protection bits 61..63. -/
def PTE_ATTRIBUTES_MASK : Nat := (2 ^ 12 - 1) + (7 <<< 61)

/-- Complement of a mask inside a 64-bit word (`~mask` in C on `UINTN`). -/
def not64 (m : Nat) : Nat := (2 ^ 64 - 1) - m

/-! ## Physical memory holding page tables

An association list from page-aligned table base addresses to the list of
entries stored in that table page. -/

abbrev Mem := List (Nat × List Nat)

def lookupTbl : Mem → Nat → Option (List Nat)
  | [], _ => none
  | (a, tbl) :: rest, t => if a = t then some tbl else lookupTbl rest t

def tblOf (m : Mem) (t : Nat) : List Nat := (lookupTbl m t).getD []

/-- Read entry `i` of the table at base address `t`; unmapped memory reads
as zero. -/
def entryAt (m : Mem) (t i : Nat) : Nat := (tblOf m t).getD i 0

def memWrite : Mem → Nat → List Nat → Mem
  | [], t, tbl => [(t, tbl)]
  | (a, b) :: rest, t, tbl =>
      if a = t then (t, tbl) :: rest else (a, b) :: memWrite rest t tbl

def memErase : Mem → Nat → Mem
  | [], _ => []
  | (a, b) :: rest, t => if a = t then rest else (a, b) :: memErase rest t

/-- Write entry `i` of the table at base address `t`. -/
def setEntry (m : Mem) (t i v : Nat) : Mem := memWrite m t ((tblOf m t).set i v)

def tdom (m : Mem) : List Nat := m.map (fun p => p.1)

end MmuSpec

namespace MmuSpec.CpuMmu

/-! ## Model of `UefiCpuPkg/Library/CpuMmuLib/LoongArch64/CpuMmu.c` -/

/-- Table geometry as read from the `PWCTL0/PWCTL1` configuration registers:
number of levels (`GetCurrentMaxPageTableLevel`) and per-level index bit
width (`GetCurrentPageTableBitWidth`). -/
structure Geo where
  maxLv : Nat
  w : Nat
deriving Repr, DecidableEq

/-- Machine state: page-table memory, the allocator free list (allocation
fails when it is empty), the log of TLB invalidations issued (most recent
first), the `PGDL` root-table register and the paging-enable bit of
`CRMD`. -/
structure St where
  mem : Mem
  fresh : List Nat
  tlb : List Nat
  pgdl : Nat
  crmdPg : Bool
deriving Repr, DecidableEq

/-- `MmuIsInit`: the `PGDL` register is nonzero. -/
def MmuIsInit (st : St) : Bool := st.pgdl != 0

/-- `MmuIsEnabled`: BIT4 of `CRMD`. -/
def MmuIsEnabled (st : St) : Bool := st.crmdPg

def IsValidPte (e : Nat) : Bool := e != INVALID_PAGE

def IsValidHugePage (e : Nat) : Bool :=
  e &&& (PAGE_HGLOBAL ||| PAGE_HUGE) == (PAGE_HGLOBAL ||| PAGE_HUGE)

def SetValidPte (e : Nat) : Nat := e ||| PAGE_GLOBAL ||| PAGE_VALID

def IsBlockEntry (g : Geo) (e lv : Nat) : Bool :=
  if lv = g.maxLv - 1 then e &&& PAGE_VALID == PAGE_VALID
  else IsValidHugePage e

def IsTableEntry (g : Geo) (e lv : Nat) : Bool :=
  if lv = g.maxLv - 1 then false
  else (!IsValidHugePage e) && IsValidPte e

def GetPpnfromPte (e : Nat) : Nat := (e &&& PTE_PPN_MASK) >>> PTE_PPN_SHIFT

def SetPpnToPte (e addr : Nat) : Nat :=
  let ppn := (addr >>> LOONGARCH_MMU_PAGE_SHIFT) <<< PTE_PPN_SHIFT
  (e &&& not64 PTE_PPN_MASK) ||| ppn

/-- Table base address stored in a table entry. -/
def childOf (e : Nat) : Nat := GetPpnfromPte e <<< LOONGARCH_MMU_PAGE_SHIFT

/-- `ReplaceTableEntry`: store the entry and, for a live mapping with the
MMU initialized, invalidate the TLB for the region start. -/
def ReplaceTableEntry (st : St) (t i v rs : Nat) (live : Bool) : St :=
  let st1 : St := { st with mem := setEntry st.mem t i v }
  if live && MmuIsInit st then { st1 with tlb := rs :: st1.tlb } else st1

/-- `AllocatePages (1)` followed by `ZeroMem`: take the next page from the
free list and install a zero-filled table there. -/
def FreePages (st : St) (t : Nat) : St :=
  { st with mem := memErase st.mem t, fresh := t :: st.fresh }

def BlockShift (g : Geo) (lv : Nat) : Nat :=
  (g.maxLv - lv - 1) * g.w + LOONGARCH_MMU_PAGE_SHIFT

def BlockMask (g : Geo) (lv : Nat) : Nat :=
  MAX_ADDRESS >>> (64 - BlockShift g lv)

def EntryIndex (g : Geo) (lv rs : Nat) : Nat :=
  (rs >>> BlockShift g lv) &&& (2 ^ g.w - 1)

mutual

/-- `FreePageTablesRecursive`: free every child table referenced by a table
entry (levels strictly above the last), then free the table page itself.
The first argument is the recursion budget; `g.maxLv` always suffices. -/
def FreePageTablesRecursive (g : Geo) : Nat → Nat → Nat → St → St
  | 0, _, _, st => st
  | d + 1, t, lv, st =>
      let st1 := if lv < g.maxLv - 1 then FreeChildren g d t lv (2 ^ g.w) st else st
      FreePages st1 t

/-- Loop of `FreePageTablesRecursive` over entry indices `0..k-1`, in
ascending index order. -/
def FreeChildren (g : Geo) : Nat → Nat → Nat → Nat → St → St
  | _, _, _, 0, st => st
  | d, t, lv, k + 1, st =>
      let st1 := FreeChildren g d t lv k st
      let e := entryAt st1.mem t k
      if IsTableEntry g e lv then FreePageTablesRecursive g d (childOf e) (lv + 1) st1
      else st1

end

/-- `UpdateRegionMappingRecursive`.  The first `Nat` argument is the
recursion budget (the C function's recursion is bounded by the level count
and the region size); exhausting it returns `EFI_NO_FUEL`.  The source
asserts `Level < GetCurrentMaxPageTableLevel ()`; calls beyond the last
level are modelled as returning success with no effect.  The loop
`for (; RegionStart < RegionEnd; RegionStart = BlockEnd)` is the tail
recursive call on `(blockEnd, re)`. -/
def UpdateRegionMappingRecursive (g : Geo) :
    Nat → Nat → Nat → Nat → Nat → Nat → Nat → Bool → St → Nat × St
  | 0, _, _, _, _, _, _, _, st => (EFI_NO_FUEL, st)
  | fuel + 1, rs, re, aset, aclr, pt, lv, live, st =>
    if g.maxLv ≤ lv then (EFI_SUCCESS, st)
    else if re ≤ rs then (EFI_SUCCESS, st)
    else
      let bmask := BlockMask g lv
      let blockEnd := min re ((rs ||| bmask) + 1)
      let i := EntryIndex g lv rs
      let e := entryAt st.mem pt i
      if lv < 2 ∨ ((rs ||| blockEnd) &&& bmask ≠ 0) ∨ IsTableEntry g e lv then
        -- table mapping required: obtain the next-level table
        let r1 : Nat × St × Nat × Bool :=
          if IsTableEntry g e lv then
            (EFI_SUCCESS, st, childOf e, live)
          else
            match st.fresh with
            | [] => (EFI_OUT_OF_RESOURCES, st, 0, false)
            | nt :: rest =>
              let st1 : St :=
                { st with mem := memWrite st.mem nt (List.replicate (2 ^ g.w) 0),
                          fresh := rest }
              if IsBlockEntry g (entryAt st1.mem pt i) lv then
                -- split an existing block entry into the new table
                let r2 := UpdateRegionMappingRecursive g fuel (rs &&& not64 bmask)
                    ((rs ||| bmask) + 1) (entryAt st1.mem pt i &&& PTE_ATTRIBUTES_MASK)
                    PTE_ATTRIBUTES_MASK nt (lv + 1) false st1
                if EFI_ERROR r2.1 then (r2.1, FreePages r2.2 nt, 0, false)
                else (EFI_SUCCESS, r2.2, nt, false)
              else (EFI_SUCCESS, st1, nt, false)
        if EFI_ERROR r1.1 then (r1.1, r1.2.1)
        else
          let st1 := r1.2.1
          let tt := r1.2.2.1
          let r3 := UpdateRegionMappingRecursive g fuel rs blockEnd aset aclr tt
              (lv + 1) r1.2.2.2 st1
          if EFI_ERROR r3.1 then
            if IsTableEntry g (entryAt r3.2.mem pt i) lv then (r3.1, r3.2)
            else (r3.1, FreePageTablesRecursive g g.maxLv tt (lv + 1) r3.2)
          else
            let st4 :=
              if IsTableEntry g (entryAt r3.2.mem pt i) lv then r3.2
              else ReplaceTableEntry r3.2 pt i (SetPpnToPte 0 tt) rs live
            UpdateRegionMappingRecursive g fuel blockEnd re aset aclr pt lv live st4
      else
        -- block or page mapping at this level
        let ev0 := (e &&& not64 aclr) ||| aset
        let ev1 := SetPpnToPte ev0 rs
        let ev2 := SetValidPte ev1
        let ev3 :=
          if lv < g.maxLv - 1 then ev2 ||| (PAGE_HGLOBAL ||| PAGE_HUGE ||| PAGE_VALID)
          else ev2 ||| (PAGE_GLOBAL ||| PAGE_VALID)
        let st4 := ReplaceTableEntry st pt i ev3 rs live
        UpdateRegionMappingRecursive g fuel blockEnd re aset aclr pt lv live st4

/-- `UpdateRegionMapping`: page-alignment gate in front of the recursion,
called on the root table at level 0. -/
def UpdateRegionMapping (g : Geo) (fuel rs rlen aset aclr root : Nat) (live : Bool)
    (st : St) : Nat × St :=
  if (rs ||| rlen) &&& EFI_PAGE_MASK ≠ 0 then (EFI_INVALID_PARAMETER, st)
  else UpdateRegionMappingRecursive g fuel rs (rs + rlen) aset aclr root 0 live st

/-- `EfiAttributeConverse` of `CpuMmu.c`: both attribute groups are decoded
with a `switch` on the masked value, so only exact single matches hit a
case. -/
def EfiAttributeConverse (a : Nat) : Nat :=
  let la := PAGE_VALID ||| PAGE_DIRTY ||| PLV_KERNEL ||| PAGE_GLOBAL
  let c := a &&& EFI_CACHE_ATTRIBUTE_MASK
  let la1 :=
    if c = EFI_MEMORY_UC then la ||| CACHE_SUC
    else if c = EFI_MEMORY_WC then la ||| CACHE_WUC
    else if c = EFI_MEMORY_WT ∨ c = EFI_MEMORY_WB then la ||| CACHE_CC
    else if c = EFI_MEMORY_WP then la &&& not64 PAGE_DIRTY
    else la
  let m := a &&& EFI_MEMORY_ACCESS_MASK
  if m = EFI_MEMORY_RP then la1 ||| PAGE_NO_READ
  else if m = EFI_MEMORY_XP then la1 ||| PAGE_NO_EXEC
  else if m = EFI_MEMORY_RO then la1 &&& not64 PAGE_DIRTY
  else la1

/-- `SetMemoryRegionAttributes`: unsupported before MMU configuration,
otherwise a region-mapping update on the root table from `PGDL`, live when
paging is enabled. -/
def SetMemoryRegionAttributes (g : Geo) (fuel base len attrs : Nat) (st : St) :
    Nat × St :=
  if !MmuIsInit st then (EFI_UNSUPPORTED, st)
  else
    UpdateRegionMapping g fuel base len (EfiAttributeConverse attrs)
      PTE_ATTRIBUTES_MASK st.pgdl (MmuIsEnabled st) st

/-! ### Read-side walk, reachable tables, and invariants

These are specification-side definitions used to state properties of the
mapper; they follow the entry classification of the source
(`IsTableEntry` / `IsBlockEntry`). -/

/-- Walk the table tree from table `t` at level `lv` for address `va`,
returning the leaf entry and its level.  The first argument is a recursion
budget; `g.maxLv - lv` always suffices. -/
def WalkEntry (g : Geo) (m : Mem) : Nat → Nat → Nat → Nat → Option (Nat × Nat)
  | 0, _, _, _ => none
  | d + 1, t, lv, va =>
      let e := entryAt m t (EntryIndex g lv va)
      if IsTableEntry g e lv then WalkEntry g m d (childOf e) (lv + 1) va
      else if IsBlockEntry g e lv then some (e, lv)
      else none

/-- Attribute bits of the leaf mapping covering `va`, if any. -/
def WalkAttrs (g : Geo) (m : Mem) (d t lv va : Nat) : Option Nat :=
  (WalkEntry g m d t lv va).map (fun p => p.1 &&& PTE_ATTRIBUTES_MASK)

/-- All table pages reachable from table `t` at level `lv` (including `t`).
The first argument is a recursion budget; `g.maxLv - lv` always suffices. -/
def subT (g : Geo) (m : Mem) : Nat → Nat → Nat → List Nat
  | 0, t, _ => [t]
  | d + 1, t, lv =>
      t :: (if lv < g.maxLv - 1 then
        (List.range (2 ^ g.w)).flatMap (fun i =>
          let e := entryAt m t i
          if IsTableEntry g e lv then subT g m d (childOf e) (lv + 1) else [])
      else [])

/-- Structural invariant of the table tree rooted at `t` at level `lv`:
every reachable table page is present in memory with the right arity, is a
nonzero page-aligned address below the physical-page-number range, every
huge-page entry carries the valid bit (as every block the code writes
does), the sub-trees hanging off distinct entries are disjoint, and no
table appears in its own sub-trees. -/
def InvAtB (g : Geo) (m : Mem) : Nat → Nat → Nat → Bool
  | 0, _, _ => false
  | d + 1, t, lv =>
      decide (t ≠ 0) && decide (t % 4096 = 0) && decide (t < 2 ^ 48) &&
      (match lookupTbl m t with
       | none => false
       | some tbl => decide (tbl.length = 2 ^ g.w)) &&
      (List.range (2 ^ g.w)).all (fun i =>
        let e := entryAt m t i
        (!IsValidHugePage e || decide (e &&& PAGE_VALID = PAGE_VALID)) &&
        (if IsTableEntry g e lv then
          InvAtB g m d (childOf e) (lv + 1) &&
          decide (t ∉ subT g m d (childOf e) (lv + 1)) &&
          (List.range (2 ^ g.w)).all (fun j =>
            let e2 := entryAt m t j
            if IsTableEntry g e2 lv ∧ j ≠ i then
              (subT g m d (childOf e) (lv + 1)).all
                (fun x => decide (x ∉ subT g m d (childOf e2) (lv + 1)))
            else true)
        else true))

/-- Allocator free-list invariant: free pages are pairwise distinct,
absent from table memory, nonzero, page-aligned and below the
physical-page-number range; table memory has pairwise distinct keys. -/
def FreshOkB (st : St) : Bool :=
  st.fresh.Nodup &&
  st.fresh.all (fun f =>
    decide (f ∉ tdom st.mem) && decide (f ≠ 0) && decide (f % 4096 = 0) &&
    decide (f < 2 ^ 48)) &&
  (tdom st.mem).Nodup

/-- Combined invariant for a state and a tree rooted at `t` at level
`lv`. -/
def InvB (g : Geo) (st : St) (t lv : Nat) : Bool :=
  InvAtB g st.mem (g.maxLv - lv) t lv && FreshOkB st

/-- Geometry sanity: at least 3 levels of positive index width, with the
full virtual-address width fitting a 64-bit word. -/
def GeoOkB (g : Geo) : Bool :=
  decide (1 ≤ g.w) && decide (3 ≤ g.maxLv) && decide (g.maxLv ≤ 5) &&
  decide (g.maxLv * g.w + 12 ≤ 64)

/-- Block-placement invariant: no table at level 0 or 1 holds a huge-page
entry (the recursion descends unconditionally there), recursively through
all table entries. -/
def GoodBlocksB (g : Geo) (m : Mem) : Nat → Nat → Nat → Bool
  | 0, _, _ => true
  | d + 1, t, lv =>
      (List.range (2 ^ g.w)).all (fun i =>
        let e := entryAt m t i
        (decide (2 ≤ lv) || !IsValidHugePage e) &&
        (if IsTableEntry g e lv then GoodBlocksB g m d (childOf e) (lv + 1) else true))

end MmuSpec.CpuMmu

namespace MmuSpec.CommonMmu

/-! ## Model of `UefiCpuPkg/Library/LoongArch64CpuMmuLib/CommonMmuLib.c`

A fixed 4-level PGD/PUD/PMD/PTE table with 512 entries per level and a
4 KiB page, so a 2 MiB huge page lives in the PMD.  Directory entries
store the raw child-table base address (`SetPgd`/`SetPud`/`SetPmd` store
the pointer); a zero entry is empty.  The level shifts, index macros,
`MAKE_PTE`, `MAKE_HUGE_PTE` and the related masks come from this
library's header `Page.h`, which is not in `src/`; they are modelled from
the spec's data model (per-level index width 9, page shift 12, huge-page
bit 6 and huge-global bit 12 of the entry word, physical page number above
bit 12). -/

open MmuSpec

/-- Machine state: table memory, allocator free list, TLB invalidation
log, the `PGDL` register (`SWAP_PAGE_DIR`) and the `mMmuInited` module
flag. -/
structure St where
  mem : Mem
  fresh : List Nat
  tlb : List Nat
  pgdl : Nat
  mMmuInited : Bool
deriving Repr, DecidableEq

def MmuIsInit (st : St) : Bool := st.mMmuInited || st.pgdl != 0

/-- Modelled from the spec: `Page.h` is not in `src/`.  Four levels of
width 9 over a 12-bit page shift give the virtual-address bit width
9 + 9 + 9 + 9 + 12 = 48. -/
def MAX_VA_BITS : Nat := 48

def PGD_SHIFT : Nat := 39

def PUD_SHIFT : Nat := 30

def PMD_SHIFT : Nat := 21

def ENTRYS_PER_TBL : Nat := 512

def PGD_INDEX (a : Nat) : Nat := (a >>> PGD_SHIFT) &&& 511

def PUD_INDEX (a : Nat) : Nat := (a >>> PUD_SHIFT) &&& 511

def PMD_INDEX (a : Nat) : Nat := (a >>> PMD_SHIFT) &&& 511

def PTE_INDEX (a : Nat) : Nat := (a >>> LOONGARCH_MMU_PAGE_SHIFT) &&& 511

def HUGE_PAGE_SIZE : Nat := 2 ^ 21

/-- Start of the huge page containing `a` (`Address & PMD_MASK`). -/
def hugeStart (a : Nat) : Nat := (a >>> PMD_SHIFT) <<< PMD_SHIFT

def IS_HUGE_PAGE (v : Nat) : Bool :=
  v &&& (PAGE_HGLOBAL ||| PAGE_HUGE) == (PAGE_HGLOBAL ||| PAGE_HUGE)

/-- Attribute bits of a page-table entry: everything outside the
physical-page-number field. -/
def GET_PAGE_ATTRIBUTES (v : Nat) : Nat := v &&& not64 PTE_PPN_MASK

/-- Modelled from the spec: `MAKE_PTE` combines the page frame of the
address with the attribute bits. -/
def MAKE_PTE (a attrs : Nat) : Nat :=
  ((a >>> LOONGARCH_MMU_PAGE_SHIFT) <<< LOONGARCH_MMU_PAGE_SHIFT) ||| attrs

/-- Modelled from the spec: a huge-page PMD entry carries the 2 MiB frame,
the attribute bits with the global bit moved to the huge-global position,
and the huge bit. -/
def MAKE_HUGE_PTE (a attrs : Nat) : Nat :=
  let attrs1 := (attrs &&& not64 PAGE_GLOBAL) |||
    (if attrs &&& PAGE_GLOBAL ≠ 0 then PAGE_HGLOBAL else 0) ||| PAGE_HUGE
  ((a >>> PMD_SHIFT) <<< PMD_SHIFT) ||| attrs1

/-- Physical-page-number field of a huge-page entry: bits 21..47. -/
def HUGEP_PAGE_MASK : Nat := (2 ^ 48 - 1) - (2 ^ 21 - 1)

/-- `GetHugePageAttributes`: strip the huge frame, move the huge-global
bit back to the global position. -/
def GetHugePageAttributes (hugeVal : Nat) : Nat :=
  let attrs := hugeVal &&& not64 HUGEP_PAGE_MASK
  let globalFlag := ((attrs &&& (1 <<< 12)) >>> 12) <<< 6
  ((attrs &&& not64 (1 <<< 12)) ||| globalFlag)

/-- `GetPteAddress`: walk the three directory levels; the result is the
leaf value the returned `PTE` pointer refers to — the PMD value itself for
a huge page, otherwise the PTE-table entry (which may itself be zero: the
walk checks only that the directories are nonempty). -/
def GetPteAddress (st : St) (a : Nat) : Option Nat :=
  let pgdV := entryAt st.mem st.pgdl (PGD_INDEX a)
  if pgdV = INVALID_PAGE then none
  else
    let pudV := entryAt st.mem pgdV (PUD_INDEX a)
    if pudV = INVALID_PAGE then none
    else
      let pmdV := entryAt st.mem pudV (PMD_INDEX a)
      if pmdV = INVALID_PAGE then none
      else if IS_HUGE_PAGE pmdV then some pmdV
      else some (entryAt st.mem pmdV (PTE_INDEX a))

/-- Leaf-writing loop of `MemoryMapPteRange` (`do { ... } while (Pte++,
Address += EFI_PAGE_SIZE, Address != End)`).  Returns the final state, the
ordered list of (pointer offset, value) writes performed, the number of
body executions, and whether the loop exited (as opposed to running out
of budget).  Each write compares the old entry first and invalidates the
TLB only when overwriting a different nonempty entry. -/
def PteLoop (tbl attrs : Nat) : Nat → Nat → Nat → Nat → St →
    St × List (Nat × Nat) × Nat × Bool
  | 0, _, _, _, st => (st, [], 0, false)
  | f + 1, off, addr, endA, st =>
      let pteVal := MAKE_PTE addr attrs
      let old := entryAt st.mem tbl off
      let upd := old != INVALID_PAGE && old != pteVal
      let st2 : St := { st with mem := setEntry st.mem tbl off pteVal,
                                tlb := if upd then addr :: st.tlb else st.tlb }
      let addr1 := addr + EFI_PAGE_SIZE
      if addr1 = endA then (st2, [(off, pteVal)], 1, true)
      else
        let r := PteLoop tbl attrs f (off + 1) addr1 endA st2
        (r.1, (off, pteVal) :: r.2.1, r.2.2.1 + 1, r.2.2.2)

/-- `MemoryMapPteRange`: `PteAllocGet` (allocate and wire a zero-filled
PTE table if the PMD entry is empty) followed by the leaf-writing loop. -/
def MemoryMapPteRange (fuel : Nat) (st : St) (pmdT pmdIdx addr endA attrs : Nat) :
    Nat × St × Bool :=
  let pmdV := entryAt st.mem pmdT pmdIdx
  if pmdV = INVALID_PAGE then
    match st.fresh with
    | [] => (EFI_OUT_OF_RESOURCES, st, true)
    | nt :: rest =>
      let st1 : St :=
        { st with mem := setEntry (memWrite st.mem nt (List.replicate 512 0)) pmdT pmdIdx nt,
                  fresh := rest }
      let r := PteLoop nt attrs fuel (PTE_INDEX addr) addr endA st1
      (EFI_SUCCESS, r.1, r.2.2.2)
  else
    let r := PteLoop pmdV attrs fuel (PTE_INDEX addr) addr endA st
    (EFI_SUCCESS, r.1, r.2.2.2)

/-- `ConvertHugePageToPage`.  Statuses are combined with bitwise or, as in
the source (`Status |= ...`). -/
def ConvertHugePageToPage (fuel : Nat) (st : St) (pmdT pmdIdx addr endA attrs : Nat) :
    Nat × St × Bool :=
  let pmdV := entryAt st.mem pmdT pmdIdx
  if pmdV = INVALID_PAGE ∨ ¬ IS_HUGE_PAGE pmdV then
    MemoryMapPteRange fuel st pmdT pmdIdx addr endA attrs
  else
    let oldAttrs := GetHugePageAttributes pmdV
    if attrs = oldAttrs then (EFI_SUCCESS, st, true)
    else
      let st1 : St := { st with mem := setEntry st.mem pmdT pmdIdx INVALID_PAGE }
      let hs := hugeStart addr
      let he := hs + HUGE_PAGE_SIZE
      let r1 := if hs < addr then MemoryMapPteRange fuel st1 pmdT pmdIdx hs addr oldAttrs
                else (EFI_SUCCESS, st1, true)
      let r2 := MemoryMapPteRange fuel r1.2.1 pmdT pmdIdx addr endA attrs
      let r3 := if endA < he then MemoryMapPteRange fuel r2.2.1 pmdT pmdIdx endA he oldAttrs
                else (EFI_SUCCESS, r2.2.1, true)
      (r1.1 ||| r2.1 ||| r3.1, r3.2.1, r1.2.2 && r2.2.2 && r3.2.2)

/-- `PMD_ADDRESS_END`: end of the PMD span containing `a`, capped at
`endA`. -/
def PMD_ADDRESS_END (a endA : Nat) : Nat :=
  min (((a >>> PMD_SHIFT) + 1) <<< PMD_SHIFT) endA

def PUD_ADDRESS_END (a endA : Nat) : Nat :=
  min (((a >>> PUD_SHIFT) + 1) <<< PUD_SHIFT) endA

def PGD_ADDRESS_END (a endA : Nat) : Nat :=
  min (((a >>> PGD_SHIFT) + 1) <<< PGD_SHIFT) endA

/-- Loop of `MemoryMapPmdRange` over PMD entries.  A whole aligned PMD
span whose entry is empty or huge receives a huge-page entry directly
(with a guarded invalidation); otherwise `ConvertHugePageToPage` runs and
its status is discarded, as in the source. -/
def PmdLoop (attrs : Nat) : Nat → St → Nat → Nat → Nat → Nat → Nat × St × Bool
  | 0, st, _, _, _, _ => (EFI_SUCCESS, st, false)
  | f + 1, st, pmdT, pmdIdx, addr, endA =>
      let next := PMD_ADDRESS_END addr endA
      let pmdV := entryAt st.mem pmdT pmdIdx
      let st2 :=
        if (addr &&& (2 ^ PMD_SHIFT - 1)) = 0 ∧ (next &&& (2 ^ PMD_SHIFT - 1)) = 0 ∧
            (pmdV = INVALID_PAGE ∨ IS_HUGE_PAGE pmdV) then
          let hv := MAKE_HUGE_PTE addr attrs
          let upd := pmdV != INVALID_PAGE && pmdV != hv
          let st1 : St := { st with mem := setEntry st.mem pmdT pmdIdx hv }
          if upd then { st1 with tlb := addr :: st1.tlb } else st1
        else (ConvertHugePageToPage f st pmdT pmdIdx addr next attrs).2.1
      if next = endA then (EFI_SUCCESS, st2, true)
      else PmdLoop attrs f st2 pmdT (pmdIdx + 1) next endA

/-- `MemoryMapPmdRange`: `PmdAllocGet` (allocate a zero-filled PMD table
if the PUD entry is empty) followed by the PMD loop. -/
def MemoryMapPmdRange (fuel : Nat) (st : St) (pudT pudIdx addr endA attrs : Nat) :
    Nat × St × Bool :=
  let pudV := entryAt st.mem pudT pudIdx
  if pudV = INVALID_PAGE then
    match st.fresh with
    | [] => (EFI_OUT_OF_RESOURCES, st, true)
    | nt :: rest =>
      let st1 : St :=
        { st with mem := setEntry (memWrite st.mem nt (List.replicate 512 0)) pudT pudIdx nt,
                  fresh := rest }
      PmdLoop attrs fuel st1 nt (PMD_INDEX addr) addr endA
  else PmdLoop attrs fuel st pudV (PMD_INDEX addr) addr endA

/-- Loop of `MemoryMapPudRange` over PUD entries; a failing PMD range
aborts with `EFI_OUT_OF_RESOURCES`. -/
def PudLoop (attrs : Nat) : Nat → St → Nat → Nat → Nat → Nat → Nat × St × Bool
  | 0, st, _, _, _, _ => (EFI_SUCCESS, st, false)
  | f + 1, st, pudT, pudIdx, addr, endA =>
      let next := PUD_ADDRESS_END addr endA
      let r := MemoryMapPmdRange f st pudT pudIdx addr next attrs
      if EFI_ERROR r.1 then (EFI_OUT_OF_RESOURCES, r.2.1, r.2.2)
      else if next = endA then (EFI_SUCCESS, r.2.1, r.2.2)
      else PudLoop attrs f r.2.1 pudT (pudIdx + 1) next endA

/-- `MemoryMapPudRange`: `PudAllocGet` then the PUD loop. -/
def MemoryMapPudRange (fuel : Nat) (st : St) (pgdT pgdIdx addr endA attrs : Nat) :
    Nat × St × Bool :=
  let pgdV := entryAt st.mem pgdT pgdIdx
  if pgdV = INVALID_PAGE then
    match st.fresh with
    | [] => (EFI_OUT_OF_RESOURCES, st, true)
    | nt :: rest =>
      let st1 : St :=
        { st with mem := setEntry (memWrite st.mem nt (List.replicate 512 0)) pgdT pgdIdx nt,
                  fresh := rest }
      PudLoop attrs fuel st1 nt (PUD_INDEX addr) addr endA
  else PudLoop attrs fuel st pgdV (PUD_INDEX addr) addr endA

/-- Loop of `MemoryMapPageRange` over PGD entries. -/
def PgdLoop (attrs : Nat) : Nat → St → Nat → Nat → Nat → Nat × St × Bool
  | 0, st, _, _, _ => (EFI_SUCCESS, st, false)
  | f + 1, st, pgdIdx, addr, endA =>
      let next := PGD_ADDRESS_END addr endA
      let r := MemoryMapPudRange f st st.pgdl pgdIdx addr next attrs
      if r.1 ≠ 0 then (r.1, r.2.1, r.2.2)
      else if next = endA then (EFI_SUCCESS, r.2.1, r.2.2)
      else PgdLoop attrs f r.2.1 (pgdIdx + 1) next endA

/-- `MemoryMapPageRange`. -/
def MemoryMapPageRange (fuel : Nat) (st : St) (start endA attrs : Nat) :
    Nat × St × Bool :=
  PgdLoop attrs fuel st (PGD_INDEX start) start endA

/-- `EfiAttributeConverse` of `CommonMmuLib.c`: the cache switch maps
write-combining together with write-through/write-back (and any
unrecognized value) to coherent-cached, and the protection attributes are
tested independently. -/
def EfiAttributeConverse (a : Nat) : Nat :=
  let la := PAGE_VALID ||| PAGE_DIRTY ||| PLV_KERNEL ||| PAGE_GLOBAL
  let c := a &&& EFI_MEMORY_CACHETYPE_MASK
  let la1 :=
    if c = EFI_MEMORY_UC then la ||| CACHE_SUC
    else if c = EFI_MEMORY_WC ∨ c = EFI_MEMORY_WT ∨ c = EFI_MEMORY_WB then la ||| CACHE_CC
    else la ||| CACHE_CC
  let la2 :=
    if a &&& EFI_MEMORY_RO ≠ 0 ∨ a &&& EFI_MEMORY_WP ≠ 0 then la1 &&& not64 PAGE_DIRTY
    else la1
  let la3 := if a &&& EFI_MEMORY_RP ≠ 0 then la2 ||| PAGE_NO_READ else la2
  if a &&& EFI_MEMORY_XP ≠ 0 then la3 ||| PAGE_NO_EXEC else la3

/-- Largest virtual address (`LShiftU64 (1, MAX_VA_BITS) - 1`). -/
def MAX_ADDRESS_VA : Nat := 2 ^ MAX_VA_BITS - 1

/-- Forward scan of `GetMemoryRegionAttribute` (the `while (BaseAddress <=
MaxAddress)` loop): strides over leaves, adding each stride to the length
only when its attributes equal the first leaf's, and stops at a missing
leaf, at the virtual-address limit, or once the base moves past
`endA`. -/
def leafStep (v : Nat) : Nat :=
  if IS_HUGE_PAGE v then HUGE_PAGE_SIZE else EFI_PAGE_SIZE

def GmraScan (st : St) (endA attrs : Nat) : Nat → Nat → Nat → Nat × Bool
  | 0, _, len => (len, false)
  | f + 1, base, len =>
      if MAX_ADDRESS_VA < base then (len, true)
      else
        match GetPteAddress st base with
        | none => (len, true)
        | some v =>
          let len1 := if GET_PAGE_ATTRIBUTES v = attrs then len + leafStep v else len
          let base1 := base + leafStep v
          if endA < base1 then (len1, true)
          else GmraScan st endA attrs f base1 len1

/-- `GetMemoryRegionAttribute`.  `lenIn` and `attrsIn` are the incoming
values of the caller-supplied output variables `*RegionLength` and
`*RegionAttributes`: the source accumulates into the former with `+=`
without initializing it.  Returns (status, region length, region
attributes, scan completed). -/
def GetMemoryRegionAttribute (fuel : Nat) (st : St) (base endA lenIn attrsIn : Nat) :
    Nat × Nat × Nat × Bool :=
  if !MmuIsInit st then (EFI_UNSUPPORTED, lenIn, attrsIn, true)
  else
    match GetPteAddress st base with
    | none => (EFI_NOT_FOUND, lenIn, attrsIn, true)
    | some v =>
      let attrs := GET_PAGE_ATTRIBUTES v
      let attrsOut := if IS_HUGE_PAGE v then attrs &&& not64 PAGE_HUGE else attrs
      let r := GmraScan st endA attrs fuel base (lenIn + leafStep v)
      (EFI_SUCCESS, r.1, attrsOut, r.2)

/-- `SetMemoryAttributes`: no alignment check; the result of
`MemoryMapPageRange` is discarded and the function reports success
whenever the MMU is configured. -/
def SetMemoryAttributes (fuel : Nat) (st : St) (base len attrs : Nat) : Nat × St :=
  if !MmuIsInit st then (EFI_UNSUPPORTED, st)
  else
    let r := MemoryMapPageRange fuel st base (base + len) (EfiAttributeConverse attrs)
    (EFI_SUCCESS, r.2.1)

/-- `SetMemoryRegionNoExec`: rounds the length up to whole pages and sets
`EFI_MEMORY_XP` when the MMU is configured, but reports success either
way. -/
def SetMemoryRegionNoExec (fuel : Nat) (st : St) (base len : Nat) : Nat × St :=
  if MmuIsInit st then
    let len1 := ((len + EFI_PAGE_SIZE - 1) / EFI_PAGE_SIZE) * EFI_PAGE_SIZE
    let r := SetMemoryAttributes fuel st base len1 EFI_MEMORY_XP
    (EFI_SUCCESS, r.2)
  else (EFI_SUCCESS, st)

end MmuSpec.CommonMmu

namespace MmuSpec.AttrSpec

/-! ## Specification-side attribute patterns

Field-wise descriptions of the two attribute translators, written from the
amended claim text and compared with the source translations. -/

/-- Cache-type group of an attribute set, as decoded by the `CpuMmu.c`
translator's `switch`: an exact match of the masked value. -/
def cpuCacheGroup (a : Nat) : Nat := a &&& EFI_CACHE_ATTRIBUTE_MASK

/-- Access-permission group, as decoded by the `CpuMmu.c` translator's
`switch`. -/
def cpuAccessGroup (a : Nat) : Nat := a &&& EFI_MEMORY_ACCESS_MASK

/-- The `CpuMmu.c` translator clears the dirty bit exactly when the cache
group is exactly write-protect or the access group is exactly
read-only. -/
def cpuDirtyCleared (a : Nat) : Bool :=
  (cpuCacheGroup a == EFI_MEMORY_WP) || (cpuAccessGroup a == EFI_MEMORY_RO)

/-- Cache code chosen by the `CpuMmu.c` translator: uncached to
strongly-ordered uncached, write-combining to weakly-ordered uncached,
write-through and write-back to coherent cached, and anything else —
including combinations and unrecognized types — leaves the field at the
strongly-ordered-uncached code. -/
def cpuCacheCode (a : Nat) : Nat :=
  if cpuCacheGroup a = EFI_MEMORY_UC then CACHE_SUC
  else if cpuCacheGroup a = EFI_MEMORY_WC then CACHE_WUC
  else if cpuCacheGroup a = EFI_MEMORY_WT ∨ cpuCacheGroup a = EFI_MEMORY_WB then CACHE_CC
  else CACHE_SUC

/-- Protection bits chosen by the `CpuMmu.c` translator: only an exact
single match of the access group takes effect. -/
def cpuProtBits (a : Nat) : Nat :=
  if cpuAccessGroup a = EFI_MEMORY_RP then PAGE_NO_READ
  else if cpuAccessGroup a = EFI_MEMORY_XP then PAGE_NO_EXEC
  else 0

/-- Complete pattern produced by the `CpuMmu.c` translator. -/
def cpuPattern (a : Nat) : Nat :=
  PAGE_VALID ||| (if cpuDirtyCleared a then 0 else PAGE_DIRTY) ||| PLV_KERNEL |||
    PAGE_GLOBAL ||| cpuCacheCode a ||| cpuProtBits a

/-- The `CommonMmuLib.c` translator clears the dirty bit whenever the
read-only or write-protect attribute bit is present. -/
def commonDirtyCleared (a : Nat) : Bool :=
  (a &&& EFI_MEMORY_RO != 0) || (a &&& EFI_MEMORY_WP != 0)

/-- Cache code chosen by the `CommonMmuLib.c` translator: only uncached
maps to a non-coherent code; write-combining, write-through, write-back
and every unrecognized type map to coherent cached. -/
def commonCacheCode (a : Nat) : Nat :=
  if a &&& EFI_MEMORY_CACHETYPE_MASK = EFI_MEMORY_UC then CACHE_SUC else CACHE_CC

/-- Protection bits chosen by the `CommonMmuLib.c` translator: read
protect and execute protect take effect independently. -/
def commonProtBits (a : Nat) : Nat :=
  (if a &&& EFI_MEMORY_RP ≠ 0 then PAGE_NO_READ else 0) |||
  (if a &&& EFI_MEMORY_XP ≠ 0 then PAGE_NO_EXEC else 0)

/-- Complete pattern produced by the `CommonMmuLib.c` translator. -/
def commonPattern (a : Nat) : Nat :=
  PAGE_VALID ||| (if commonDirtyCleared a then 0 else PAGE_DIRTY) ||| PLV_KERNEL |||
    PAGE_GLOBAL ||| commonCacheCode a ||| commonProtBits a

end MmuSpec.AttrSpec

namespace MmuSpec

/-! ## Claim C3 -/

/-- Claim C3 (amended).  Both attribute translators produce the valid,
global and kernel-privilege bits and decode the attribute set field-wise,
but they differ from the claim as frozen: in the `CpuMmu.c` version an
unrecognized cache type leaves the cache field at the strongly-ordered
uncached code (not coherent-cached), write-protect clears dirty only when
it is the only cache-group bit, and the access switch honours exactly one
of read-protect/execute-protect/read-only; in the `CommonMmuLib.c` version
write-combining maps to coherent-cached (not a non-coherent code) while
unrecognized cache types default to coherent-cached and the protection
attributes act independently. -/
theorem C3_attribute_translator_characterization :
    ∀ a : Nat, CpuMmu.EfiAttributeConverse a = AttrSpec.cpuPattern a ∧
      CommonMmu.EfiAttributeConverse a = AttrSpec.commonPattern a := by
  intro a
  constructor
  · unfold CpuMmu.EfiAttributeConverse AttrSpec.cpuPattern AttrSpec.cpuDirtyCleared
      AttrSpec.cpuCacheCode AttrSpec.cpuProtBits AttrSpec.cpuCacheGroup
      AttrSpec.cpuAccessGroup
    by_cases h1 : a &&& EFI_CACHE_ATTRIBUTE_MASK = EFI_MEMORY_UC <;>
      by_cases h2 : a &&& EFI_CACHE_ATTRIBUTE_MASK = EFI_MEMORY_WC <;>
      by_cases h3 : a &&& EFI_CACHE_ATTRIBUTE_MASK = EFI_MEMORY_WT <;>
      by_cases h4 : a &&& EFI_CACHE_ATTRIBUTE_MASK = EFI_MEMORY_WB <;>
      by_cases h5 : a &&& EFI_CACHE_ATTRIBUTE_MASK = EFI_MEMORY_WP <;>
      by_cases h6 : a &&& EFI_MEMORY_ACCESS_MASK = EFI_MEMORY_RP <;>
      by_cases h7 : a &&& EFI_MEMORY_ACCESS_MASK = EFI_MEMORY_XP <;>
      by_cases h8 : a &&& EFI_MEMORY_ACCESS_MASK = EFI_MEMORY_RO <;>
      simp [h1, h2, h3, h4, h5, h6, h7, h8] <;> decide
  · unfold CommonMmu.EfiAttributeConverse AttrSpec.commonPattern
      AttrSpec.commonDirtyCleared AttrSpec.commonCacheCode AttrSpec.commonProtBits
    by_cases h1 : a &&& EFI_MEMORY_CACHETYPE_MASK = EFI_MEMORY_UC <;>
      by_cases h2 : a &&& EFI_MEMORY_CACHETYPE_MASK = EFI_MEMORY_WC <;>
      by_cases h3 : a &&& EFI_MEMORY_CACHETYPE_MASK = EFI_MEMORY_WT <;>
      by_cases h4 : a &&& EFI_MEMORY_CACHETYPE_MASK = EFI_MEMORY_WB <;>
      by_cases h6 : a &&& EFI_MEMORY_RO = 0 <;>
      by_cases h7 : a &&& EFI_MEMORY_WP = 0 <;>
      by_cases h8 : a &&& EFI_MEMORY_RP = 0 <;>
      by_cases h9 : a &&& EFI_MEMORY_XP = 0 <;>
      simp [h1, h2, h3, h4, h6, h7, h8, h9] <;> decide

/-- Claim C3, counterexample to the claim as frozen: write-combining (an
uncached cache type) is translated by the `CommonMmuLib.c` version to the
coherent-cached code rather than a non-coherent one; the unrecognized
cache type `EFI_MEMORY_UCE` is translated by the `CpuMmu.c` version to the
strongly-ordered-uncached code rather than coherent-cached; and a set
carrying both read-protect and execute-protect sets neither the no-read
nor the no-execute bit in the `CpuMmu.c` version. -/
theorem C3_attribute_translator_cx :
    CommonMmu.EfiAttributeConverse EFI_MEMORY_WC &&& CACHE_MASK = CACHE_CC ∧
    CACHE_CC ≠ CACHE_WUC ∧ CACHE_CC ≠ CACHE_SUC ∧
    CpuMmu.EfiAttributeConverse EFI_MEMORY_UCE &&& CACHE_MASK = CACHE_SUC ∧
    CACHE_SUC ≠ CACHE_CC ∧
    CpuMmu.EfiAttributeConverse (EFI_MEMORY_RP ||| EFI_MEMORY_XP) &&& PAGE_NO_READ = 0 ∧
    CpuMmu.EfiAttributeConverse (EFI_MEMORY_RP ||| EFI_MEMORY_XP) &&& PAGE_NO_EXEC = 0 := by
  decide

/-! ## Claim C5 -/

/-- Claim C5 (amended).  With the translation hardware unconfigured (zero
root-table register and initialization flag unset, so `MmuIsInit` is
false), setting region attributes and querying region attributes return
unsupported with the state and the caller's output variables untouched, in
both libraries; setting a region no-execute also touches no table, but it
returns success rather than unsupported. -/
theorem C5_unconfigured_mmu_guards (stB : CommonMmu.St) (stA : CpuMmu.St)
    (g : CpuMmu.Geo) (fuel base len attrs endA lenIn attrsIn fuelA baseA lenA attrsA : Nat)
    (hB : CommonMmu.MmuIsInit stB = false) (hA : CpuMmu.MmuIsInit stA = false) :
    CommonMmu.SetMemoryAttributes fuel stB base len attrs = (EFI_UNSUPPORTED, stB) ∧
    CommonMmu.GetMemoryRegionAttribute fuel stB base endA lenIn attrsIn =
      (EFI_UNSUPPORTED, lenIn, attrsIn, true) ∧
    CommonMmu.SetMemoryRegionNoExec fuel stB base len = (EFI_SUCCESS, stB) ∧
    CpuMmu.SetMemoryRegionAttributes g fuelA baseA lenA attrsA stA =
      (EFI_UNSUPPORTED, stA) := by
  refine ⟨?_, ?_, ?_, ?_⟩
  · simp [CommonMmu.SetMemoryAttributes, hB]
  · simp [CommonMmu.GetMemoryRegionAttribute, hB]
  · simp [CommonMmu.SetMemoryRegionNoExec, hB]
  · simp [CpuMmu.SetMemoryRegionAttributes, hA]

/-- Claim C5, witness. -/
theorem C5_unconfigured_mmu_guards_witness :
    CommonMmu.MmuIsInit ⟨[], [], [], 0, false⟩ = false ∧
    CpuMmu.MmuIsInit ⟨[], [], [], 0, false⟩ = false ∧
    CommonMmu.SetMemoryRegionNoExec 5 ⟨[], [], [], 0, false⟩ 0 4096 =
      (EFI_SUCCESS, ⟨[], [], [], 0, false⟩) :=
  ⟨by decide, by decide,
    (C5_unconfigured_mmu_guards ⟨[], [], [], 0, false⟩ ⟨[], [], [], 0, false⟩
      ⟨3, 2⟩ 5 0 4096 0 0 0 0 5 0 4096 0 (by decide) (by decide)).2.2.1⟩

/-- Claim C5, counterexample to the claim as frozen: with the MMU
unconfigured, the no-execute entry point reports success, not
unsupported. -/
theorem C5_unconfigured_mmu_cx :
    CommonMmu.MmuIsInit ⟨[], [], [], 0, false⟩ = false ∧
    (CommonMmu.SetMemoryRegionNoExec 5 ⟨[], [], [], 0, false⟩ 0 4096).1 = EFI_SUCCESS ∧
    EFI_SUCCESS ≠ EFI_UNSUPPORTED := by
  decide

/-! ## Claim C6 -/

/-- Claim C6 (amended).  The `CpuMmuLib` region-mapping entry point
`UpdateRegionMapping` rejects a start address or length that is not
page-aligned with invalid-argument, leaving the state untouched; the
`CommonMmuLib` entry point `SetMemoryAttributes` performs no alignment
check at all (see the counterexample). -/
theorem C6_unaligned_rejected (g : CpuMmu.Geo) (st : CpuMmu.St)
    (fuel rs rlen aset aclr root : Nat) (live : Bool)
    (h : (rs ||| rlen) &&& EFI_PAGE_MASK ≠ 0) :
    CpuMmu.UpdateRegionMapping g fuel rs rlen aset aclr root live st =
      (EFI_INVALID_PARAMETER, st) := by
  simp [CpuMmu.UpdateRegionMapping, h]

/-- Claim C6, witness. -/
theorem C6_unaligned_rejected_witness :
    (0x800 ||| 0x1000) &&& EFI_PAGE_MASK ≠ 0 ∧
    CpuMmu.UpdateRegionMapping ⟨3, 2⟩ 20 0x800 0x1000 0 0 0x1000 false
      ⟨[(0x1000, List.replicate 4 0)], [], [], 0x1000, false⟩ =
      (EFI_INVALID_PARAMETER, ⟨[(0x1000, List.replicate 4 0)], [], [], 0x1000, false⟩) :=
  ⟨by decide,
    C6_unaligned_rejected ⟨3, 2⟩ ⟨[(0x1000, List.replicate 4 0)], [], [], 0x1000, false⟩
      20 0x800 0x1000 0 0 0x1000 false (by decide)⟩

/-- Concrete state for the C6 counterexample: a configured MMU with an
empty root table and three free pages. -/
def unalignedSt : CommonMmu.St :=
  { mem := [(0x1000, List.replicate 512 0)], fresh := [0x2000, 0x3000, 0x4000],
    tlb := [], pgdl := 0x1000, mMmuInited := false }

/-- Claim C6, counterexample to the claim as frozen: the `CommonMmuLib`
entry point `SetMemoryAttributes` accepts an unaligned base address and
reports success after building mappings, instead of failing with
invalid-argument and leaving every table entry unchanged. -/
theorem C6_unaligned_cx :
    0x800 &&& EFI_PAGE_MASK ≠ 0 ∧
    (CommonMmu.SetMemoryAttributes 10 unalignedSt 0x800 0x1000 EFI_MEMORY_WB).1 =
      EFI_SUCCESS ∧
    EFI_SUCCESS ≠ EFI_INVALID_PARAMETER ∧
    (CommonMmu.SetMemoryAttributes 10 unalignedSt 0x800 0x1000 EFI_MEMORY_WB).2.mem ≠
      unalignedSt.mem := by
  decide

/-! ## Claim C9 -/

/-- With the loop budget one short of the page count of the range, the
`do`-`while` loop of `MemoryMapPteRange` has not yet terminated. -/
theorem PteLoop_undone (tbl attrs : Nat) :
    ∀ f off addr endA st, (∀ k, 1 ≤ k → k ≤ f → addr + k * 4096 ≠ endA) →
      (CommonMmu.PteLoop tbl attrs f off addr endA st).2.2.2 = false := by
  intro f
  induction f with
  | zero => intro off addr endA st _; rfl
  | succ f ih =>
      intro off addr endA st h
      simp only [CommonMmu.PteLoop]
      rw [if_neg (by
        have h1 := h 1 (by omega) (by omega)
        simp only [EFI_PAGE_SIZE]
        omega)]
      exact ih (off + 1) (addr + EFI_PAGE_SIZE) endA _ (fun k hk1 hk2 => by
        have := h (k + 1) (by omega) (by omega)
        simp only [EFI_PAGE_SIZE]
        omega)

/-- The loop of `MemoryMapPteRange` performs exactly `n` body executions
and exits when given budget `n` on a range of exactly `n` pages. -/
theorem PteLoop_exact (tbl attrs : Nat) :
    ∀ n, 1 ≤ n → ∀ off addr st,
      (CommonMmu.PteLoop tbl attrs n off addr (addr + n * 4096) st).2.2 = (n, true) := by
  intro n
  induction n with
  | zero => omega
  | succ m ih =>
      intro _ off addr st
      simp only [CommonMmu.PteLoop]
      by_cases hm : m = 0
      · subst hm
        rw [if_pos (by simp [EFI_PAGE_SIZE])]
      · rw [if_neg (by simp only [EFI_PAGE_SIZE]; omega)]
        have h1 : addr + (m + 1) * 4096 = (addr + EFI_PAGE_SIZE) + m * 4096 := by
          simp only [EFI_PAGE_SIZE]; omega
        rw [h1, ih (by omega) (off + 1) (addr + EFI_PAGE_SIZE)]

/-- Claim C9.  The leaf-mapping loop of `MemoryMapPteRange` terminates
after exactly `(End - Address) / pageSize` body executions when `Address`
and `End` are page-aligned and `Address < End` (one fewer budget leaves
the loop unfinished); and a zero-length call (`Address = End`) is not a
no-op: because the loop is a `do`-`while` testing `Address != End` after
the body, it still writes at least one page-table entry — the entry for
`Address` — before the termination test runs. -/
theorem C9_pte_loop_termination :
    (∀ fuel tbl attrs off addr st,
      ((CommonMmu.PteLoop tbl attrs (fuel + 1) off addr addr st).2.1).head? =
        some (off, CommonMmu.MAKE_PTE addr attrs) ∧
      1 ≤ (CommonMmu.PteLoop tbl attrs (fuel + 1) off addr addr st).2.2.1) ∧
    (∀ tbl attrs off addr endA st, addr % 4096 = 0 → endA % 4096 = 0 → addr < endA →
      (CommonMmu.PteLoop tbl attrs ((endA - addr) / 4096) off addr endA st).2.2 =
        ((endA - addr) / 4096, true) ∧
      (CommonMmu.PteLoop tbl attrs ((endA - addr) / 4096 - 1) off addr endA st).2.2.2 =
        false) := by
  constructor
  · intro fuel tbl attrs off addr st
    simp only [CommonMmu.PteLoop]
    rw [if_neg (by simp [EFI_PAGE_SIZE])]
    constructor
    · rfl
    · show 1 ≤ _ + 1
      omega
  · intro tbl attrs off addr endA st h1 h2 h3
    have hn : endA = addr + ((endA - addr) / 4096) * 4096 := by omega
    have hn1 : 1 ≤ (endA - addr) / 4096 := by omega
    constructor
    · have hx := PteLoop_exact tbl attrs ((endA - addr) / 4096) hn1 off addr st
      rw [← hn] at hx
      exact hx
    · exact PteLoop_undone tbl attrs _ off addr endA st (fun k hk1 hk2 => by omega)

/-- Claim C9, witness: a two-page aligned range takes exactly two
iterations (and budget one is not enough), while a zero-length request
still writes the entry for its start address. -/
theorem C9_pte_loop_termination_witness :
    ((CommonMmu.PteLoop 0x4000 0x53 1 0 0x5000 0x5000
        ⟨[(0x4000, List.replicate 512 0)], [], [], 0x1000, true⟩).2.1).head? =
      some (0, CommonMmu.MAKE_PTE 0x5000 0x53) ∧
    (0 : Nat) % 4096 = 0 ∧ (0x2000 : Nat) % 4096 = 0 ∧ (0 : Nat) < 0x2000 ∧
    (CommonMmu.PteLoop 0x4000 0x53 ((0x2000 - 0) / 4096) 0 0 0x2000
        ⟨[(0x4000, List.replicate 512 0)], [], [], 0x1000, true⟩).2.2 = (2, true) :=
  ⟨(C9_pte_loop_termination.1 0 0x4000 0x53 0 0x5000
      ⟨[(0x4000, List.replicate 512 0)], [], [], 0x1000, true⟩).1,
   by decide, by decide, by decide,
   (C9_pte_loop_termination.2 0x4000 0x53 0 0 0x2000
      ⟨[(0x4000, List.replicate 512 0)], [], [], 0x1000, true⟩
      (by decide) (by decide) (by decide)).1⟩

/-! ## Claim C10 -/

/-- The forward scan of `GetMemoryRegionAttribute` is additive in the
incoming length accumulator. -/
theorem GmraScan_add (st : CommonMmu.St) (endA attrs : Nat) :
    ∀ fuel base len c, (CommonMmu.GmraScan st endA attrs fuel base (len + c)).1 =
      (CommonMmu.GmraScan st endA attrs fuel base len).1 + c := by
  intro fuel
  induction fuel with
  | zero => intro base len c; rfl
  | succ f ih =>
      intro base len c
      simp only [CommonMmu.GmraScan]
      by_cases h1 : CommonMmu.MAX_ADDRESS_VA < base
      · simp [h1]
      · rw [if_neg h1, if_neg h1]
        cases hv : CommonMmu.GetPteAddress st base with
        | none => rfl
        | some v =>
          simp only
          split_ifs with h2 h3 h3
          · show len + c + CommonMmu.leafStep v = len + CommonMmu.leafStep v + c
            omega
          · show len + c = len + c
            rfl
          · rw [show len + c + CommonMmu.leafStep v =
                len + CommonMmu.leafStep v + c by omega]
            exact ih _ _ c
          · exact ih _ len c

/-- Claim C10.  `GetMemoryRegionAttribute` accumulates into the output
length with `+=` and never initializes it, so the reported length is the
incoming value of `*RegionLength` plus the length computed from zero; and
for a mapped base address within the virtual-address range, the scan
re-reads the leaf at the starting base in its first iteration after that
leaf's size was already added before the loop, so the first leaf's size is
counted twice. -/
theorem C10_query_length_bias :
    (∀ fuel st base endA lenIn attrsIn,
      (CommonMmu.GetMemoryRegionAttribute fuel st base endA lenIn attrsIn).2.1 =
        lenIn + (CommonMmu.GetMemoryRegionAttribute fuel st base endA 0 attrsIn).2.1) ∧
    (∀ fuel st base endA lenIn attrsIn v,
      CommonMmu.MmuIsInit st = true → CommonMmu.GetPteAddress st base = some v →
      base ≤ CommonMmu.MAX_ADDRESS_VA →
      ∃ r, (CommonMmu.GetMemoryRegionAttribute (fuel + 1) st base endA lenIn attrsIn).2.1 =
        lenIn + 2 * CommonMmu.leafStep v + r) := by
  constructor
  · intro fuel st base endA lenIn attrsIn
    unfold CommonMmu.GetMemoryRegionAttribute
    cases hI : CommonMmu.MmuIsInit st with
    | false => simp
    | true =>
      simp only [Bool.not_true, Bool.false_eq_true, if_false]
      cases hv : CommonMmu.GetPteAddress st base with
      | none => simp
      | some v =>
        simp only
        rw [show lenIn + CommonMmu.leafStep v =
            (0 + CommonMmu.leafStep v) + lenIn by omega, GmraScan_add]
        omega
  · intro fuel st base endA lenIn attrsIn v hI hv hb
    unfold CommonMmu.GetMemoryRegionAttribute
    rw [hI, hv]
    simp only [Bool.not_true, Bool.false_eq_true, if_false]
    simp only [CommonMmu.GmraScan]
    rw [if_neg (by omega), hv]
    simp only [eq_self_iff_true, if_true]
    by_cases h3 : endA < base + CommonMmu.leafStep v
    · refine ⟨0, ?_⟩
      rw [if_pos h3]
      show lenIn + CommonMmu.leafStep v + CommonMmu.leafStep v =
        lenIn + 2 * CommonMmu.leafStep v + 0
      omega
    · refine ⟨(CommonMmu.GmraScan st endA (CommonMmu.GET_PAGE_ATTRIBUTES v) fuel
        (base + CommonMmu.leafStep v) 0).1, ?_⟩
      rw [if_neg h3]
      rw [show lenIn + CommonMmu.leafStep v + CommonMmu.leafStep v =
          0 + (lenIn + 2 * CommonMmu.leafStep v) by omega, GmraScan_add]
      omega

/-- Table pages for the query-claim scenarios: an identity-style 4-level
chain mapping virtual pages 0 and 0x1000 with equal attributes. -/
def qPteTbl : List Nat :=
  ((List.replicate 512 0).set 0 (CommonMmu.MAKE_PTE 0x2000 0x53)).set 1
    (CommonMmu.MAKE_PTE 0x4000 0x53)

/-- Concrete query state: PGD at 0x1000 → PUD at 0x2000 → PMD at 0x3000 →
PTE table at 0x4000 holding the two mapped pages. -/
def qSt : CommonMmu.St :=
  { mem := [(0x1000, (List.replicate 512 0).set 0 0x2000),
            (0x2000, (List.replicate 512 0).set 0 0x3000),
            (0x3000, (List.replicate 512 0).set 0 0x4000),
            (0x4000, qPteTbl)],
    fresh := [], tlb := [], pgdl := 0x1000, mMmuInited := true }

/-- Claim C10, witness: on the concrete two-page state with incoming
length 0x7000, the reported length is 0x7000 plus twice the first page
plus the second page. -/
theorem C10_query_length_bias_witness :
    CommonMmu.MmuIsInit qSt = true ∧
    CommonMmu.GetPteAddress qSt 0 = some (CommonMmu.MAKE_PTE 0x2000 0x53) ∧
    (CommonMmu.GetMemoryRegionAttribute 10 qSt 0 0x2000 0x7000 0).2.1 =
      0x7000 + (CommonMmu.GetMemoryRegionAttribute 10 qSt 0 0x2000 0 0).2.1 ∧
    (∃ r, (CommonMmu.GetMemoryRegionAttribute 10 qSt 0 0x2000 0x7000 0).2.1 =
      0x7000 + 2 * CommonMmu.leafStep (CommonMmu.MAKE_PTE 0x2000 0x53) + r) :=
  ⟨by decide, by decide,
   C10_query_length_bias.1 10 qSt 0 0x2000 0x7000 0,
   C10_query_length_bias.2 9 qSt 0 0x2000 0x7000 0
     (CommonMmu.MAKE_PTE 0x2000 0x53) (by decide) (by decide) (by decide)⟩

/-! ## Claim C4 -/

/-- Claim C4 (code bug).  On a state with exactly the two pages
`[0, 0x2000)` mapped with identical attributes, the claim (and spec)
require the query over `[0, 0x2000)` to report length `0x2000`; the code
reports `0x3000` because it re-counts the first page.  The status and
attribute outputs on this input are as the claim says. -/
theorem C4_query_reports_wrong_length :
    CommonMmu.GetMemoryRegionAttribute 10 qSt 0 0x2000 0 0 =
      (EFI_SUCCESS, 0x3000, 0x53, true) ∧
    (0x3000 : Nat) ≠ 0x2000 ∧
    (CommonMmu.GetMemoryRegionAttribute 10 qSt 0x40000000 0x40001000 0 0).1 =
      EFI_NOT_FOUND := by
  decide

/-! ## Basic memory lemmas -/

theorem List.set_of_getD : ∀ (l : List Nat) (i v : Nat), i < l.length →
    l.getD i 0 = v → l.set i v = l := by
  intro l
  induction l with
  | nil => intro i v h; simp at h
  | cons a l ih =>
      intro i v h hg
      cases i with
      | zero => simp_all [List.getD]
      | succ j =>
          simp only [List.set]
          rw [ih j v (by simpa using h) (by simpa [List.getD] using hg)]

theorem List.length_set_eq (l : List Nat) (i v : Nat) : (l.set i v).length = l.length :=
  List.length_set l i v

theorem List.getD_set_self : ∀ (l : List Nat) (i v : Nat), i < l.length →
    (l.set i v).getD i 0 = v := by
  intro l
  induction l with
  | nil => intro i v h; simp at h
  | cons a l ih =>
      intro i v h
      cases i with
      | zero => rfl
      | succ j => simpa [List.getD] using ih j v (by simpa using h)

theorem List.getD_set_ne : ∀ (l : List Nat) (i j v : Nat), i ≠ j →
    (l.set i v).getD j 0 = l.getD j 0 := by
  intro l
  induction l with
  | nil => intro i j v h; rfl
  | cons a l ih =>
      intro i j v h
      cases i with
      | zero =>
          cases j with
          | zero => omega
          | succ k => rfl
      | succ i1 =>
          cases j with
          | zero => rfl
          | succ k => simpa [List.getD] using ih i1 k v (by omega)

theorem lookupTbl_memWrite_self : ∀ (m : Mem) (t : Nat) (tbl : List Nat),
    lookupTbl (memWrite m t tbl) t = some tbl := by
  intro m
  induction m with
  | nil => intro t tbl; simp [memWrite, lookupTbl]
  | cons p m ih =>
      intro t tbl
      rcases p with ⟨a, b⟩
      by_cases h : a = t
      · simp [memWrite, lookupTbl, h]
      · simp only [memWrite, if_neg h, lookupTbl]
        exact ih t tbl

theorem lookupTbl_memWrite_ne : ∀ (m : Mem) (t u : Nat) (tbl : List Nat), u ≠ t →
    lookupTbl (memWrite m t tbl) u = lookupTbl m u := by
  intro m
  induction m with
  | nil =>
      intro t u tbl h
      simp only [memWrite, lookupTbl]
      rw [if_neg (by omega)]
  | cons p m ih =>
      intro t u tbl h
      rcases p with ⟨a, b⟩
      by_cases h1 : a = t
      · subst h1
        simp only [memWrite, if_pos rfl, lookupTbl]
        rw [if_neg (by omega), if_neg (by omega)]
      · simp only [memWrite, if_neg h1, lookupTbl]
        by_cases h2 : a = u
        · rw [if_pos h2, if_pos h2]
        · rw [if_neg h2, if_neg h2]
          exact ih t u tbl h

theorem memWrite_of_lookup : ∀ (m : Mem) (t : Nat) (tbl : List Nat),
    lookupTbl m t = some tbl → memWrite m t tbl = m := by
  intro m
  induction m with
  | nil => intro t tbl h; simp [lookupTbl] at h
  | cons p m ih =>
      intro t tbl h
      rcases p with ⟨a, b⟩
      by_cases h1 : a = t
      · subst h1
        simp only [lookupTbl, eq_self_iff_true, if_true] at h
        simp only [memWrite, eq_self_iff_true, if_true]
        rw [Option.some_inj] at h
        rw [h]
      · simp only [lookupTbl, if_neg h1] at h
        simp only [memWrite, if_neg h1]
        rw [ih t tbl h]

/-- Unchanged entry of an unrelated table after `setEntry`. -/
theorem entryAt_setEntry_ne_tbl (m : Mem) (t u i j v : Nat) (h : u ≠ t) :
    entryAt (setEntry m t i v) u j = entryAt m u j := by
  unfold entryAt setEntry tblOf
  rw [lookupTbl_memWrite_ne m t u _ h]

/-! ## Claim C8 -/

/-- The leaf loop writes only into `tbl`: every other table is
untouched. -/
theorem PteLoop_footprint (tbl attrs : Nat) :
    ∀ f off addr endA st u, u ≠ tbl →
      lookupTbl (CommonMmu.PteLoop tbl attrs f off addr endA st).1.mem u =
        lookupTbl st.mem u := by
  intro f
  induction f with
  | zero => intro off addr endA st u h; rfl
  | succ f ih =>
      intro off addr endA st u h
      simp only [CommonMmu.PteLoop]
      by_cases h1 : addr + EFI_PAGE_SIZE = endA
      · rw [if_pos h1]
        show lookupTbl (setEntry st.mem tbl off _) u = _
        unfold setEntry
        exact lookupTbl_memWrite_ne _ _ _ _ h
      · rw [if_neg h1]
        show lookupTbl (CommonMmu.PteLoop tbl attrs f (off + 1) (addr + EFI_PAGE_SIZE)
          endA _).1.mem u = _
        rw [ih _ _ _ _ u h]
        show lookupTbl (setEntry st.mem tbl off _) u = _
        unfold setEntry
        exact lookupTbl_memWrite_ne _ _ _ _ h

/-- Other registers of the state are untouched by the leaf loop. -/
theorem PteLoop_regs (tbl attrs : Nat) :
    ∀ f off addr endA st,
      (CommonMmu.PteLoop tbl attrs f off addr endA st).1.pgdl = st.pgdl ∧
      (CommonMmu.PteLoop tbl attrs f off addr endA st).1.mMmuInited = st.mMmuInited ∧
      (CommonMmu.PteLoop tbl attrs f off addr endA st).1.fresh = st.fresh := by
  intro f
  induction f with
  | zero => intro off addr endA st; exact ⟨rfl, rfl, rfl⟩
  | succ f ih =>
      intro off addr endA st
      simp only [CommonMmu.PteLoop]
      by_cases h1 : addr + EFI_PAGE_SIZE = endA
      · rw [if_pos h1]
        exact ⟨rfl, rfl, rfl⟩
      · rw [if_neg h1]
        exact ih _ _ _ _

/-- After a completed leaf loop over `n` pages, the table holds the
`MAKE_PTE` values at offsets `off..off+n-1`, entries below `off` are
unchanged, and the table keeps its arity. -/
theorem PteLoop_post (tbl attrs : Nat) :
    ∀ n off addr st L, 1 ≤ n → lookupTbl st.mem tbl = some L → off + n ≤ L.length →
      ∃ L1, lookupTbl (CommonMmu.PteLoop tbl attrs n off addr (addr + n * 4096)
          st).1.mem tbl = some L1 ∧ L1.length = L.length ∧
        (∀ k, k < n → L1.getD (off + k) 0 = CommonMmu.MAKE_PTE (addr + k * 4096) attrs) ∧
        (∀ j, j < off → L1.getD j 0 = L.getD j 0) := by
  intro n
  induction n with
  | zero => omega
  | succ m ih =>
      intro off addr st L _ hL hlen
      simp only [CommonMmu.PteLoop]
      by_cases hm : m = 0
      · subst hm
        rw [if_pos (by simp [EFI_PAGE_SIZE])]
        refine ⟨L.set off (CommonMmu.MAKE_PTE addr attrs), ?_, ?_, ?_, ?_⟩
        · show lookupTbl (setEntry st.mem tbl off (CommonMmu.MAKE_PTE addr attrs)) tbl =
            some (L.set off (CommonMmu.MAKE_PTE addr attrs))
          unfold setEntry tblOf
          rw [hL]
          exact lookupTbl_memWrite_self _ _ _
        · exact List.length_set_eq L off _
        · intro k hk
          have hk0 : k = 0 := by omega
          subst hk0
          simpa using List.getD_set_self L off _ (by omega)
        · intro j hj
          exact List.getD_set_ne L off j _ (by omega)
      · rw [if_neg (by simp only [EFI_PAGE_SIZE]; omega)]
        have hL2 : lookupTbl (setEntry st.mem tbl off
            (CommonMmu.MAKE_PTE addr attrs)) tbl =
            some (L.set off (CommonMmu.MAKE_PTE addr attrs)) := by
          unfold setEntry tblOf
          rw [hL]
          exact lookupTbl_memWrite_self _ _ _
        have hrec := ih (off + 1) (addr + EFI_PAGE_SIZE)
          ({ st with
              mem := setEntry st.mem tbl off (CommonMmu.MAKE_PTE addr attrs),
              tlb := if (entryAt st.mem tbl off != INVALID_PAGE &&
                entryAt st.mem tbl off != CommonMmu.MAKE_PTE addr attrs) then
                addr :: st.tlb
              else st.tlb })
          (L.set off (CommonMmu.MAKE_PTE addr attrs)) (by omega)
          hL2 (by rw [List.length_set_eq]; omega)
        have harith : addr + EFI_PAGE_SIZE + m * 4096 = addr + (m + 1) * 4096 := by
          simp only [EFI_PAGE_SIZE]; omega
        rw [harith] at hrec
        rcases hrec with ⟨L1, hL1, hlen1, hvals, hlow⟩
        refine ⟨L1, hL1, by rw [hlen1, List.length_set_eq], ?_, ?_⟩
        · intro k hk
          cases k with
          | zero =>
              have := hlow off (by omega)
              rw [show off + 0 = off by omega, this]
              simpa using List.getD_set_self L off _ (by omega)
          | succ k1 =>
              have := hvals k1 (by omega)
              rw [show addr + EFI_PAGE_SIZE + k1 * 4096 = addr + (k1 + 1) * 4096 by
                simp only [EFI_PAGE_SIZE]; omega] at this
              rw [show off + (k1 + 1) = off + 1 + k1 by omega]
              exact this
        · intro j hj
          rw [hlow j (by omega)]
          exact List.getD_set_ne L off j _ (by omega)

/-- If the table already holds exactly the values the loop writes, the
loop is a no-op: the final state is bit-identical and no invalidation is
logged. -/
theorem PteLoop_idem (tbl attrs : Nat) :
    ∀ n off addr st L, 1 ≤ n → lookupTbl st.mem tbl = some L → off + n ≤ L.length →
      (∀ k, k < n → L.getD (off + k) 0 = CommonMmu.MAKE_PTE (addr + k * 4096) attrs) →
      (CommonMmu.PteLoop tbl attrs n off addr (addr + n * 4096) st).1 = st := by
  intro n
  induction n with
  | zero => omega
  | succ m ih =>
      intro off addr st L _ hL hlen hvals
      have hold : entryAt st.mem tbl off = CommonMmu.MAKE_PTE addr attrs := by
        have := hvals 0 (by omega)
        simpa [entryAt, tblOf, hL] using this
      have hupd : (entryAt st.mem tbl off != INVALID_PAGE &&
          entryAt st.mem tbl off != CommonMmu.MAKE_PTE addr attrs) = false := by
        rw [hold]; simp
      have hself : setEntry st.mem tbl off (CommonMmu.MAKE_PTE addr attrs) = st.mem := by
        unfold setEntry tblOf
        rw [hL]
        simp only [Option.getD_some]
        rw [List.set_of_getD L off _ (by omega) (by simpa [entryAt, tblOf, hL] using hold)]
        exact memWrite_of_lookup st.mem tbl L hL
      simp only [CommonMmu.PteLoop]
      have hst2 :
          ({ st with
              mem := setEntry st.mem tbl off (CommonMmu.MAKE_PTE addr attrs),
              tlb := if (entryAt st.mem tbl off != INVALID_PAGE &&
                entryAt st.mem tbl off != CommonMmu.MAKE_PTE addr attrs) then
                addr :: st.tlb
              else st.tlb } : CommonMmu.St) = st := by
        rw [hupd, hself]
        simp
      rw [hst2]
      by_cases hm : m = 0
      · subst hm
        rw [if_pos (by simp [EFI_PAGE_SIZE])]
      · rw [if_neg (by simp only [EFI_PAGE_SIZE]; omega)]
        have harith : addr + (m + 1) * 4096 = addr + EFI_PAGE_SIZE + m * 4096 := by
          simp only [EFI_PAGE_SIZE]; omega
        rw [harith]
        exact ih (off + 1) (addr + EFI_PAGE_SIZE) st L (by omega) hL (by omega)
          (fun k hk => by
            have := hvals (k + 1) (by omega)
            rw [show addr + (k + 1) * 4096 = addr + EFI_PAGE_SIZE + k * 4096 by
              simp only [EFI_PAGE_SIZE]; omega] at this
            rw [show off + 1 + k = off + (k + 1) by omega]
            exact this)

/-- Claim C8 (amended).  For the `CommonMmuLib` leaf-mapping loop, whose
entry writes are guarded by an old-value comparison, a second
`MemoryMapPteRange` call with identical arguments over a range whose PTE
table already exists is a no-op: the machine state after the second call
is bit-identical to the state after the first call — in particular no
additional TLB invalidation is issued — and the second call reports
success.  (The `CpuMmuLib` path does not have this property for
invalidations; see the counterexample.) -/
theorem C8_set_attributes_idempotent (st : CommonMmu.St)
    (pmdT pmdIdx addr endA attrs tbl : Nat) (L : List Nat)
    (h1 : entryAt st.mem pmdT pmdIdx = tbl) (h2 : tbl ≠ INVALID_PAGE)
    (h3 : lookupTbl st.mem tbl = some L) (h4 : pmdT ≠ tbl)
    (h5 : addr % 4096 = 0) (h6 : endA % 4096 = 0) (h7 : addr < endA)
    (h8 : CommonMmu.PTE_INDEX addr + (endA - addr) / 4096 ≤ L.length) :
    (CommonMmu.MemoryMapPteRange ((endA - addr) / 4096)
        (CommonMmu.MemoryMapPteRange ((endA - addr) / 4096) st pmdT pmdIdx addr endA
          attrs).2.1 pmdT pmdIdx addr endA attrs).2.1 =
      (CommonMmu.MemoryMapPteRange ((endA - addr) / 4096) st pmdT pmdIdx addr endA
        attrs).2.1 ∧
    (CommonMmu.MemoryMapPteRange ((endA - addr) / 4096)
        (CommonMmu.MemoryMapPteRange ((endA - addr) / 4096) st pmdT pmdIdx addr endA
          attrs).2.1 pmdT pmdIdx addr endA attrs).1 = EFI_SUCCESS := by
  have hn1 : 1 ≤ (endA - addr) / 4096 := by omega
  have hend : endA = addr + ((endA - addr) / 4096) * 4096 := by omega
  unfold CommonMmu.MemoryMapPteRange
  rw [h1, if_neg h2]
  set st1 := (CommonMmu.PteLoop tbl attrs ((endA - addr) / 4096)
    (CommonMmu.PTE_INDEX addr) addr endA st).1 with hst1
  have hpost := PteLoop_post tbl attrs ((endA - addr) / 4096) (CommonMmu.PTE_INDEX addr)
    addr st L hn1 h3 h8
  rw [← hend] at hpost
  rcases hpost with ⟨L1, hL1, hlen1, hvals, _⟩
  have hentry1 : entryAt st1.mem pmdT pmdIdx = tbl := by
    rw [hst1]
    unfold entryAt tblOf
    rw [PteLoop_footprint tbl attrs _ _ _ _ _ pmdT h4]
    exact h1
  simp only
  rw [hentry1, if_neg h2]
  have hidem := PteLoop_idem tbl attrs ((endA - addr) / 4096) (CommonMmu.PTE_INDEX addr)
    addr st1 L1 hn1 hL1 (by omega) hvals
  rw [← hend] at hidem
  simp only
  rw [hidem]
  constructor
  · rfl
  · trivial

/-- Claim C8, witness: two pages of an existing PTE table, mapped twice;
the second call leaves the state bit-identical and succeeds. -/
theorem C8_set_attributes_idempotent_witness :
    entryAt ([(0x3000, (List.replicate 512 0).set 0 0x4000),
      (0x4000, List.replicate 512 0)] : Mem) 0x3000 0 = 0x4000 ∧
    (CommonMmu.MemoryMapPteRange 2
        (CommonMmu.MemoryMapPteRange 2
          ⟨[(0x3000, (List.replicate 512 0).set 0 0x4000),
            (0x4000, List.replicate 512 0)], [], [], 0x1000, true⟩
          0x3000 0 0 0x2000 0x53).2.1 0x3000 0 0 0x2000 0x53).1 = EFI_SUCCESS :=
  ⟨by decide,
   (C8_set_attributes_idempotent
      ⟨[(0x3000, (List.replicate 512 0).set 0 0x4000),
        (0x4000, List.replicate 512 0)], [], [], 0x1000, true⟩
      0x3000 0 0 0x2000 0x53 0x4000 (List.replicate 512 0)
      (by decide) (by decide) (by decide) (by decide) (by decide) (by decide)
      (by decide) (by decide)).2⟩

/-- Claim C8, counterexample to the claim as frozen: on the `CpuMmuLib`
path (`ReplaceTableEntry` writes and invalidates unconditionally on live
tables), a second `SetMemoryRegionAttributes` call with identical
arguments leaves the table state identical but issues a further TLB
invalidation beyond those of the first call. -/
theorem C8_reinvalidation_cx :
    (CpuMmu.SetMemoryRegionAttributes ⟨3, 2⟩ 20 0 0x1000 EFI_MEMORY_WB
      ⟨[(0x1000, List.replicate 4 0)], [0x2000, 0x3000], [], 0x1000, true⟩).2.tlb.length
      = 1 ∧
    (CpuMmu.SetMemoryRegionAttributes ⟨3, 2⟩ 20 0 0x1000 EFI_MEMORY_WB
      (CpuMmu.SetMemoryRegionAttributes ⟨3, 2⟩ 20 0 0x1000 EFI_MEMORY_WB
        ⟨[(0x1000, List.replicate 4 0)], [0x2000, 0x3000], [], 0x1000,
          true⟩).2).2.tlb.length = 2 ∧
    (CpuMmu.SetMemoryRegionAttributes ⟨3, 2⟩ 20 0 0x1000 EFI_MEMORY_WB
      (CpuMmu.SetMemoryRegionAttributes ⟨3, 2⟩ 20 0 0x1000 EFI_MEMORY_WB
        ⟨[(0x1000, List.replicate 4 0)], [0x2000, 0x3000], [], 0x1000,
          true⟩).2).2.mem =
      (CpuMmu.SetMemoryRegionAttributes ⟨3, 2⟩ 20 0 0x1000 EFI_MEMORY_WB
        ⟨[(0x1000, List.replicate 4 0)], [0x2000, 0x3000], [], 0x1000,
          true⟩).2.mem := by
  decide

/-! ## Claim C7, counterexample -/

/-- Claim C7, counterexample to the claim as frozen: with a 4-level
geometry, mapping the aligned range `[0, 0x4000)` writes a block (huge)
entry into the table at level 2 — which is the second-to-last level — so
the second-to-last level does hold block entries. -/
theorem C7_second_to_last_block_cx :
    (CpuMmu.UpdateRegionMapping ⟨4, 2⟩ 30 0 0x4000
      (CpuMmu.EfiAttributeConverse EFI_MEMORY_WB) PTE_ATTRIBUTES_MASK 0x1000 false
      ⟨[(0x1000, List.replicate 4 0)], [0x2000, 0x3000], [], 0x1000, false⟩).1 =
      EFI_SUCCESS ∧
    CpuMmu.IsValidHugePage
      (entryAt (CpuMmu.UpdateRegionMapping ⟨4, 2⟩ 30 0 0x4000
        (CpuMmu.EfiAttributeConverse EFI_MEMORY_WB) PTE_ATTRIBUTES_MASK 0x1000 false
        ⟨[(0x1000, List.replicate 4 0)], [0x2000, 0x3000], [], 0x1000,
          false⟩).2.mem 0x3000 0) = true ∧
    (2 : Nat) = 4 - 2 := by
  decide

end MmuSpec

namespace MmuSpec.CpuMmu

/-! ### Arithmetic and bit-level toolkit for the recursive mapper proof -/

/-- Number of virtual-address bits interpreted by the walk from level
`lv` down: `w` bits per remaining level plus the page offset. -/
def spanOf (g : Geo) (lv : Nat) : Nat :=
  (g.maxLv - lv) * g.w + LOONGARCH_MMU_PAGE_SHIFT

/-- Attribute bits of every leaf written with set-mask `aset` under a
full clear mask (the global and valid bits are always added; the
huge-global bit lies outside `PTE_ATTRIBUTES_MASK`). -/
def leafAttrs (aset : Nat) : Nat :=
  (aset &&& PTE_ATTRIBUTES_MASK) ||| PAGE_GLOBAL ||| PAGE_VALID

theorem testBit_align {t k i : Nat} (h : t % 2 ^ k = 0) (hik : i < k) :
    t.testBit i = false := by
  have hm := Nat.testBit_mod_two_pow t k i
  rw [h, Nat.zero_testBit] at hm
  simpa [hik] using hm.symm

theorem testBit_ge {t w i : Nat} (h : t < 2 ^ w) (hw : w ≤ i) :
    t.testBit i = false :=
  Nat.testBit_lt_two_pow (lt_of_lt_of_le h (Nat.pow_le_pow_right (by norm_num) hw))

theorem or_eq_zero_iff (a b : Nat) : a ||| b = 0 ↔ a = 0 ∧ b = 0 := by
  constructor
  · intro h
    constructor
    · apply Nat.eq_of_testBit_eq
      intro i
      have := congrArg (fun x => x.testBit i) h
      simp only [Nat.testBit_lor, Nat.zero_testBit, Bool.or_eq_false_iff] at this
      simp [this.1]
    · apply Nat.eq_of_testBit_eq
      intro i
      have := congrArg (fun x => x.testBit i) h
      simp only [Nat.testBit_lor, Nat.zero_testBit, Bool.or_eq_false_iff] at this
      simp [this.2]
  · rintro ⟨rfl, rfl⟩
    rfl

theorem testBit_div_mul {x s i : Nat} (h : s ≤ i) :
    (x / 2 ^ s * 2 ^ s).testBit i = x.testBit i := by
  rw [Nat.testBit_to_div_mod, Nat.testBit_to_div_mod]
  have h2 : (2 : Nat) ^ i = 2 ^ s * 2 ^ (i - s) := by
    rw [← pow_add]
    congr 1
    omega
  rw [h2, ← Nat.div_div_eq_div_mul, Nat.mul_div_left _ (by positivity),
    Nat.div_div_eq_div_mul, ← h2]

/-- Or with a contiguous low mask, written as a sum. -/
theorem or_add_low : ∀ (s q r : Nat), r < 2 ^ s → q * 2 ^ s ||| r = q * 2 ^ s + r := by
  intro s
  induction s with
  | zero =>
      intro q r h
      have : r = 0 := by omega
      subst this
      simp
  | succ s ih =>
      intro q r h
      have h1 : q * 2 ^ (s + 1) = Nat.bit false (q * 2 ^ s) := by
        rw [Nat.bit_val]
        simp [pow_succ]
        ring
      have h2 : r = Nat.bit r.bodd r.div2 := (Nat.bit_decomp r).symm
      rw [h1, h2, Nat.lor_bit, Nat.bit_val, Nat.bit_val, Nat.bit_val, Bool.false_or]
      have hr2 : r.div2 < 2 ^ s := by
        rw [Nat.div2_val]
        have := Nat.bodd_add_div2 r
        rw [pow_succ] at h
        omega
      rw [ih q r.div2 hr2]
      simp only [Bool.toNat_false, Nat.add_zero]
      ring

theorem or_low_eq (x s : Nat) : x ||| (2 ^ s - 1) = x / 2 ^ s * 2 ^ s + (2 ^ s - 1) := by
  have h1 : x ||| (2 ^ s - 1) = x / 2 ^ s * 2 ^ s ||| (2 ^ s - 1) := by
    apply Nat.eq_of_testBit_eq
    intro i
    rw [Nat.testBit_lor, Nat.testBit_lor, Nat.testBit_two_pow_sub_one]
    by_cases hi : i < s
    · simp [hi]
    · rw [testBit_div_mul (by omega)]
  rw [h1, or_add_low _ _ _ (Nat.sub_lt (by positivity) one_pos)]

/-- The first address after the block containing `x`. -/
theorem blockEnd_arith (x s : Nat) : (x ||| (2 ^ s - 1)) + 1 = (x / 2 ^ s + 1) * 2 ^ s := by
  rw [or_low_eq]
  have : (0 : Nat) < 2 ^ s := by positivity
  ring_nf
  omega

/-- Clearing a contiguous low mask rounds down to the block base. -/
theorem and_not64_low {x s : Nat} (hx : x < 2 ^ 64) (hs : s ≤ 64) :
    x &&& not64 (2 ^ s - 1) = x / 2 ^ s * 2 ^ s := by
  have hmask : not64 (2 ^ s - 1) = (2 ^ (64 - s) - 1) <<< s := by
    rw [Nat.shiftLeft_eq, not64]
    have h1 : (2 : Nat) ^ (64 - s) * 2 ^ s = 2 ^ 64 := by
      rw [← pow_add]
      congr 1
      omega
    have h2 : (0 : Nat) < 2 ^ s := by positivity
    have h4 : (2 ^ (64 - s) - 1) * 2 ^ s = 2 ^ 64 - 2 ^ s := by
      rw [Nat.sub_mul, h1, one_mul]
    omega
  rw [hmask]
  apply Nat.eq_of_testBit_eq
  intro i
  rw [Nat.testBit_land, Nat.testBit_shiftLeft, Nat.testBit_two_pow_sub_one]
  by_cases h1 : i < s
  · have : ¬ s ≤ i := by omega
    simp [this, testBit_align (Nat.mul_mod_left _ _) h1]
  · by_cases h2 : i < 64
    · have hsi : s ≤ i := by omega
      have : i - s < 64 - s := by omega
      simp [hsi, this, testBit_div_mul hsi]
    · have h5 : ¬ (i - s < 64 - s) := by omega
      have h6 : x / 2 ^ s * 2 ^ s < 2 ^ 64 :=
        lt_of_le_of_lt (Nat.div_mul_le_self x _) hx
      have h7 : (x / 2 ^ s * 2 ^ s).testBit i = false := testBit_ge h6 (by omega)
      simp [h5, h7]

theorem mod_pow_congr {a b : Nat} {n n' : Nat} (h : a % 2 ^ n = b % 2 ^ n)
    (hn : n' ≤ n) : a % 2 ^ n' = b % 2 ^ n' := by
  have := congrArg (fun x => x % 2 ^ n') h
  simpa [Nat.mod_mod_of_dvd _ (pow_dvd_pow 2 hn)] using this

/-- A superset of the tested bits keeps the test true after an or. -/
theorem and_or_superset {k c : Nat} (y : Nat) (h : k &&& c = c) :
    (y ||| k) &&& c = c := by
  apply Nat.eq_of_testBit_eq
  intro i
  rw [Nat.testBit_land, Nat.testBit_lor]
  have hi := congrArg (fun x => x.testBit i) h
  simp only [Nat.testBit_land] at hi
  cases hc : c.testBit i
  · simp
  · rw [hc] at hi
    simp only [Bool.and_true] at hi
    simp [hi]

theorem ne_of_testBit (i : Nat) {a b : Nat} (h : a.testBit i ≠ b.testBit i) : a ≠ b := by
  intro he
  exact h (by rw [he])

end MmuSpec.CpuMmu

namespace MmuSpec.CpuMmu

/-! ### Mask characterizations and entry classification -/

theorem ATTR_decomp : PTE_ATTRIBUTES_MASK = (2 ^ 12 - 1) ||| ((2 ^ 3 - 1) <<< 61) := by
  decide

theorem ATTR_testBit (i : Nat) :
    PTE_ATTRIBUTES_MASK.testBit i =
      (decide (i < 12) || (decide (61 ≤ i) && decide (i < 64))) := by
  rw [ATTR_decomp, Nat.testBit_lor, Nat.testBit_two_pow_sub_one]
  simp only [Nat.testBit_shiftLeft, Nat.testBit_two_pow_sub_one]
  by_cases h1 : i < 12 <;> by_cases h2 : 61 ≤ i <;>
    simp [h1, h2, show (i - 61 < 3) ↔ (i < 64) by omega]

theorem PPN_decomp : PTE_PPN_MASK = (2 ^ 36 - 1) <<< 12 := by
  decide

theorem PPN_testBit (i : Nat) :
    PTE_PPN_MASK.testBit i = (decide (12 ≤ i) && decide (i < 48)) := by
  rw [PPN_decomp]
  simp only [Nat.testBit_shiftLeft, Nat.testBit_two_pow_sub_one]
  by_cases h2 : 12 ≤ i <;>
    simp [h2, show (i - 12 < 36) ↔ (i < 48) by omega]

theorem notATTR_and_ATTR : not64 PTE_ATTRIBUTES_MASK &&& PTE_ATTRIBUTES_MASK = 0 := by
  decide

theorem notPPN_and_ATTR :
    not64 PTE_PPN_MASK &&& PTE_ATTRIBUTES_MASK = PTE_ATTRIBUTES_MASK := by
  decide

theorem geo_facts {g : Geo} (hg : GeoOkB g = true) :
    1 ≤ g.w ∧ 3 ≤ g.maxLv ∧ g.maxLv ≤ 5 ∧ g.maxLv * g.w + 12 ≤ 64 := by
  simpa [GeoOkB, Bool.and_eq_true, decide_eq_true_eq, and_assoc] using hg

theorem EntryIndex_eq (g : Geo) (lv x : Nat) :
    EntryIndex g lv x = x / 2 ^ BlockShift g lv % 2 ^ g.w := by
  unfold EntryIndex
  rw [Nat.shiftRight_eq_div_pow, Nat.and_pow_two_sub_one_eq_mod]

theorem EntryIndex_lt (g : Geo) (lv x : Nat) : EntryIndex g lv x < 2 ^ g.w := by
  rw [EntryIndex_eq]
  exact Nat.mod_lt _ (by positivity)

theorem spanOf_eq (g : Geo) (lv : Nat) (h : lv < g.maxLv) :
    spanOf g lv = BlockShift g lv + g.w := by
  unfold spanOf BlockShift
  have h2 : (g.maxLv - lv) * g.w = (g.maxLv - lv - 1) * g.w + g.w := by
    have hk : g.maxLv - lv = (g.maxLv - lv - 1) + 1 := by omega
    conv_lhs => rw [hk]
    rw [Nat.succ_mul]
  omega

theorem blockShift_succ (g : Geo) (lv : Nat) : BlockShift g lv = spanOf g (lv + 1) := by
  unfold spanOf BlockShift
  rw [Nat.sub_sub]

theorem div_mod_eq_mod_span (x b c : Nat) : x / 2 ^ b % 2 ^ c = x % 2 ^ (b + c) / 2 ^ b := by
  rw [pow_add, Nat.mod_mul_right_div_self]

theorem EntryIndex_congr {g : Geo} {lv va va' : Nat} (hlv : lv < g.maxLv)
    (h : va % 2 ^ spanOf g lv = va' % 2 ^ spanOf g lv) :
    EntryIndex g lv va = EntryIndex g lv va' := by
  rw [EntryIndex_eq, EntryIndex_eq, div_mod_eq_mod_span, div_mod_eq_mod_span,
    ← spanOf_eq g lv hlv, h]

theorem mod_span_congr_low {g : Geo} {lv va va' : Nat} (hlv : lv < g.maxLv)
    (h : va % 2 ^ spanOf g lv = va' % 2 ^ spanOf g lv) :
    va % 2 ^ BlockShift g lv = va' % 2 ^ BlockShift g lv :=
  mod_pow_congr h (by rw [spanOf_eq g lv hlv]; omega)

/-- Reassemble a span residue from the entry index and the block offset. -/
theorem mod_span_decomp (g : Geo) (lv : Nat) (h : lv < g.maxLv) (x : Nat) :
    x % 2 ^ spanOf g lv =
      x % 2 ^ BlockShift g lv + 2 ^ BlockShift g lv * EntryIndex g lv x := by
  rw [spanOf_eq g lv h, pow_add, Nat.mod_mul, EntryIndex_eq]

theorem mask_shr {a k : Nat} (h : k ≤ a) : (2 ^ a - 1) >>> (a - k) = 2 ^ k - 1 := by
  apply Nat.eq_of_testBit_eq
  intro i
  rw [Nat.testBit_shiftRight, Nat.testBit_two_pow_sub_one, Nat.testBit_two_pow_sub_one]
  exact decide_eq_decide.mpr (by omega)

theorem blockShift_ge_12 (g : Geo) (lv : Nat) : 12 ≤ BlockShift g lv :=
  Nat.le_add_left 12 _

theorem blockShift_le_64 {g : Geo} (hg : GeoOkB g = true) (lv : Nat) :
    BlockShift g lv ≤ 64 := by
  obtain ⟨h1, h2, h3, h4⟩ := geo_facts hg
  unfold BlockShift LOONGARCH_MMU_PAGE_SHIFT
  have h5 : g.maxLv - lv - 1 ≤ g.maxLv := by omega
  have h6 : (g.maxLv - lv - 1) * g.w ≤ g.maxLv * g.w := Nat.mul_le_mul_right g.w h5
  omega

theorem spanOf_le_64 {g : Geo} (hg : GeoOkB g = true) (lv : Nat) :
    spanOf g lv ≤ 64 := by
  obtain ⟨h1, h2, h3, h4⟩ := geo_facts hg
  unfold spanOf LOONGARCH_MMU_PAGE_SHIFT
  have h5 : g.maxLv - lv ≤ g.maxLv := by omega
  have h6 : (g.maxLv - lv) * g.w ≤ g.maxLv * g.w := Nat.mul_le_mul_right g.w h5
  omega

theorem blockShift_le_48 {g : Geo} (hg : GeoOkB g = true) {lv : Nat} (h2 : 2 ≤ lv) :
    BlockShift g lv ≤ 48 := by
  obtain ⟨hw, hm3, hm5, hb⟩ := geo_facts hg
  unfold BlockShift LOONGARCH_MMU_PAGE_SHIFT
  have h5 : g.maxLv - lv - 1 ≤ g.maxLv - 3 := by omega
  have h6 : (g.maxLv - lv - 1) * g.w ≤ (g.maxLv - 3) * g.w := Nat.mul_le_mul_right g.w h5
  interval_cases h : g.maxLv <;> omega

theorem blockMask_eq {g : Geo} (hg : GeoOkB g = true) (lv : Nat) :
    BlockMask g lv = 2 ^ BlockShift g lv - 1 := by
  unfold BlockMask MAX_ADDRESS
  exact mask_shr (blockShift_le_64 hg lv)

end MmuSpec.CpuMmu

namespace MmuSpec.CpuMmu

/-! ### Value and classification of written entries -/

theorem ppn_testBit (rs i : Nat) :
    ((rs >>> 12) <<< 12).testBit i = (decide (12 ≤ i) && rs.testBit i) := by
  simp only [Nat.testBit_shiftLeft, Nat.testBit_shiftRight]
  by_cases h : 12 ≤ i
  · simp only [h, decide_True, Bool.true_and]
    congr 1
    omega
  · simp [h]

theorem ppn_and_ATTR_zero {rs : Nat} (h : rs < 2 ^ 48) :
    ((rs >>> 12) <<< 12) &&& PTE_ATTRIBUTES_MASK = 0 := by
  apply Nat.eq_of_testBit_eq
  intro i
  rw [Nat.testBit_land, ppn_testBit, ATTR_testBit, Nat.zero_testBit]
  by_cases h1 : i < 12
  · simp [show ¬ 12 ≤ i by omega]
  · by_cases h2 : i < 48
    · simp [h1, show ¬ 61 ≤ i by omega]
    · have he : rs.testBit i = false := testBit_ge h (show 48 ≤ i by omega)
      simp [he]

theorem or_finish (x : Nat) :
    x ||| 0 ||| PAGE_GLOBAL ||| PAGE_VALID ||| (PAGE_GLOBAL ||| PAGE_VALID) =
      x ||| PAGE_GLOBAL ||| PAGE_VALID := by
  apply Nat.eq_of_testBit_eq
  intro i
  simp only [Nat.testBit_lor, Nat.zero_testBit, Bool.or_false]
  cases x.testBit i <;> cases PAGE_GLOBAL.testBit i <;> cases PAGE_VALID.testBit i <;> rfl

/-- Attribute bits of any leaf entry the mapper writes under a full clear
mask: the set mask's attribute bits plus global and valid. -/
theorem leafVal_attrs {rs : Nat} (e aset k : Nat) (hrs : rs < 2 ^ 48)
    (hk : k &&& PTE_ATTRIBUTES_MASK = PAGE_GLOBAL ||| PAGE_VALID) :
    (SetValidPte (SetPpnToPte ((e &&& not64 PTE_ATTRIBUTES_MASK) ||| aset) rs) ||| k) &&&
      PTE_ATTRIBUTES_MASK = leafAttrs aset := by
  unfold SetValidPte SetPpnToPte leafAttrs
  simp only [LOONGARCH_MMU_PAGE_SHIFT, PTE_PPN_SHIFT]
  rw [Nat.and_distrib_right, Nat.and_distrib_right, Nat.and_distrib_right,
    Nat.and_distrib_right, hk, Nat.and_distrib_right, Nat.and_distrib_right,
    Nat.land_assoc (e &&& not64 PTE_ATTRIBUTES_MASK) (not64 PTE_PPN_MASK)
      PTE_ATTRIBUTES_MASK,
    Nat.land_assoc aset (not64 PTE_PPN_MASK) PTE_ATTRIBUTES_MASK,
    notPPN_and_ATTR,
    Nat.land_assoc e (not64 PTE_ATTRIBUTES_MASK) PTE_ATTRIBUTES_MASK, notATTR_and_ATTR,
    Nat.and_zero, Nat.zero_or, ppn_and_ATTR_zero hrs,
    show PAGE_GLOBAL &&& PTE_ATTRIBUTES_MASK = PAGE_GLOBAL from by decide,
    show PAGE_VALID &&& PTE_ATTRIBUTES_MASK = PAGE_VALID from by decide]
  exact or_finish _

theorem isHuge_of_or_hgh (y : Nat) :
    IsValidHugePage (y ||| (PAGE_HGLOBAL ||| PAGE_HUGE ||| PAGE_VALID)) = true := by
  unfold IsValidHugePage
  rw [show (PAGE_HGLOBAL ||| PAGE_HUGE ||| PAGE_VALID) =
      ((PAGE_HGLOBAL ||| PAGE_HUGE ||| PAGE_VALID) : Nat) from rfl,
    and_or_superset y (show (PAGE_HGLOBAL ||| PAGE_HUGE ||| PAGE_VALID) &&&
      (PAGE_HGLOBAL ||| PAGE_HUGE) = PAGE_HGLOBAL ||| PAGE_HUGE from by decide)]
  exact beq_self_eq_true _

theorem valid_of_or_hgh (y : Nat) :
    (y ||| (PAGE_HGLOBAL ||| PAGE_HUGE ||| PAGE_VALID)) &&& PAGE_VALID = PAGE_VALID :=
  and_or_superset y (by decide)

theorem valid_of_or_gv (y : Nat) :
    (y ||| (PAGE_GLOBAL ||| PAGE_VALID)) &&& PAGE_VALID = PAGE_VALID :=
  and_or_superset y (by decide)

theorem isTable_of_or_hgh (g : Geo) (y lv : Nat) :
    IsTableEntry g (y ||| (PAGE_HGLOBAL ||| PAGE_HUGE ||| PAGE_VALID)) lv = false := by
  unfold IsTableEntry
  by_cases h : lv = g.maxLv - 1 <;> simp [h, isHuge_of_or_hgh]

theorem isTable_last (g : Geo) (y lv : Nat) (h : lv = g.maxLv - 1) :
    IsTableEntry g y lv = false := by
  unfold IsTableEntry
  simp [h]

theorem isBlock_of_or_hgh (g : Geo) (y lv : Nat) (h : lv ≠ g.maxLv - 1) :
    IsBlockEntry g (y ||| (PAGE_HGLOBAL ||| PAGE_HUGE ||| PAGE_VALID)) lv = true := by
  unfold IsBlockEntry
  simp [h, isHuge_of_or_hgh]

theorem isBlock_of_or_gv (g : Geo) (y lv : Nat) (h : lv = g.maxLv - 1) :
    IsBlockEntry g (y ||| (PAGE_GLOBAL ||| PAGE_VALID)) lv = true := by
  unfold IsBlockEntry
  simp [h, valid_of_or_gv]

theorem SetPpnToPte_zero {t : Nat} (h4 : t % 4096 = 0) : SetPpnToPte 0 t = t := by
  unfold SetPpnToPte
  simp only [LOONGARCH_MMU_PAGE_SHIFT, PTE_PPN_SHIFT, Nat.zero_and, Nat.zero_or]
  rw [Nat.shiftRight_eq_div_pow, Nat.shiftLeft_eq]
  exact Nat.div_mul_cancel (Nat.dvd_of_mod_eq_zero h4)

theorem and_PPN_self {t : Nat} (h4 : t % 4096 = 0) (h48 : t < 2 ^ 48) :
    t &&& PTE_PPN_MASK = t := by
  apply Nat.eq_of_testBit_eq
  intro i
  rw [Nat.testBit_land, PPN_testBit]
  by_cases h1 : i < 12
  · simp [testBit_align (show t % 2 ^ 12 = 0 from h4) h1]
  · by_cases h2 : i < 48
    · simp [show 12 ≤ i by omega, h2]
    · have he : t.testBit i = false := testBit_ge h48 (show 48 ≤ i by omega)
      simp [he]

theorem childOf_self {t : Nat} (h4 : t % 4096 = 0) (h48 : t < 2 ^ 48) :
    childOf t = t := by
  unfold childOf GetPpnfromPte
  rw [and_PPN_self h4 h48]
  simp only [LOONGARCH_MMU_PAGE_SHIFT, PTE_PPN_SHIFT]
  rw [Nat.shiftRight_eq_div_pow, Nat.shiftLeft_eq]
  exact Nat.div_mul_cancel (Nat.dvd_of_mod_eq_zero h4)

theorem isHuge_aligned {t : Nat} (h4 : t % 4096 = 0) : IsValidHugePage t = false := by
  unfold IsValidHugePage
  rw [beq_eq_false_iff_ne]
  apply ne_of_testBit 6
  rw [Nat.testBit_land, testBit_align (show t % 2 ^ 12 = 0 from h4) (by omega)]
  decide

theorem isTable_ptr (g : Geo) {t : Nat} (lv : Nat) (h0 : t ≠ 0) (h4 : t % 4096 = 0)
    (hlast : lv ≠ g.maxLv - 1) : IsTableEntry g t lv = true := by
  unfold IsTableEntry
  rw [if_neg hlast, isHuge_aligned h4]
  simp [IsValidPte, INVALID_PAGE, h0]

theorem huge_bit6 {e : Nat} (h : IsValidHugePage e = true) : e.testBit 6 = true := by
  unfold IsValidHugePage at h
  rw [beq_iff_eq] at h
  have := congrArg (fun x => x.testBit 6) h
  simp only [Nat.testBit_land] at this
  rw [show ((PAGE_HGLOBAL ||| PAGE_HUGE : Nat)).testBit 6 = true from by decide] at this
  simpa using this

theorem valid_bit0 {e : Nat} (h : e &&& PAGE_VALID = PAGE_VALID) : e.testBit 0 = true := by
  have := congrArg (fun x => x.testBit 0) h
  simp only [Nat.testBit_land] at this
  rw [show ((PAGE_VALID : Nat)).testBit 0 = true from by decide] at this
  simpa using this

/-- Re-packing a huge entry's attributes through the leaf construction is
the identity: the entry already carries the global and valid bits. -/
theorem leafAttrs_absorb {e : Nat} (h6 : e.testBit 6 = true) (h0 : e.testBit 0 = true) :
    leafAttrs (e &&& PTE_ATTRIBUTES_MASK) = e &&& PTE_ATTRIBUTES_MASK := by
  unfold leafAttrs
  rw [Nat.land_assoc, Nat.and_self]
  apply Nat.eq_of_testBit_eq
  intro i
  simp only [Nat.testBit_lor, Nat.testBit_land]
  by_cases hi6 : i = 6
  · subst hi6
    simp [h6, show PTE_ATTRIBUTES_MASK.testBit 6 = true from by decide,
      show PAGE_GLOBAL.testBit 6 = true from by decide]
  · by_cases hi0 : i = 0
    · subst hi0
      simp [h0, show PTE_ATTRIBUTES_MASK.testBit 0 = true from by decide,
        show PAGE_VALID.testBit 0 = true from by decide]
    · have hg : PAGE_GLOBAL.testBit i = false := by
        rw [show (PAGE_GLOBAL : Nat) = 2 ^ 6 from by decide, Nat.testBit_two_pow]
        simp [Ne.symm hi6]
      have hv : PAGE_VALID.testBit i = false := by
        rw [show (PAGE_VALID : Nat) = 2 ^ 0 from by decide, Nat.testBit_two_pow]
        simp [Ne.symm hi0]
      simp [hg, hv]

end MmuSpec.CpuMmu

namespace MmuSpec

/-! ### Memory-layer lemmas for the recursive mapper proof -/

theorem lookupTbl_memErase_ne : ∀ (m : Mem) (t u : Nat), u ≠ t →
    lookupTbl (memErase m t) u = lookupTbl m u := by
  intro m
  induction m with
  | nil => intro t u h; rfl
  | cons p m ih =>
      intro t u h
      rcases p with ⟨a, b⟩
      show lookupTbl (if a = t then m else (a, b) :: memErase m t) u = _
      by_cases h1 : a = t
      · rw [if_pos h1]
        show _ = if a = u then some b else lookupTbl m u
        rw [if_neg (by omega)]
      · rw [if_neg h1]
        show (if a = u then some b else lookupTbl (memErase m t) u) =
          (if a = u then some b else lookupTbl m u)
        by_cases h2 : a = u
        · rw [if_pos h2, if_pos h2]
        · rw [if_neg h2, if_neg h2]
          exact ih t u h

theorem mem_tdom_of_lookup : ∀ (m : Mem) (u : Nat) (tbl : List Nat),
    lookupTbl m u = some tbl → u ∈ tdom m := by
  intro m
  induction m with
  | nil => intro u tbl h; simp [lookupTbl] at h
  | cons p m ih =>
      intro u tbl h
      rcases p with ⟨a, b⟩
      by_cases h1 : a = u
      · simp [tdom, h1]
      · simp only [lookupTbl, if_neg h1] at h
        simp only [tdom, List.map_cons, List.mem_cons]
        exact Or.inr (ih u tbl h)

theorem lookup_none_of_not_tdom : ∀ (m : Mem) (u : Nat), u ∉ tdom m →
    lookupTbl m u = none := by
  intro m u h
  cases hl : lookupTbl m u with
  | none => rfl
  | some tbl => exact absurd (mem_tdom_of_lookup m u tbl hl) h

theorem lookup_some_of_tdom : ∀ (m : Mem) (u : Nat), u ∈ tdom m →
    ∃ tbl, lookupTbl m u = some tbl := by
  intro m
  induction m with
  | nil => intro u h; simp [tdom] at h
  | cons p m ih =>
      intro u h
      rcases p with ⟨a, b⟩
      by_cases h1 : a = u
      · exact ⟨b, by simp [lookupTbl, h1]⟩
      · simp only [tdom, List.map_cons, List.mem_cons] at h
        rcases h with h | h
        · omega
        · simpa [lookupTbl, if_neg h1] using ih u h

theorem tdom_memErase_sub : ∀ (m : Mem) (t u : Nat), u ∈ tdom (memErase m t) →
    u ∈ tdom m := by
  intro m
  induction m with
  | nil => intro t u h; simp [memErase, tdom] at h
  | cons p m ih =>
      intro t u h
      rcases p with ⟨a, b⟩
      by_cases h1 : a = t
      · simp only [memErase, if_pos h1] at h
        simp [tdom, List.mem_cons]
        right
        simpa [tdom] using h
      · simp only [memErase, if_neg h1, tdom, List.map_cons, List.mem_cons] at h ⊢
        rcases h with h | h
        · exact Or.inl h
        · exact Or.inr (ih t u h)

theorem tdom_memErase_nodup : ∀ (m : Mem) (t : Nat), (tdom m).Nodup →
    (tdom (memErase m t)).Nodup := by
  intro m
  induction m with
  | nil => intro t h; simpa [memErase] using h
  | cons p m ih =>
      intro t h
      rcases p with ⟨a, b⟩
      simp only [tdom, List.map_cons, List.nodup_cons] at h
      by_cases h1 : a = t
      · simpa [memErase, if_pos h1, tdom] using h.2
      · simp only [memErase, if_neg h1, tdom, List.map_cons, List.nodup_cons]
        exact ⟨fun hc => h.1 (tdom_memErase_sub m t a hc), ih t h.2⟩

theorem lookupTbl_memErase_self : ∀ (m : Mem) (t : Nat), (tdom m).Nodup →
    lookupTbl (memErase m t) t = none := by
  intro m
  induction m with
  | nil => intro t h; rfl
  | cons p m ih =>
      intro t h
      rcases p with ⟨a, b⟩
      simp only [tdom, List.map_cons, List.nodup_cons] at h
      by_cases h1 : a = t
      · subst h1
        simp only [memErase, if_pos rfl]
        exact lookup_none_of_not_tdom m a h.1
      · simp only [memErase, if_neg h1, lookupTbl, if_neg h1]
        exact ih t h.2

theorem tdom_memWrite_iff : ∀ (m : Mem) (t u : Nat) (tbl : List Nat),
    (u ∈ tdom (memWrite m t tbl)) ↔ (u = t ∨ u ∈ tdom m) := by
  intro m
  induction m with
  | nil => intro t u tbl; simp [memWrite, tdom, eq_comm]
  | cons p m ih =>
      intro t u tbl
      rcases p with ⟨a, b⟩
      by_cases h1 : a = t
      · subst h1
        simp [memWrite, tdom, List.mem_cons, eq_comm]
      · have ih2 := ih t u tbl
        simp only [tdom] at ih2
        simp only [memWrite, if_neg h1, tdom, List.map_cons, List.mem_cons]
        rw [ih2]
        tauto

theorem tdom_memWrite_nodup : ∀ (m : Mem) (t : Nat) (tbl : List Nat), (tdom m).Nodup →
    (tdom (memWrite m t tbl)).Nodup := by
  intro m
  induction m with
  | nil => intro t tbl h; simp [memWrite, tdom]
  | cons p m ih =>
      intro t tbl h
      rcases p with ⟨a, b⟩
      simp only [tdom, List.map_cons, List.nodup_cons] at h
      show (tdom (if a = t then (t, tbl) :: m else (a, b) :: memWrite m t tbl)).Nodup
      by_cases h1 : a = t
      · rw [if_pos h1]
        subst h1
        simp only [tdom, List.map_cons, List.nodup_cons]
        exact h
      · rw [if_neg h1]
        simp only [tdom, List.map_cons, List.nodup_cons]
        constructor
        · intro hc
          have hc2 : a ∈ tdom (memWrite m t tbl) := hc
          rw [tdom_memWrite_iff m t a tbl] at hc2
          rcases hc2 with hc2 | hc2
          · exact h1 hc2
          · exact h.1 hc2
        · exact ih t tbl h.2

theorem lookupTbl_setEntry_self (m : Mem) (t i v : Nat) :
    lookupTbl (setEntry m t i v) t = some ((tblOf m t).set i v) := by
  unfold setEntry
  exact lookupTbl_memWrite_self m t _

theorem lookupTbl_setEntry_ne (m : Mem) (t u i v : Nat) (h : u ≠ t) :
    lookupTbl (setEntry m t i v) u = lookupTbl m u := by
  unfold setEntry
  exact lookupTbl_memWrite_ne m t u _ h

theorem entryAt_setEntry_self (m : Mem) (t i v : Nat) (h : i < (tblOf m t).length) :
    entryAt (setEntry m t i v) t i = v := by
  unfold entryAt tblOf
  rw [lookupTbl_setEntry_self]
  exact List.getD_set_self _ i v (by simpa using h)

theorem entryAt_setEntry_ne_idx (m : Mem) (t i j v : Nat) (h : i ≠ j) :
    entryAt (setEntry m t i v) t j = entryAt m t j := by
  unfold entryAt tblOf
  rw [lookupTbl_setEntry_self]
  exact List.getD_set_ne _ i j v h

end MmuSpec

namespace MmuSpec.CpuMmu

/-! ### Stability of walks, subtrees and invariants under footprint-disjoint
memory updates -/

theorem flatMap_congr {f f2 : Nat → List Nat} : ∀ (l : List Nat),
    (∀ i ∈ l, f2 i = f i) → l.flatMap f2 = l.flatMap f := by
  intro l
  induction l with
  | nil => intro h; rfl
  | cons a l ih =>
      intro h
      simp only [List.flatMap_cons]
      rw [h a (by simp), ih (fun i hi => h i (by simp [hi]))]

theorem all_congr {f f2 : Nat → Bool} : ∀ (l : List Nat),
    (∀ i ∈ l, f2 i = f i) → l.all f2 = l.all f := by
  intro l
  induction l with
  | nil => intro h; rfl
  | cons a l ih =>
      intro h
      simp only [List.all_cons]
      rw [h a (by simp), ih (fun i hi => h i (by simp [hi]))]

theorem subT_head (g : Geo) (m : Mem) (d t lv : Nat) : t ∈ subT g m d t lv := by
  cases d <;> simp [subT]

theorem subT_child_sub (g : Geo) (m : Mem) {d t lv i : Nat} (hlv : lv < g.maxLv - 1)
    (hi : i < 2 ^ g.w) (ht : IsTableEntry g (entryAt m t i) lv = true) :
    ∀ x ∈ subT g m d (childOf (entryAt m t i)) (lv + 1), x ∈ subT g m (d + 1) t lv := by
  intro x hx
  simp only [subT, List.mem_cons]
  right
  rw [if_pos hlv]
  rw [List.mem_flatMap]
  refine ⟨i, List.mem_range.mpr hi, ?_⟩
  rw [if_pos ht]
  exact hx

/-- Two memories agreeing on every table of a subtree yield the same
subtree. -/
theorem subT_congr (g : Geo) (m m2 : Mem) : ∀ (d t lv : Nat), lv + d ≤ g.maxLv →
    (∀ u ∈ subT g m d t lv, lookupTbl m2 u = lookupTbl m u) →
    subT g m2 d t lv = subT g m d t lv := by
  intro d
  induction d with
  | zero => intro t lv hld hag; rfl
  | succ d ih =>
      intro t lv hld hag
      have hent : ∀ i, entryAt m2 t i = entryAt m t i := by
        intro i
        unfold entryAt tblOf
        rw [hag t (subT_head g m _ t lv)]
      simp only [subT]
      congr 1
      by_cases hlv : lv < g.maxLv - 1
      · rw [if_pos hlv, if_pos hlv]
        apply flatMap_congr
        intro i hi
        rw [hent i]
        by_cases htab : IsTableEntry g (entryAt m t i) lv = true
        · rw [if_pos htab, if_pos htab]
          exact ih (childOf (entryAt m t i)) (lv + 1) (by omega)
            (fun u hu => hag u (subT_child_sub g m hlv (List.mem_range.mp hi) htab u hu))
        · rw [if_neg htab, if_neg htab]
      · rw [if_neg hlv, if_neg hlv]

theorem walkEntry_congr (g : Geo) (m m2 : Mem) : ∀ (d t lv : Nat), lv + d ≤ g.maxLv →
    (∀ u ∈ subT g m d t lv, lookupTbl m2 u = lookupTbl m u) →
    ∀ va, WalkEntry g m2 d t lv va = WalkEntry g m d t lv va := by
  intro d
  induction d with
  | zero => intro t lv hld hag va; rfl
  | succ d ih =>
      intro t lv hld hag va
      have hent : ∀ i, entryAt m2 t i = entryAt m t i := by
        intro i
        unfold entryAt tblOf
        rw [hag t (subT_head g m _ t lv)]
      simp only [WalkEntry]
      rw [hent]
      by_cases htab : IsTableEntry g (entryAt m t (EntryIndex g lv va)) lv = true
      · rw [if_pos htab, if_pos htab]
        have hne : lv ≠ g.maxLv - 1 := by
          intro hc
          rw [isTable_last g _ lv hc] at htab
          exact Bool.false_ne_true htab
        have hlv : lv < g.maxLv - 1 := by omega
        exact ih (childOf (entryAt m t (EntryIndex g lv va))) (lv + 1) (by omega)
          (fun u hu => hag u
            (subT_child_sub g m hlv (EntryIndex_lt g lv va) htab u hu)) va
      · rw [if_neg htab, if_neg htab]

theorem invAtB_congr (g : Geo) (m m2 : Mem) : ∀ (d t lv : Nat), lv + d ≤ g.maxLv →
    (∀ u ∈ subT g m d t lv, lookupTbl m2 u = lookupTbl m u) →
    InvAtB g m2 d t lv = InvAtB g m d t lv := by
  intro d
  induction d with
  | zero => intro t lv hld hag; rfl
  | succ d ih =>
      intro t lv hld hag
      have hlook : lookupTbl m2 t = lookupTbl m t := hag t (subT_head g m _ t lv)
      have hent : ∀ i, entryAt m2 t i = entryAt m t i := by
        intro i
        unfold entryAt tblOf
        rw [hlook]
      have hsub : ∀ i, IsTableEntry g (entryAt m t i) lv = true → i < 2 ^ g.w →
          subT g m2 d (childOf (entryAt m t i)) (lv + 1) =
            subT g m d (childOf (entryAt m t i)) (lv + 1) := by
        intro i htab hi
        have hne : lv ≠ g.maxLv - 1 := by
          intro hc
          rw [isTable_last g _ lv hc] at htab
          exact Bool.false_ne_true htab
        exact subT_congr g m m2 d _ (lv + 1) (by omega)
          (fun u hu => hag u (subT_child_sub g m (by omega) hi htab u hu))
      simp only [InvAtB]
      rw [hlook]
      congr 1
      apply all_congr
      intro i hi
      rw [hent i]
      congr 1
      by_cases htab : IsTableEntry g (entryAt m t i) lv = true
      · rw [if_pos htab, if_pos htab]
        have hne : lv ≠ g.maxLv - 1 := by
          intro hc
          rw [isTable_last g _ lv hc] at htab
          exact Bool.false_ne_true htab
        rw [ih (childOf (entryAt m t i)) (lv + 1) (by omega)
          (fun u hu => hag u
            (subT_child_sub g m (by omega) (List.mem_range.mp hi) htab u hu))]
        rw [hsub i htab (List.mem_range.mp hi)]
        congr 1
        apply all_congr
        intro j hj
        rw [hent j]
        by_cases htj : IsTableEntry g (entryAt m t j) lv = true
        · by_cases hji : j ≠ i
          · rw [if_pos ⟨htj, hji⟩, if_pos ⟨htj, hji⟩,
              hsub j htj (List.mem_range.mp hj)]
          · rw [if_neg (by tauto), if_neg (by tauto)]
        · rw [if_neg (by tauto), if_neg (by tauto)]
      · rw [if_neg htab, if_neg htab]

theorem goodBlocksB_congr (g : Geo) (m m2 : Mem) : ∀ (d t lv : Nat),
    lv + d ≤ g.maxLv →
    (∀ u ∈ subT g m d t lv, lookupTbl m2 u = lookupTbl m u) →
    GoodBlocksB g m2 d t lv = GoodBlocksB g m d t lv := by
  intro d
  induction d with
  | zero => intro t lv hld hag; rfl
  | succ d ih =>
      intro t lv hld hag
      have hent : ∀ i, entryAt m2 t i = entryAt m t i := by
        intro i
        unfold entryAt tblOf
        rw [hag t (subT_head g m _ t lv)]
      simp only [GoodBlocksB]
      apply all_congr
      intro i hi
      rw [hent i]
      congr 1
      by_cases htab : IsTableEntry g (entryAt m t i) lv = true
      · rw [if_pos htab, if_pos htab]
        have hne : lv ≠ g.maxLv - 1 := by
          intro hc
          rw [isTable_last g _ lv hc] at htab
          exact Bool.false_ne_true htab
        exact ih (childOf (entryAt m t i)) (lv + 1) (by omega)
          (fun u hu => hag u
            (subT_child_sub g m (by omega) (List.mem_range.mp hi) htab u hu))
      · rw [if_neg htab, if_neg htab]

end MmuSpec.CpuMmu

namespace MmuSpec.CpuMmu

/-! ### Unfolding the structural invariants -/

theorem bool_if_true_iff (c : Prop) [Decidable c] (x : Bool) :
    ((if c then x else true) = true) ↔ (c → x = true) := by
  split
  · simp [*]
  · simp [*]

theorem bool_guard_iff (a b : Bool) : ((!a || b) = true) ↔ (a = true → b = true) := by
  cases a <;> simp

theorem invAtB_iff (g : Geo) (m : Mem) (d t lv : Nat) :
    (InvAtB g m (d + 1) t lv = true) ↔
      ((((t ≠ 0 ∧ t % 4096 = 0) ∧ t < 2 ^ 48) ∧
        (∃ tbl, lookupTbl m t = some tbl ∧ tbl.length = 2 ^ g.w)) ∧
       (∀ i, i < 2 ^ g.w →
         (IsValidHugePage (entryAt m t i) = true →
           entryAt m t i &&& PAGE_VALID = PAGE_VALID) ∧
         (IsTableEntry g (entryAt m t i) lv = true →
           (InvAtB g m d (childOf (entryAt m t i)) (lv + 1) = true ∧
             t ∉ subT g m d (childOf (entryAt m t i)) (lv + 1)) ∧
           (∀ j, j < 2 ^ g.w →
             IsTableEntry g (entryAt m t j) lv = true ∧ j ≠ i →
             ∀ x ∈ subT g m d (childOf (entryAt m t i)) (lv + 1),
               x ∉ subT g m d (childOf (entryAt m t j)) (lv + 1))))) := by
  simp only [InvAtB, Bool.and_eq_true, decide_eq_true_eq, List.all_eq_true,
    List.mem_range, bool_if_true_iff, bool_guard_iff]
  cases hl : lookupTbl m t with
  | none => simp
  | some tbl => simp

theorem goodBlocksB_iff (g : Geo) (m : Mem) (d t lv : Nat) :
    (GoodBlocksB g m (d + 1) t lv = true) ↔
      (∀ i, i < 2 ^ g.w →
        (2 ≤ lv ∨ IsValidHugePage (entryAt m t i) = false) ∧
        (IsTableEntry g (entryAt m t i) lv = true →
          GoodBlocksB g m d (childOf (entryAt m t i)) (lv + 1) = true)) := by
  simp only [GoodBlocksB, Bool.and_eq_true, List.all_eq_true, List.mem_range,
    bool_if_true_iff, Bool.or_eq_true, decide_eq_true_eq, Bool.not_eq_true']

theorem freshOk_iff (st : St) :
    (FreshOkB st = true) ↔
      (st.fresh.Nodup ∧
       (∀ f ∈ st.fresh, f ∉ tdom st.mem ∧ f ≠ 0 ∧ f % 4096 = 0 ∧ f < 2 ^ 48) ∧
       (tdom st.mem).Nodup) := by
  simp only [FreshOkB, Bool.and_eq_true, List.all_eq_true, decide_eq_true_eq]
  constructor
  · rintro ⟨⟨hn, hall⟩, hd⟩
    exact ⟨hn, fun f hf => by
      have := hall f hf
      exact ⟨this.1.1.1, this.1.1.2, this.1.2, this.2⟩, hd⟩
  · rintro ⟨hn, hall, hd⟩
    exact ⟨⟨hn, fun f hf => by
      have := hall f hf
      exact ⟨⟨⟨this.1, this.2.1⟩, this.2.2.1⟩, this.2.2.2⟩⟩, hd⟩

theorem invAtB_zero (g : Geo) (m : Mem) (t lv : Nat) : InvAtB g m 0 t lv = false := rfl

theorem subT_sub_tdom (g : Geo) (m : Mem) : ∀ (d t lv : Nat),
    InvAtB g m d t lv = true → ∀ u ∈ subT g m d t lv, u ∈ tdom m := by
  intro d
  induction d with
  | zero => intro t lv h; rw [invAtB_zero] at h; exact absurd h (by simp)
  | succ d ih =>
      intro t lv h u hu
      rw [invAtB_iff] at h
      obtain ⟨⟨⟨⟨h0, h4⟩, h48⟩, tbl, hl, hlen⟩, hall⟩ := h
      simp only [subT, List.mem_cons] at hu
      rcases hu with rfl | hu
      · exact mem_tdom_of_lookup m u tbl hl
      · by_cases hlv : lv < g.maxLv - 1
        · rw [if_pos hlv] at hu
          rw [List.mem_flatMap] at hu
          obtain ⟨i, hi, hmem⟩ := hu
          by_cases htab : IsTableEntry g (entryAt m t i) lv = true
          · rw [if_pos htab] at hmem
            exact ih _ (lv + 1) ((hall i (List.mem_range.mp hi)).2 htab).1.1 u hmem
          · rw [if_neg htab] at hmem
            exact absurd hmem (by simp)
        · rw [if_neg hlv] at hu
          exact absurd hu (by simp)

theorem nodup_flatMap_of_disjoint {f : Nat → List Nat} : ∀ (l : List Nat),
    l.Nodup → (∀ i ∈ l, (f i).Nodup) →
    (∀ i ∈ l, ∀ j ∈ l, i ≠ j → ∀ x ∈ f i, x ∉ f j) →
    (l.flatMap f).Nodup := by
  intro l
  induction l with
  | nil => intro h1 h2 h3; simp
  | cons a l ih =>
      intro h1 h2 h3
      simp only [List.flatMap_cons]
      rw [List.nodup_append]
      simp only [List.nodup_cons] at h1
      refine ⟨h2 a (by simp), ih h1.2 (fun i hi => h2 i (by simp [hi]))
        (fun i hi j hj hij => h3 i (by simp [hi]) j (by simp [hj]) hij), ?_⟩
      intro x hx hc
      rw [List.mem_flatMap] at hc
      obtain ⟨j, hj, hxj⟩ := hc
      exact h3 a (by simp) j (by simp [hj]) (fun he => h1.1 (he ▸ hj)) x hx hxj

theorem subT_nodup (g : Geo) (m : Mem) : ∀ (d t lv : Nat),
    InvAtB g m d t lv = true → (subT g m d t lv).Nodup := by
  intro d
  induction d with
  | zero => intro t lv h; rw [invAtB_zero] at h; exact absurd h (by simp)
  | succ d ih =>
      intro t lv h
      have h2 := h
      rw [invAtB_iff] at h2
      obtain ⟨⟨⟨⟨h0, h4⟩, h48⟩, tbl, hl, hlen⟩, hall⟩ := h2
      simp only [subT]
      rw [List.nodup_cons]
      by_cases hlv : lv < g.maxLv - 1
      · rw [if_pos hlv]
        constructor
        · intro hc
          rw [List.mem_flatMap] at hc
          obtain ⟨i, hi, hmem⟩ := hc
          by_cases htab : IsTableEntry g (entryAt m t i) lv = true
          · rw [if_pos htab] at hmem
            exact ((hall i (List.mem_range.mp hi)).2 htab).1.2 hmem
          · rw [if_neg htab] at hmem
            exact absurd hmem (by simp)
        · apply nodup_flatMap_of_disjoint
          · exact List.nodup_range _
          · intro i hi
            by_cases htab : IsTableEntry g (entryAt m t i) lv = true
            · rw [if_pos htab]
              exact ih _ (lv + 1) ((hall i (List.mem_range.mp hi)).2 htab).1.1
            · rw [if_neg htab]
              exact List.nodup_nil
          · intro i hi j hj hij x hx
            by_cases htab : IsTableEntry g (entryAt m t i) lv = true
            · rw [if_pos htab] at hx
              by_cases htj : IsTableEntry g (entryAt m t j) lv = true
              · rw [if_pos htj]
                exact ((hall i (List.mem_range.mp hi)).2 htab).2 j
                  (List.mem_range.mp hj) ⟨htj, fun he => hij he.symm⟩ x hx
              · rw [if_neg htj]
                simp
            · rw [if_neg htab] at hx
              exact absurd hx (by simp)
      · rw [if_neg hlv]
        simp

end MmuSpec.CpuMmu

namespace MmuSpec.CpuMmu

/-! ### Child subtrees of a table, and the free-tables footprint -/

/-- Concatenated subtrees hanging off the first `k` entries of table `t`. -/
def childSubs (g : Geo) (m : Mem) (d t lv k : Nat) : List Nat :=
  (List.range k).flatMap (fun i =>
    if IsTableEntry g (entryAt m t i) lv then
      subT g m d (childOf (entryAt m t i)) (lv + 1)
    else [])

theorem childSubs_zero (g : Geo) (m : Mem) (d t lv : Nat) :
    childSubs g m d t lv 0 = [] := rfl

theorem childSubs_succ (g : Geo) (m : Mem) (d t lv k : Nat) :
    childSubs g m d t lv (k + 1) =
      childSubs g m d t lv k ++
        (if IsTableEntry g (entryAt m t k) lv then
          subT g m d (childOf (entryAt m t k)) (lv + 1)
        else []) := by
  unfold childSubs
  rw [List.range_succ, List.flatMap_append]
  simp

theorem mem_childSubs {g : Geo} {m : Mem} {d t lv k u : Nat} :
    u ∈ childSubs g m d t lv k ↔
      ∃ i, i < k ∧ IsTableEntry g (entryAt m t i) lv = true ∧
        u ∈ subT g m d (childOf (entryAt m t i)) (lv + 1) := by
  unfold childSubs
  rw [List.mem_flatMap]
  constructor
  · rintro ⟨i, hi, hmem⟩
    by_cases htab : IsTableEntry g (entryAt m t i) lv = true
    · rw [if_pos htab] at hmem
      exact ⟨i, List.mem_range.mp hi, htab, hmem⟩
    · rw [if_neg htab] at hmem
      exact absurd hmem (by simp)
  · rintro ⟨i, hi, htab, hmem⟩
    exact ⟨i, List.mem_range.mpr hi, by rw [if_pos htab]; exact hmem⟩

theorem subT_eq_cons (g : Geo) (m : Mem) (d t lv : Nat) (h : lv < g.maxLv - 1) :
    subT g m (d + 1) t lv = t :: childSubs g m d t lv (2 ^ g.w) := by
  simp only [subT, childSubs]
  rw [if_pos h]

theorem subT_eq_single (g : Geo) (m : Mem) (d t lv : Nat) (h : ¬ lv < g.maxLv - 1) :
    subT g m (d + 1) t lv = [t] := by
  simp only [subT]
  rw [if_neg h]

theorem not_mem_childSubs_self {g : Geo} {m : Mem} {d t lv k : Nat}
    (hInv : InvAtB g m (d + 1) t lv = true) (hk : k ≤ 2 ^ g.w) :
    t ∉ childSubs g m d t lv k := by
  intro hc
  rw [mem_childSubs] at hc
  obtain ⟨i, hi, htab, hmem⟩ := hc
  rw [invAtB_iff] at hInv
  exact (hInv.2 i (by omega)).2 htab |>.1.2 hmem

theorem childSubs_disjoint_last {g : Geo} {m : Mem} {d t lv k u : Nat}
    (hInv : InvAtB g m (d + 1) t lv = true) (hk : k < 2 ^ g.w)
    (htk : IsTableEntry g (entryAt m t k) lv = true)
    (hu : u ∈ childSubs g m d t lv k) :
    u ∉ subT g m d (childOf (entryAt m t k)) (lv + 1) := by
  rw [mem_childSubs] at hu
  obtain ⟨i, hi, htab, hmem⟩ := hu
  rw [invAtB_iff] at hInv
  exact ((hInv.2 i (by omega)).2 htab).2 k hk ⟨htk, by omega⟩ u hmem

theorem subT_props (g : Geo) (m : Mem) : ∀ (d t lv : Nat),
    InvAtB g m d t lv = true →
    ∀ u ∈ subT g m d t lv, u ≠ 0 ∧ u % 4096 = 0 ∧ u < 2 ^ 48 := by
  intro d
  induction d with
  | zero => intro t lv h; rw [invAtB_zero] at h; exact absurd h (by simp)
  | succ d ih =>
      intro t lv h u hu
      have h2 := h
      rw [invAtB_iff] at h2
      obtain ⟨⟨⟨⟨h0, h4⟩, h48⟩, tbl, hl, hlen⟩, hall⟩ := h2
      simp only [subT, List.mem_cons] at hu
      rcases hu with rfl | hu
      · exact ⟨h0, h4, h48⟩
      · by_cases hlv : lv < g.maxLv - 1
        · rw [if_pos hlv] at hu
          rw [List.mem_flatMap] at hu
          obtain ⟨i, hi, hmem⟩ := hu
          by_cases htab : IsTableEntry g (entryAt m t i) lv = true
          · rw [if_pos htab] at hmem
            exact ih _ (lv + 1) ((hall i (List.mem_range.mp hi)).2 htab).1.1 u hmem
          · rw [if_neg htab] at hmem
            exact absurd hmem (by simp)
        · rw [if_neg hlv] at hu
          exact absurd hu (by simp)

end MmuSpec.CpuMmu

namespace MmuSpec.CpuMmu

/-- Full specification of `FreePageTablesRecursive` on an invariant-respecting
subtree: it erases exactly the subtree's tables, pushes exactly them onto the
free list, and touches nothing else. -/
theorem FPTR_spec (g : Geo) : ∀ (b dd t lv : Nat) (st : St),
    InvAtB g st.mem dd t lv = true →
    dd ≤ b →
    lv + dd = g.maxLv →
    (tdom st.mem).Nodup →
    st.fresh.Nodup →
    (∀ x ∈ st.fresh, x ∉ tdom st.mem) →
    ∀ st', st' = FreePageTablesRecursive g b t lv st →
    (∀ u, u ∈ subT g st.mem dd t lv → lookupTbl st'.mem u = none) ∧
    (∀ u, u ∉ subT g st.mem dd t lv → lookupTbl st'.mem u = lookupTbl st.mem u) ∧
    (∀ x, x ∈ st'.fresh ↔ (x ∈ subT g st.mem dd t lv ∨ x ∈ st.fresh)) ∧
    st'.tlb = st.tlb ∧ st'.pgdl = st.pgdl ∧ st'.crmdPg = st.crmdPg ∧
    (tdom st'.mem).Nodup ∧ st'.fresh.Nodup ∧
    (∀ x ∈ st'.fresh, x ∉ tdom st'.mem) ∧
    (∀ u, u ∈ tdom st'.mem → u ∈ tdom st.mem) := by
  intro b
  induction b with
  | zero =>
      intro dd t lv st hInv hdd hlv hnd hfn hfd st' hst
      have hdd0 : dd = 0 := by omega
      subst hdd0
      rw [invAtB_zero] at hInv
      exact absurd hInv (by simp)
  | succ b ih =>
      intro dd t lv st hInv hdd hlv hnd hfn hfd st' hst
      cases dd with
      | zero =>
          rw [invAtB_zero] at hInv
          exact absurd hInv (by simp)
      | succ dd =>
      have hInv2 := hInv
      rw [invAtB_iff] at hInv2
      obtain ⟨⟨⟨⟨h0, h4⟩, h48⟩, tbl, hl, hlen⟩, hall⟩ := hInv2
      have htmem : t ∈ tdom st.mem := mem_tdom_of_lookup _ _ _ hl
      have htnf : t ∉ st.fresh := fun hc => hfd t hc htmem
      by_cases hlv1 : lv < g.maxLv - 1
      · -- interior level: the children are freed first
        have FC : ∀ k, k ≤ 2 ^ g.w → ∀ st1, st1 = FreeChildren g b t lv k st →
            (∀ u, u ∈ childSubs g st.mem dd t lv k → lookupTbl st1.mem u = none) ∧
            (∀ u, u ∉ childSubs g st.mem dd t lv k →
              lookupTbl st1.mem u = lookupTbl st.mem u) ∧
            (∀ x, x ∈ st1.fresh ↔ (x ∈ childSubs g st.mem dd t lv k ∨ x ∈ st.fresh)) ∧
            st1.tlb = st.tlb ∧ st1.pgdl = st.pgdl ∧ st1.crmdPg = st.crmdPg ∧
            (tdom st1.mem).Nodup ∧ st1.fresh.Nodup ∧
            (∀ x ∈ st1.fresh, x ∉ tdom st1.mem) ∧
            (∀ u, u ∈ tdom st1.mem → u ∈ tdom st.mem) := by
          intro k
          induction k with
          | zero =>
              intro hk st1 hst1
              simp only [FreeChildren] at hst1
              subst hst1
              refine ⟨by simp [childSubs_zero], fun u _ => rfl,
                by simp [childSubs_zero], rfl, rfl, rfl, hnd, hfn, hfd,
                fun u hu => hu⟩
          | succ k ihk =>
              intro hk st1 hst1
              obtain ⟨fa, fb2, fc, ftlb, fpgdl, fcrmd, fnd, ffn, ffd, fdom⟩ :=
                ihk (by omega) (FreeChildren g b t lv k st) rfl
              have hk1 : k < 2 ^ g.w := by omega
              have htnc : t ∉ childSubs g st.mem dd t lv k :=
                not_mem_childSubs_self hInv (by omega)
              have hentk : entryAt (FreeChildren g b t lv k st).mem t k =
                  entryAt st.mem t k := by
                unfold entryAt tblOf
                rw [fb2 t htnc]
              simp only [FreeChildren] at hst1
              rw [hentk] at hst1
              by_cases htab : IsTableEntry g (entryAt st.mem t k) lv = true
              · rw [if_pos htab] at hst1
                have hchild : InvAtB g st.mem dd (childOf (entryAt st.mem t k))
                    (lv + 1) = true := ((hall k hk1).2 htab).1.1
                have hSag : ∀ u ∈ subT g st.mem dd (childOf (entryAt st.mem t k))
                    (lv + 1), lookupTbl (FreeChildren g b t lv k st).mem u =
                      lookupTbl st.mem u := by
                  intro u hu
                  exact fb2 u (fun hc =>
                    childSubs_disjoint_last hInv hk1 htab hc hu)
                have hSeq : subT g (FreeChildren g b t lv k st).mem dd
                    (childOf (entryAt st.mem t k)) (lv + 1) =
                    subT g st.mem dd (childOf (entryAt st.mem t k)) (lv + 1) :=
                  subT_congr g st.mem _ dd _ (lv + 1) (by omega) hSag
                have hIeq : InvAtB g (FreeChildren g b t lv k st).mem dd
                    (childOf (entryAt st.mem t k)) (lv + 1) = true := by
                  rw [invAtB_congr g st.mem _ dd _ (lv + 1) (by omega) hSag]
                  exact hchild
                obtain ⟨ga, gb2, gc, gtlb, gpgdl, gcrmd, gnd, gfn, gfd, gdom⟩ :=
                  ih dd (childOf (entryAt st.mem t k)) (lv + 1)
                    (FreeChildren g b t lv k st) hIeq (by omega) (by omega)
                    fnd ffn ffd st1 hst1
                rw [hSeq] at ga gb2 gc
                have hcs := childSubs_succ g st.mem dd t lv k
                rw [if_pos htab] at hcs
                refine ⟨?_, ?_, ?_, by rw [gtlb, ftlb], by rw [gpgdl, fpgdl],
                  by rw [gcrmd, fcrmd], gnd, gfn, gfd,
                  fun u hu => fdom u (gdom u hu)⟩
                · intro u hu
                  rw [hcs, List.mem_append] at hu
                  rcases hu with hu | hu
                  · by_cases hus : u ∈ subT g st.mem dd
                        (childOf (entryAt st.mem t k)) (lv + 1)
                    · exact ga u hus
                    · rw [gb2 u hus]
                      exact fa u hu
                  · exact ga u hu
                · intro u hu
                  rw [hcs, List.mem_append] at hu
                  push_neg at hu
                  rw [gb2 u hu.2]
                  exact fb2 u hu.1
                · intro x
                  rw [gc x, fc x, hcs, List.mem_append]
                  tauto
              · rw [if_neg htab] at hst1
                subst hst1
                have hcs := childSubs_succ g st.mem dd t lv k
                rw [if_neg htab] at hcs
                rw [hcs]
                simp only [List.append_nil]
                exact ⟨fa, fb2, fc, ftlb, fpgdl, fcrmd, fnd, ffn, ffd, fdom⟩
        obtain ⟨fa, fb2, fc, ftlb, fpgdl, fcrmd, fnd, ffn, ffd, fdom⟩ :=
          FC (2 ^ g.w) (le_refl _) (FreeChildren g b t lv (2 ^ g.w) st) rfl
        have hunf : st' = FreePages (FreeChildren g b t lv (2 ^ g.w) st) t := by
          rw [hst]
          simp only [FreePageTablesRecursive]
          rw [if_pos hlv1]
        have hsub := subT_eq_cons g st.mem dd t lv hlv1
        have htnc : t ∉ childSubs g st.mem dd t lv (2 ^ g.w) :=
          not_mem_childSubs_self hInv (le_refl _)
        have hmem' : st'.mem = memErase (FreeChildren g b t lv (2 ^ g.w) st).mem t := by
          rw [hunf]; rfl
        have hfr' : st'.fresh = t :: (FreeChildren g b t lv (2 ^ g.w) st).fresh := by
          rw [hunf]; rfl
        have htlb' : st'.tlb = (FreeChildren g b t lv (2 ^ g.w) st).tlb := by
          rw [hunf]; rfl
        have hpg' : st'.pgdl = (FreeChildren g b t lv (2 ^ g.w) st).pgdl := by
          rw [hunf]; rfl
        have hcr' : st'.crmdPg = (FreeChildren g b t lv (2 ^ g.w) st).crmdPg := by
          rw [hunf]; rfl
        have htlook : lookupTbl st'.mem t = none := by
          rw [hmem']
          exact lookupTbl_memErase_self _ t fnd
        refine ⟨?_, ?_, ?_, by rw [htlb', ftlb], by rw [hpg', fpgdl],
          by rw [hcr', fcrmd], ?_, ?_, ?_, ?_⟩
        · intro u hu
          rw [hsub, List.mem_cons] at hu
          rcases hu with rfl | hu
          · exact htlook
          · have hut : u ≠ t := fun he => htnc (he ▸ hu)
            rw [hmem', lookupTbl_memErase_ne _ t u hut]
            exact fa u hu
        · intro u hu
          rw [hsub, List.mem_cons] at hu
          push_neg at hu
          rw [hmem', lookupTbl_memErase_ne _ t u hu.1]
          exact fb2 u hu.2
        · intro x
          rw [hfr', List.mem_cons, fc x, hsub, List.mem_cons]
          tauto
        · rw [hmem']
          exact tdom_memErase_nodup _ t fnd
        · rw [hfr']
          rw [List.nodup_cons]
          refine ⟨fun hc => ?_, ffn⟩
          rw [fc t] at hc
          rcases hc with hc | hc
          · exact htnc hc
          · exact htnf hc
        · intro x hx
          rw [hfr', List.mem_cons] at hx
          rcases hx with rfl | hx
          · intro hc
            obtain ⟨tb2, htb2⟩ := lookup_some_of_tdom _ _ hc
            rw [htlook] at htb2
            exact Option.noConfusion htb2
          · intro hc
            rw [hmem'] at hc
            exact ffd x hx (tdom_memErase_sub _ t x hc)
        · intro u hu
          rw [hmem'] at hu
          exact fdom u (tdom_memErase_sub _ t u hu)
      · -- last level: only the table page itself is freed
        have hunf : st' = FreePages st t := by
          rw [hst]
          simp only [FreePageTablesRecursive]
          rw [if_neg hlv1]
        have hsub := subT_eq_single g st.mem dd t lv hlv1
        have hmem' : st'.mem = memErase st.mem t := by rw [hunf]; rfl
        have hfr' : st'.fresh = t :: st.fresh := by rw [hunf]; rfl
        have htlook : lookupTbl st'.mem t = none := by
          rw [hmem']
          exact lookupTbl_memErase_self _ t hnd
        refine ⟨?_, ?_, ?_, by rw [hunf]; rfl, by rw [hunf]; rfl, by rw [hunf]; rfl,
          ?_, ?_, ?_, ?_⟩
        · intro u hu
          rw [hsub] at hu
          simp only [List.mem_singleton] at hu
          subst hu
          exact htlook
        · intro u hu
          rw [hsub] at hu
          simp only [List.mem_singleton] at hu
          rw [hmem', lookupTbl_memErase_ne _ t u hu]
        · intro x
          rw [hfr', List.mem_cons, hsub]
          simp
        · rw [hmem']
          exact tdom_memErase_nodup _ t hnd
        · rw [hfr', List.nodup_cons]
          exact ⟨htnf, hfn⟩
        · intro x hx
          rw [hfr', List.mem_cons] at hx
          rcases hx with rfl | hx
          · intro hc
            obtain ⟨tb2, htb2⟩ := lookup_some_of_tdom _ _ hc
            rw [htlook] at htb2
            exact Option.noConfusion htb2
          · intro hc
            rw [hmem'] at hc
            exact hfd x hx (tdom_memErase_sub _ t x hc)
        · intro u hu
          rw [hmem'] at hu
          exact tdom_memErase_sub _ t u hu

end MmuSpec.CpuMmu

namespace MmuSpec.CpuMmu

/-! ### Block-span congruence classes and the leaf-branch arithmetic -/

/-- Addresses congruent (mod the level span) into the block at `rs` are
exactly those with the same entry index. -/
theorem block_class_iff {g : Geo} {lv rs va : Nat} (hlv : lv < g.maxLv)
    (hrs : rs % 2 ^ BlockShift g lv = 0) :
    (∃ x, rs ≤ x ∧ x < rs + 2 ^ BlockShift g lv ∧
      va % 2 ^ spanOf g lv = x % 2 ^ spanOf g lv) ↔
    EntryIndex g lv va = EntryIndex g lv rs := by
  have hp : (0 : Nat) < 2 ^ BlockShift g lv := by positivity
  constructor
  · rintro ⟨x, hx1, hx2, hx3⟩
    rw [EntryIndex_congr hlv hx3, EntryIndex_eq, EntryIndex_eq]
    have hdiv : x / 2 ^ BlockShift g lv = rs / 2 ^ BlockShift g lv := by
      have h1 : rs / 2 ^ BlockShift g lv ≤ x / 2 ^ BlockShift g lv :=
        Nat.div_le_div_right hx1
      have hrs2 : rs / 2 ^ BlockShift g lv * 2 ^ BlockShift g lv = rs :=
        Nat.div_mul_cancel (Nat.dvd_of_mod_eq_zero hrs)
      have h2 : x / 2 ^ BlockShift g lv < rs / 2 ^ BlockShift g lv + 1 := by
        rw [Nat.div_lt_iff_lt_mul hp]
        calc x < rs + 2 ^ BlockShift g lv := hx2
        _ = (rs / 2 ^ BlockShift g lv + 1) * 2 ^ BlockShift g lv := by
              rw [Nat.add_mul, one_mul, hrs2]
      omega
    rw [hdiv]
  · intro hidx
    refine ⟨rs + va % 2 ^ BlockShift g lv, by omega,
      by have := Nat.mod_lt va hp; omega, ?_⟩
    rw [mod_span_decomp g lv hlv, mod_span_decomp g lv hlv]
    have h1 : (rs + va % 2 ^ BlockShift g lv) % 2 ^ BlockShift g lv =
        va % 2 ^ BlockShift g lv := by
      rw [Nat.add_mod, hrs, Nat.zero_add, Nat.mod_mod_of_dvd _ (dvd_refl _),
        Nat.mod_eq_of_lt (Nat.mod_lt va hp)]
    have h2 : EntryIndex g lv (rs + va % 2 ^ BlockShift g lv) = EntryIndex g lv rs := by
      rw [EntryIndex_eq, EntryIndex_eq]
      have : (rs + va % 2 ^ BlockShift g lv) / 2 ^ BlockShift g lv =
          rs / 2 ^ BlockShift g lv := by
        have hrs2 : rs = rs / 2 ^ BlockShift g lv * 2 ^ BlockShift g lv :=
          (Nat.div_mul_cancel (Nat.dvd_of_mod_eq_zero hrs)).symm
        conv_lhs => rw [hrs2]
        rw [Nat.mul_comm, Nat.mul_add_div hp]
        rw [Nat.div_eq_of_lt (Nat.mod_lt va hp), Nat.add_zero]
      rw [this]
    rw [h1, h2, hidx]

/-- In the leaf branch the start is block-aligned and the block end is one
whole block above the start. -/
theorem leaf_branch_arith {g : Geo} {lv rs re : Nat} (hg : GeoOkB g = true)
    (hrs_re : rs < re)
    (halign : (rs ||| min re ((rs ||| BlockMask g lv) + 1)) &&& BlockMask g lv = 0) :
    rs % 2 ^ BlockShift g lv = 0 ∧
    min re ((rs ||| BlockMask g lv) + 1) = rs + 2 ^ BlockShift g lv := by
  have hp : (0 : Nat) < 2 ^ BlockShift g lv := by positivity
  rw [blockMask_eq hg lv] at halign ⊢
  rw [Nat.and_distrib_right] at halign
  rw [or_eq_zero_iff] at halign
  rw [Nat.and_pow_two_sub_one_eq_mod] at halign
  have hrs0 : rs % 2 ^ BlockShift g lv = 0 := halign.1
  have hbe0 : min re ((rs ||| (2 ^ BlockShift g lv - 1)) + 1) %
      2 ^ BlockShift g lv = 0 := by
    have := halign.2
    rwa [Nat.and_pow_two_sub_one_eq_mod] at this
  have hrs2 : rs / 2 ^ BlockShift g lv * 2 ^ BlockShift g lv = rs :=
    Nat.div_mul_cancel (Nat.dvd_of_mod_eq_zero hrs0)
  have hbound : (rs ||| (2 ^ BlockShift g lv - 1)) + 1 =
      rs + 2 ^ BlockShift g lv := by
    rw [blockEnd_arith, Nat.add_mul, one_mul, hrs2]
  rw [hbound] at hbe0 ⊢
  refine ⟨hrs0, ?_⟩
  rcases le_total re (rs + 2 ^ BlockShift g lv) with h | h
  · rw [min_eq_left h] at hbe0 ⊢
    have hre2 : re / 2 ^ BlockShift g lv * 2 ^ BlockShift g lv = re :=
      Nat.div_mul_cancel (Nat.dvd_of_mod_eq_zero hbe0)
    have h1 : rs / 2 ^ BlockShift g lv < re / 2 ^ BlockShift g lv := by
      by_contra hc
      push_neg at hc
      have := Nat.mul_le_mul_right (2 ^ BlockShift g lv) hc
      omega
    have h2 : re / 2 ^ BlockShift g lv ≤ rs / 2 ^ BlockShift g lv + 1 := by
      by_contra hc
      push_neg at hc
      have : (rs / 2 ^ BlockShift g lv + 2) * 2 ^ BlockShift g lv ≤
          re / 2 ^ BlockShift g lv * 2 ^ BlockShift g lv :=
        Nat.mul_le_mul_right _ (by omega)
      rw [hre2] at this
      have h3 : (rs / 2 ^ BlockShift g lv + 2) * 2 ^ BlockShift g lv =
          rs + 2 * 2 ^ BlockShift g lv := by
        rw [Nat.add_mul, hrs2]
      omega
    have h4 : re / 2 ^ BlockShift g lv = rs / 2 ^ BlockShift g lv + 1 := by omega
    rw [← hre2, h4, Nat.add_mul, one_mul, hrs2]
  · rw [min_eq_right h]

end MmuSpec.CpuMmu

namespace MmuSpec.CpuMmu

/-- Effect of writing a leaf value over a non-table entry of an
invariant-respecting table: the subtree is unchanged, the invariant is
preserved, and only walks through the written index change. -/
theorem leaf_write_spec (g : Geo) {m : Mem} {dd pt lv i : Nat} (v : Nat)
    (hInv : InvAtB g m (dd + 1) pt lv = true)
    (hlv : lv + (dd + 1) = g.maxLv)
    (hi : i < 2 ^ g.w)
    (hold : IsTableEntry g (entryAt m pt i) lv = false)
    (hnt : IsTableEntry g v lv = false)
    (hhv : IsValidHugePage v = true → v &&& PAGE_VALID = PAGE_VALID) :
    subT g (setEntry m pt i v) (dd + 1) pt lv = subT g m (dd + 1) pt lv ∧
    InvAtB g (setEntry m pt i v) (dd + 1) pt lv = true ∧
    (∀ va, WalkEntry g (setEntry m pt i v) (dd + 1) pt lv va =
      if EntryIndex g lv va = i then
        (if IsBlockEntry g v lv then some (v, lv) else none)
      else WalkEntry g m (dd + 1) pt lv va) ∧
    (GoodBlocksB g m (dd + 1) pt lv = true → (2 ≤ lv ∨ IsValidHugePage v = false) →
      GoodBlocksB g (setEntry m pt i v) (dd + 1) pt lv = true) := by
  have hInv2 := hInv
  rw [invAtB_iff] at hInv2
  obtain ⟨⟨⟨⟨h0, h4⟩, h48⟩, tbl, hl, hlen⟩, hall⟩ := hInv2
  have hlen2 : (tblOf m pt).length = 2 ^ g.w := by
    unfold tblOf
    rw [hl]
    exact hlen
  have heii : entryAt (setEntry m pt i v) pt i = v :=
    entryAt_setEntry_self m pt i v (by omega)
  have hei : ∀ j, j ≠ i → entryAt (setEntry m pt i v) pt j = entryAt m pt j :=
    fun j hj => entryAt_setEntry_ne_idx m pt i j v (fun he => hj he.symm)
  have hagj : ∀ j, j < 2 ^ g.w → IsTableEntry g (entryAt m pt j) lv = true →
      ∀ u ∈ subT g m dd (childOf (entryAt m pt j)) (lv + 1),
        lookupTbl (setEntry m pt i v) u = lookupTbl m u := by
    intro j hj htj u hu
    exact lookupTbl_setEntry_ne m pt u i v
      (fun he => ((hall j hj).2 htj).1.2 (he ▸ hu))
  have hsubj : ∀ j, j < 2 ^ g.w → IsTableEntry g (entryAt m pt j) lv = true →
      subT g (setEntry m pt i v) dd (childOf (entryAt m pt j)) (lv + 1) =
        subT g m dd (childOf (entryAt m pt j)) (lv + 1) := by
    intro j hj htj
    exact subT_congr g m _ dd _ (lv + 1) (by omega) (hagj j hj htj)
  have hsub : subT g (setEntry m pt i v) (dd + 1) pt lv = subT g m (dd + 1) pt lv := by
    by_cases hlv1 : lv < g.maxLv - 1
    · rw [subT_eq_cons g _ dd pt lv hlv1, subT_eq_cons g m dd pt lv hlv1]
      congr 1
      unfold childSubs
      apply flatMap_congr
      intro j hj
      by_cases hji : j = i
      · subst hji
        rw [heii, if_neg (by rw [hnt]; exact Bool.false_ne_true),
          if_neg (by rw [hold]; exact Bool.false_ne_true)]
      · rw [hei j hji]
        by_cases htj : IsTableEntry g (entryAt m pt j) lv = true
        · rw [if_pos htj, if_pos htj, hsubj j (List.mem_range.mp hj) htj]
        · rw [if_neg htj, if_neg htj]
    · rw [subT_eq_single g _ dd pt lv hlv1, subT_eq_single g m dd pt lv hlv1]
  refine ⟨hsub, ?_, ?_, ?_⟩
  · -- invariant preserved
    rw [invAtB_iff]
    refine ⟨⟨⟨⟨h0, h4⟩, h48⟩, (tblOf m pt).set i v, lookupTbl_setEntry_self m pt i v,
      by rw [List.length_set_eq]; exact hlen2⟩, ?_⟩
    intro j hj
    by_cases hji : j = i
    · subst hji
      rw [heii]
      exact ⟨hhv, fun hc => absurd hc (by rw [hnt]; exact Bool.false_ne_true)⟩
    · rw [hei j hji]
      refine ⟨(hall j hj).1, fun htj => ?_⟩
      have hj2 := (hall j hj).2 htj
      refine ⟨⟨?_, ?_⟩, ?_⟩
      · rw [invAtB_congr g m _ dd _ (lv + 1) (by omega) (hagj j hj htj)]
        exact hj2.1.1
      · rw [hsubj j hj htj]
        exact hj2.1.2
      · intro j2 hj2b hcond x hx
        rcases hcond with ⟨htj2, hne⟩
        by_cases hj2i : j2 = i
        · subst hj2i
          rw [heii] at htj2
          exact absurd htj2 (by rw [hnt]; exact Bool.false_ne_true)
        · rw [hei j2 hj2i] at htj2 ⊢
          rw [hsubj j hj htj] at hx
          rw [hsubj j2 hj2b htj2]
          exact hj2.2 j2 hj2b ⟨htj2, hne⟩ x hx
  · -- walks
    intro va
    simp only [WalkEntry]
    by_cases hvi : EntryIndex g lv va = i
    · rw [hvi, heii, if_neg (by rw [hnt]; exact Bool.false_ne_true), if_pos rfl]
    · rw [hei _ hvi, if_neg hvi]
      by_cases htj : IsTableEntry g (entryAt m pt (EntryIndex g lv va)) lv = true
      · rw [if_pos htj, if_pos htj]
        exact walkEntry_congr g m _ dd _ (lv + 1) (by omega)
          (hagj _ (EntryIndex_lt g lv va) htj) va
      · rw [if_neg htj, if_neg htj]
  · -- block placement preserved
    intro hgood hv2
    rw [goodBlocksB_iff] at hgood ⊢
    intro j hj
    by_cases hji : j = i
    · subst hji
      rw [heii]
      exact ⟨hv2, fun hc => absurd hc (by rw [hnt]; exact Bool.false_ne_true)⟩
    · rw [hei j hji]
      refine ⟨(hgood j hj).1, fun htj => ?_⟩
      rw [goodBlocksB_congr g m _ dd _ (lv + 1) (by omega) (hagj j hj htj)]
      exact (hgood j hj).2 htj

end MmuSpec.CpuMmu

namespace MmuSpec.CpuMmu

/-- Effect of wiring a disjoint invariant-respecting table `tt` into a
non-table entry: the subtree gains exactly `tt`'s subtree, the invariant is
preserved, and walks through the written index continue into `tt`. -/
theorem wire_write_spec (g : Geo) {m : Mem} {dd pt lv i tt : Nat}
    (hInv : InvAtB g m (dd + 1) pt lv = true)
    (hlv : lv + (dd + 1) = g.maxLv)
    (hlv1 : lv < g.maxLv - 1)
    (hi : i < 2 ^ g.w)
    (hold : IsTableEntry g (entryAt m pt i) lv = false)
    (httInv : InvAtB g m dd tt (lv + 1) = true)
    (hptt : pt ∉ subT g m dd tt (lv + 1))
    (htt0 : tt ≠ 0) (htt4 : tt % 4096 = 0) (htt48 : tt < 2 ^ 48)
    (hdisj : ∀ j, j < 2 ^ g.w → IsTableEntry g (entryAt m pt j) lv = true →
      ∀ x ∈ subT g m dd tt (lv + 1),
        x ∉ subT g m dd (childOf (entryAt m pt j)) (lv + 1)) :
    InvAtB g (setEntry m pt i tt) (dd + 1) pt lv = true ∧
    (∀ u, u ∈ subT g (setEntry m pt i tt) (dd + 1) pt lv ↔
      (u ∈ subT g m (dd + 1) pt lv ∨ u ∈ subT g m dd tt (lv + 1))) ∧
    (∀ va, WalkEntry g (setEntry m pt i tt) (dd + 1) pt lv va =
      if EntryIndex g lv va = i then WalkEntry g m dd tt (lv + 1) va
      else WalkEntry g m (dd + 1) pt lv va) ∧
    (GoodBlocksB g m (dd + 1) pt lv = true → GoodBlocksB g m dd tt (lv + 1) = true →
      GoodBlocksB g (setEntry m pt i tt) (dd + 1) pt lv = true) := by
  have hInv2 := hInv
  rw [invAtB_iff] at hInv2
  obtain ⟨⟨⟨⟨h0, h4⟩, h48⟩, tbl, hl, hlen⟩, hall⟩ := hInv2
  have hlen2 : (tblOf m pt).length = 2 ^ g.w := by
    unfold tblOf
    rw [hl]
    exact hlen
  have httable : IsTableEntry g tt lv = true :=
    isTable_ptr g lv htt0 htt4 (by omega)
  have hchild : childOf tt = tt := childOf_self htt4 htt48
  have heii : entryAt (setEntry m pt i tt) pt i = tt :=
    entryAt_setEntry_self m pt i tt (by omega)
  have hei : ∀ j, j ≠ i → entryAt (setEntry m pt i tt) pt j = entryAt m pt j :=
    fun j hj => entryAt_setEntry_ne_idx m pt i j tt (fun he => hj he.symm)
  have hagj : ∀ j, j < 2 ^ g.w → IsTableEntry g (entryAt m pt j) lv = true →
      ∀ u ∈ subT g m dd (childOf (entryAt m pt j)) (lv + 1),
        lookupTbl (setEntry m pt i tt) u = lookupTbl m u := by
    intro j hj htj u hu
    exact lookupTbl_setEntry_ne m pt u i tt
      (fun he => ((hall j hj).2 htj).1.2 (he ▸ hu))
  have hsubj : ∀ j, j < 2 ^ g.w → IsTableEntry g (entryAt m pt j) lv = true →
      subT g (setEntry m pt i tt) dd (childOf (entryAt m pt j)) (lv + 1) =
        subT g m dd (childOf (entryAt m pt j)) (lv + 1) := by
    intro j hj htj
    exact subT_congr g m _ dd _ (lv + 1) (by omega) (hagj j hj htj)
  have hagtt : ∀ u ∈ subT g m dd tt (lv + 1),
      lookupTbl (setEntry m pt i tt) u = lookupTbl m u := by
    intro u hu
    exact lookupTbl_setEntry_ne m pt u i tt (fun he => hptt (he ▸ hu))
  have hsubtt : subT g (setEntry m pt i tt) dd tt (lv + 1) =
      subT g m dd tt (lv + 1) :=
    subT_congr g m _ dd tt (lv + 1) (by omega) hagtt
  have hInvtt4 : InvAtB g (setEntry m pt i tt) dd tt (lv + 1) = true := by
    rw [invAtB_congr g m _ dd tt (lv + 1) (by omega) hagtt]
    exact httInv
  refine ⟨?_, ?_, ?_, ?_⟩
  · -- invariant after wiring
    rw [invAtB_iff]
    refine ⟨⟨⟨⟨h0, h4⟩, h48⟩, (tblOf m pt).set i tt, lookupTbl_setEntry_self m pt i tt,
      by rw [List.length_set_eq]; exact hlen2⟩, ?_⟩
    intro j hj
    by_cases hji : j = i
    · subst hji
      rw [heii]
      refine ⟨fun hc => ?_, fun _ => ?_⟩
      · rw [isHuge_aligned htt4] at hc
        exact absurd hc Bool.false_ne_true
      rw [hchild]
      refine ⟨⟨hInvtt4, by rw [hsubtt]; exact hptt⟩, ?_⟩
      intro j2 hj2b hcond x hx
      rcases hcond with ⟨htj2, hne⟩
      rw [hei j2 hne] at htj2 ⊢
      rw [hsubtt] at hx
      rw [hsubj j2 hj2b htj2]
      exact hdisj j2 hj2b htj2 x hx
    · rw [hei j hji]
      refine ⟨(hall j hj).1, fun htj => ?_⟩
      have hjc := (hall j hj).2 htj
      refine ⟨⟨?_, ?_⟩, ?_⟩
      · rw [invAtB_congr g m _ dd _ (lv + 1) (by omega) (hagj j hj htj)]
        exact hjc.1.1
      · rw [hsubj j hj htj]
        exact hjc.1.2
      · intro j2 hj2b hcond x hx
        rcases hcond with ⟨htj2, hne⟩
        rw [hsubj j hj htj] at hx
        by_cases hj2i : j2 = i
        · subst hj2i
          rw [heii] at htj2 ⊢
          rw [hchild, hsubtt]
          intro hc
          exact hdisj j hj htj x hc hx
        · rw [hei j2 hj2i] at htj2 ⊢
          rw [hsubj j2 hj2b htj2]
          exact hjc.2 j2 hj2b ⟨htj2, hne⟩ x hx
  · -- subtree membership
    intro u
    rw [subT_eq_cons g _ dd pt lv hlv1, subT_eq_cons g m dd pt lv hlv1]
    simp only [List.mem_cons]
    constructor
    · rintro (rfl | hu)
      · exact Or.inl (Or.inl rfl)
      · rw [mem_childSubs] at hu
        obtain ⟨j, hj, htj, hmem⟩ := hu
        by_cases hji : j = i
        · subst hji
          rw [heii] at htj hmem
          rw [hchild, hsubtt] at hmem
          exact Or.inr hmem
        · rw [hei j hji] at htj hmem
          rw [hsubj j hj htj] at hmem
          exact Or.inl (Or.inr (mem_childSubs.mpr ⟨j, hj, htj, hmem⟩))
    · rintro ((rfl | hu) | hu)
      · exact Or.inl rfl
      · rw [mem_childSubs] at hu
        obtain ⟨j, hj, htj, hmem⟩ := hu
        have hji : j ≠ i := fun he => by
          rw [he] at htj
          rw [hold] at htj
          exact Bool.false_ne_true htj
        refine Or.inr (mem_childSubs.mpr ⟨j, hj, ?_, ?_⟩)
        · rw [hei j hji]
          exact htj
        · rw [hei j hji, hsubj j hj htj]
          exact hmem
      · refine Or.inr (mem_childSubs.mpr ⟨i, hi, ?_, ?_⟩)
        · rw [heii]
          exact httable
        · rw [heii, hchild, hsubtt]
          exact hu
  · -- walks
    intro va
    simp only [WalkEntry]
    by_cases hvi : EntryIndex g lv va = i
    · rw [hvi, heii, if_pos httable, if_pos rfl, hchild]
      exact walkEntry_congr g m _ dd tt (lv + 1) (by omega) hagtt va
    · rw [hei _ hvi, if_neg hvi]
      by_cases htj : IsTableEntry g (entryAt m pt (EntryIndex g lv va)) lv = true
      · rw [if_pos htj, if_pos htj]
        exact walkEntry_congr g m _ dd _ (lv + 1) (by omega)
          (hagj _ (EntryIndex_lt g lv va) htj) va
      · rw [if_neg htj, if_neg htj]
  · -- block placement
    intro hgood hgtt
    rw [goodBlocksB_iff] at hgood ⊢
    intro j hj
    by_cases hji : j = i
    · subst hji
      rw [heii]
      refine ⟨Or.inr (isHuge_aligned htt4), fun _ => ?_⟩
      rw [hchild]
      rw [goodBlocksB_congr g m _ dd tt (lv + 1) (by omega) hagtt]
      exact hgtt
    · rw [hei j hji]
      refine ⟨(hgood j hj).1, fun htj => ?_⟩
      rw [goodBlocksB_congr g m _ dd _ (lv + 1) (by omega) (hagj j hj htj)]
      exact (hgood j hj).2 htj

end MmuSpec.CpuMmu

namespace MmuSpec

theorem tdom_memErase_mem : ∀ (m : Mem) (t u : Nat), u ≠ t → u ∈ tdom m →
    u ∈ tdom (memErase m t) := by
  intro m t u hne hu
  obtain ⟨tbl, htbl⟩ := lookup_some_of_tdom m u hu
  apply mem_tdom_of_lookup _ u tbl
  rw [lookupTbl_memErase_ne m t u hne]
  exact htbl

theorem getD_replicate : ∀ (n j : Nat), (List.replicate n (0 : Nat)).getD j 0 = 0 := by
  intro n
  induction n with
  | zero => intro j; rfl
  | succ n ih =>
      intro j
      cases j with
      | zero => rfl
      | succ j => simpa [List.replicate, List.getD] using ih j

end MmuSpec

namespace MmuSpec.CpuMmu

theorem isTable_zero (g : Geo) (lv : Nat) : IsTableEntry g 0 lv = false := by
  unfold IsTableEntry
  by_cases h : lv = g.maxLv - 1 <;> simp [h, IsValidPte, INVALID_PAGE]

theorem isBlock_zero (g : Geo) (lv : Nat) : IsBlockEntry g 0 lv = false := by
  unfold IsBlockEntry IsValidHugePage
  by_cases h : lv = g.maxLv - 1 <;> simp [h] <;> decide

/-- A freshly zeroed table: trivial subtree, invariant, blocks and walks. -/
theorem zeroTbl_spec (g : Geo) {m1 : Mem} {nt : Nat}
    (h0 : nt ≠ 0) (h4 : nt % 4096 = 0) (h48 : nt < 2 ^ 48)
    (hlk : lookupTbl m1 nt = some (List.replicate (2 ^ g.w) 0)) :
    (∀ j, entryAt m1 nt j = 0) ∧
    (∀ d lv2, subT g m1 d nt lv2 = [nt]) ∧
    (∀ d lv2, InvAtB g m1 (d + 1) nt lv2 = true) ∧
    (∀ d lv2, GoodBlocksB g m1 d nt lv2 = true) ∧
    (∀ d lv2 va, WalkEntry g m1 d nt lv2 va = none) := by
  have hz : ∀ j, entryAt m1 nt j = 0 := by
    intro j
    unfold entryAt tblOf
    rw [hlk]
    exact getD_replicate _ j
  refine ⟨hz, ?_, ?_, ?_, ?_⟩
  · intro d lv2
    cases d with
    | zero => rfl
    | succ d =>
        simp only [subT]
        by_cases h : lv2 < g.maxLv - 1
        · rw [if_pos h]
          congr 1
          apply List.flatMap_eq_nil_iff.mpr
          intro i hi
          rw [hz i, if_neg (by rw [isTable_zero]; exact Bool.false_ne_true)]
        · rw [if_neg h]
  · intro d lv2
    rw [invAtB_iff]
    refine ⟨⟨⟨⟨h0, h4⟩, h48⟩, List.replicate (2 ^ g.w) 0, hlk, by simp⟩, ?_⟩
    intro i hi
    rw [hz i]
    constructor
    · intro hc
      rw [show IsValidHugePage 0 = false from by decide] at hc
      exact absurd hc Bool.false_ne_true
    · intro hc
      rw [isTable_zero] at hc
      exact absurd hc Bool.false_ne_true
  · intro d lv2
    cases d with
    | zero => rfl
    | succ d =>
        rw [goodBlocksB_iff]
        intro i hi
        rw [hz i]
        constructor
        · right
          decide
        · intro hc
          rw [isTable_zero] at hc
          exact absurd hc Bool.false_ne_true
  · intro d lv2 va
    cases d with
    | zero => rfl
    | succ d =>
        simp only [WalkEntry]
        rw [hz, if_neg (by rw [isTable_zero]; exact Bool.false_ne_true),
          if_neg (by rw [isBlock_zero]; exact Bool.false_ne_true)]

/-- Fields of `ReplaceTableEntry`. -/
theorem ReplaceTableEntry_fields (st : St) (t i v rs : Nat) (live : Bool) :
    (ReplaceTableEntry st t i v rs live).mem = setEntry st.mem t i v ∧
    (ReplaceTableEntry st t i v rs live).fresh = st.fresh ∧
    (ReplaceTableEntry st t i v rs live).pgdl = st.pgdl ∧
    (ReplaceTableEntry st t i v rs live).crmdPg = st.crmdPg := by
  unfold ReplaceTableEntry
  split <;> exact ⟨rfl, rfl, rfl, rfl⟩

theorem error_ne_success {s : Nat} (h : EFI_ERROR s = true) : s ≠ EFI_SUCCESS := by
  unfold EFI_ERROR at h
  rw [decide_eq_true_eq] at h
  unfold EFI_SUCCESS
  omega

theorem error_no_fuel : EFI_ERROR EFI_NO_FUEL = true := by decide

theorem error_oor : EFI_ERROR EFI_OUT_OF_RESOURCES = true := by decide

theorem not_error_success : EFI_ERROR EFI_SUCCESS = false := by decide

/-- Entry index is constant across one block. -/
theorem idx_in_block {g : Geo} {lv rs x : Nat} (h1 : rs ≤ x)
    (h2 : x < (rs / 2 ^ BlockShift g lv + 1) * 2 ^ BlockShift g lv) :
    EntryIndex g lv x = EntryIndex g lv rs := by
  have hp : (0 : Nat) < 2 ^ BlockShift g lv := by positivity
  rw [EntryIndex_eq, EntryIndex_eq]
  have hd : x / 2 ^ BlockShift g lv = rs / 2 ^ BlockShift g lv := by
    have ha : rs / 2 ^ BlockShift g lv ≤ x / 2 ^ BlockShift g lv :=
      Nat.div_le_div_right h1
    have hb : x / 2 ^ BlockShift g lv < rs / 2 ^ BlockShift g lv + 1 := by
      rw [Nat.div_lt_iff_lt_mul hp]
      exact h2
    omega
  rw [hd]

/-- Exemption at a level transfers into the block handled by one loop
iteration at the next level. -/
theorem exempt_lift {g : Geo} {lv rs be re va : Nat} (hlv : lv < g.maxLv)
    (hbe_le : be ≤ re)
    (hbe_hi : be ≤ (rs / 2 ^ BlockShift g lv + 1) * 2 ^ BlockShift g lv)
    (hidx : EntryIndex g lv va = EntryIndex g lv rs)
    (hex : ∀ x, rs ≤ x → x < re → va % 2 ^ spanOf g lv ≠ x % 2 ^ spanOf g lv) :
    ∀ x, rs ≤ x → x < be →
      va % 2 ^ spanOf g (lv + 1) ≠ x % 2 ^ spanOf g (lv + 1) := by
  intro x h1 h2 heq
  apply hex x h1 (lt_of_lt_of_le h2 hbe_le)
  rw [mod_span_decomp g lv hlv, mod_span_decomp g lv hlv]
  rw [← blockShift_succ] at heq
  rw [heq, hidx, idx_in_block h1 (lt_of_lt_of_le h2 hbe_hi)]

end MmuSpec.CpuMmu

namespace MmuSpec.CpuMmu

/-- Rebuilding a table's invariant after its `i`-th child subtree was
modified in place (only tables inside that subtree or fresh pages were
touched, and the new subtree stays inside the old one plus fresh pages). -/
theorem parent_inv_update (g : Geo) {m m2 : Mem} {dd pt lv i : Nat}
    (fresh : List Nat)
    (hInv : InvAtB g m (dd + 1) pt lv = true)
    (hlv : lv + (dd + 1) = g.maxLv)
    (hi : i < 2 ^ g.w)
    (htab : IsTableEntry g (entryAt m pt i) lv = true)
    (hfoot : ∀ u, u ∉ subT g m dd (childOf (entryAt m pt i)) (lv + 1) → u ∉ fresh →
      lookupTbl m2 u = lookupTbl m u)
    (hFd : ∀ x ∈ fresh, x ∉ tdom m)
    (hchildInv : InvAtB g m2 dd (childOf (entryAt m pt i)) (lv + 1) = true)
    (hchildsub : ∀ u ∈ subT g m2 dd (childOf (entryAt m pt i)) (lv + 1),
      u ∈ subT g m dd (childOf (entryAt m pt i)) (lv + 1) ∨ u ∈ fresh) :
    InvAtB g m2 (dd + 1) pt lv = true ∧
    (∀ u, u ∈ subT g m2 (dd + 1) pt lv →
      u ∈ subT g m (dd + 1) pt lv ∨ u ∈ fresh) ∧
    (∀ va, WalkEntry g m2 (dd + 1) pt lv va =
      if EntryIndex g lv va = i then
        WalkEntry g m2 dd (childOf (entryAt m pt i)) (lv + 1) va
      else WalkEntry g m (dd + 1) pt lv va) ∧
    (GoodBlocksB g m (dd + 1) pt lv = true →
      GoodBlocksB g m2 dd (childOf (entryAt m pt i)) (lv + 1) = true →
      GoodBlocksB g m2 (dd + 1) pt lv = true) := by
  have hInv2 := hInv
  rw [invAtB_iff] at hInv2
  obtain ⟨⟨⟨⟨h0, h4⟩, h48⟩, tbl, hl, hlen⟩, hall⟩ := hInv2
  have hlvx : lv < g.maxLv := by omega
  have hne : lv ≠ g.maxLv - 1 := by
    intro hc
    rw [isTable_last g _ lv hc] at htab
    exact Bool.false_ne_true htab
  have hlv1 : lv < g.maxLv - 1 := by omega
  have hptm : pt ∈ tdom m := mem_tdom_of_lookup _ _ _ hl
  have hptf : pt ∉ fresh := fun hc => hFd pt hc hptm
  have hptc : pt ∉ subT g m dd (childOf (entryAt m pt i)) (lv + 1) :=
    ((hall i hi).2 htab).1.2
  have hlookpt : lookupTbl m2 pt = lookupTbl m pt := hfoot pt hptc hptf
  have hent : ∀ j, entryAt m2 pt j = entryAt m pt j := by
    intro j
    unfold entryAt tblOf
    rw [hlookpt]
  have hdisj_ji : ∀ j, j < 2 ^ g.w → j ≠ i → IsTableEntry g (entryAt m pt j) lv = true →
      ∀ u ∈ subT g m dd (childOf (entryAt m pt j)) (lv + 1),
        u ∉ subT g m dd (childOf (entryAt m pt i)) (lv + 1) := by
    intro j hj hji htj u hu
    exact ((hall j hj).2 htj).2 i hi ⟨htab, fun he => hji he.symm⟩ u hu
  have hagj : ∀ j, j < 2 ^ g.w → j ≠ i → IsTableEntry g (entryAt m pt j) lv = true →
      ∀ u ∈ subT g m dd (childOf (entryAt m pt j)) (lv + 1),
        lookupTbl m2 u = lookupTbl m u := by
    intro j hj hji htj u hu
    apply hfoot u (hdisj_ji j hj hji htj u hu)
    intro hc
    exact hFd u hc (subT_sub_tdom g m dd _ (lv + 1) ((hall j hj).2 htj).1.1 u hu)
  have hsubj : ∀ j, j < 2 ^ g.w → j ≠ i → IsTableEntry g (entryAt m pt j) lv = true →
      subT g m2 dd (childOf (entryAt m pt j)) (lv + 1) =
        subT g m dd (childOf (entryAt m pt j)) (lv + 1) := by
    intro j hj hji htj
    exact subT_congr g m m2 dd _ (lv + 1) (by omega) (hagj j hj hji htj)
  have hnotfresh_i : ∀ u ∈ subT g m2 dd (childOf (entryAt m pt i)) (lv + 1),
      ∀ j, j < 2 ^ g.w → j ≠ i → IsTableEntry g (entryAt m pt j) lv = true →
        u ∉ subT g m dd (childOf (entryAt m pt j)) (lv + 1) := by
    intro u hu j hj hji htj hc
    rcases hchildsub u hu with hu2 | hu2
    · exact hdisj_ji j hj hji htj u hc hu2
    · exact hFd u hu2 (subT_sub_tdom g m dd _ (lv + 1) ((hall j hj).2 htj).1.1 u hc)
  refine ⟨?_, ?_, ?_, ?_⟩
  · rw [invAtB_iff]
    refine ⟨⟨⟨⟨h0, h4⟩, h48⟩, tbl, by rw [hlookpt]; exact hl, hlen⟩, ?_⟩
    intro j hj
    rw [hent j]
    by_cases hji : j = i
    · subst hji
      refine ⟨(hall j hj).1, fun _ => ?_⟩
      refine ⟨⟨hchildInv, ?_⟩, ?_⟩
      · intro hc
        rcases hchildsub pt hc with hc2 | hc2
        · exact hptc hc2
        · exact hptf hc2
      · intro j2 hj2 hcond x hx
        rcases hcond with ⟨htj2, hne2⟩
        rw [hent j2] at htj2 ⊢
        rw [hsubj j2 hj2 hne2 htj2]
        exact hnotfresh_i x hx j2 hj2 hne2 htj2
    · refine ⟨(hall j hj).1, fun htj => ?_⟩
      have hjc := (hall j hj).2 htj
      refine ⟨⟨?_, ?_⟩, ?_⟩
      · rw [invAtB_congr g m m2 dd _ (lv + 1) (by omega) (hagj j hj hji htj)]
        exact hjc.1.1
      · rw [hsubj j hj hji htj]
        exact hjc.1.2
      · intro j2 hj2 hcond x hx
        rcases hcond with ⟨htj2, hne2⟩
        rw [hsubj j hj hji htj] at hx
        by_cases hj2i : j2 = i
        · subst hj2i
          rw [hent j2] at htj2 ⊢
          intro hc
          exact hnotfresh_i x hc j hj hji htj hx
        · rw [hent j2] at htj2 ⊢
          rw [hsubj j2 hj2 hj2i htj2]
          exact hjc.2 j2 hj2 ⟨htj2, hne2⟩ x hx
  · intro u hu
    rw [subT_eq_cons g m2 dd pt lv hlv1] at hu
    rw [subT_eq_cons g m dd pt lv hlv1]
    simp only [List.mem_cons] at hu ⊢
    rcases hu with rfl | hu
    · exact Or.inl (Or.inl rfl)
    · rw [mem_childSubs] at hu
      obtain ⟨j, hj, htj, hmem⟩ := hu
      rw [hent j] at htj hmem
      by_cases hji : j = i
      · subst hji
        rcases hchildsub u hmem with hu2 | hu2
        · exact Or.inl (Or.inr (mem_childSubs.mpr ⟨j, hj, htab, hu2⟩))
        · exact Or.inr hu2
      · rw [hsubj j hj hji htj] at hmem
        exact Or.inl (Or.inr (mem_childSubs.mpr ⟨j, hj, htj, hmem⟩))
  · intro va
    simp only [WalkEntry]
    rw [hent]
    by_cases hvi : EntryIndex g lv va = i
    · rw [hvi, if_pos htab, if_pos rfl]
    · rw [if_neg hvi]
      by_cases htj : IsTableEntry g (entryAt m pt (EntryIndex g lv va)) lv = true
      · rw [if_pos htj, if_pos htj]
        exact walkEntry_congr g m m2 dd _ (lv + 1) (by omega)
          (hagj _ (EntryIndex_lt g lv va) hvi htj) va
      · rw [if_neg htj, if_neg htj]
  · intro hgood hcgood
    rw [goodBlocksB_iff] at hgood ⊢
    intro j hj
    rw [hent j]
    by_cases hji : j = i
    · subst hji
      exact ⟨(hgood j hj).1, fun _ => hcgood⟩
    · refine ⟨(hgood j hj).1, fun htj => ?_⟩
      rw [goodBlocksB_congr g m m2 dd _ (lv + 1) (by omega) (hagj j hj hji htj)]
      exact (hgood j hj).2 htj

end MmuSpec.CpuMmu

namespace MmuSpec.CpuMmu

/-- Conclusion bundle of the main specification of
`UpdateRegionMappingRecursive`: allocator accounting, footprint, structural
invariants, block placement, frame preservation for exempt addresses, and
the success postcondition. -/
def Concl (g : Geo) (rs re aset aclr pt lv : Nat) (st : St) (res : Nat × St) : Prop :=
  (∀ x ∈ res.2.fresh, x ∈ st.fresh) ∧
  (∀ x ∈ st.fresh, x ∈ res.2.fresh ∨ x ∈ tdom res.2.mem) ∧
  (∀ x ∈ tdom res.2.mem, x ∈ tdom st.mem ∨ x ∈ st.fresh) ∧
  (∀ x ∈ tdom st.mem, x ∈ tdom res.2.mem ∨ x ∈ res.2.fresh) ∧
  res.2.pgdl = st.pgdl ∧ res.2.crmdPg = st.crmdPg ∧
  (∀ u, u ∉ subT g st.mem (g.maxLv - lv) pt lv → u ∉ st.fresh →
    lookupTbl res.2.mem u = lookupTbl st.mem u) ∧
  (∀ u, u ∈ subT g res.2.mem (g.maxLv - lv) pt lv →
    u ∈ subT g st.mem (g.maxLv - lv) pt lv ∨ u ∈ st.fresh) ∧
  InvAtB g res.2.mem (g.maxLv - lv) pt lv = true ∧
  FreshOkB res.2 = true ∧
  GoodBlocksB g res.2.mem (g.maxLv - lv) pt lv = true ∧
  (∀ va, (∀ x, rs ≤ x → x < re → va % 2 ^ spanOf g lv ≠ x % 2 ^ spanOf g lv) →
    WalkAttrs g res.2.mem (g.maxLv - lv) pt lv va =
      WalkAttrs g st.mem (g.maxLv - lv) pt lv va) ∧
  (res.1 = EFI_SUCCESS → aclr = PTE_ATTRIBUTES_MASK →
    ∀ va x, rs ≤ x → x < re → va % 2 ^ spanOf g lv = x % 2 ^ spanOf g lv →
      WalkAttrs g res.2.mem (g.maxLv - lv) pt lv va = some (leafAttrs aset)) ∧
  (res.1 = EFI_SUCCESS ∨ EFI_ERROR res.1 = true)

/-- The bundle for a call that returns its input state unchanged. -/
theorem Concl_id (g : Geo) (rs re aset aclr pt lv : Nat) (st : St) (status : Nat)
    (hInv : InvAtB g st.mem (g.maxLv - lv) pt lv = true)
    (hfr : FreshOkB st = true)
    (hgood : GoodBlocksB g st.mem (g.maxLv - lv) pt lv = true)
    (hpost : status = EFI_SUCCESS → aclr = PTE_ATTRIBUTES_MASK →
      ∀ va x, rs ≤ x → x < re → va % 2 ^ spanOf g lv = x % 2 ^ spanOf g lv →
        WalkAttrs g st.mem (g.maxLv - lv) pt lv va = some (leafAttrs aset))
    (hstat : status = EFI_SUCCESS ∨ EFI_ERROR status = true) :
    Concl g rs re aset aclr pt lv st (status, st) :=
  ⟨fun _ h => h, fun _ h => Or.inl h, fun _ h => Or.inl h, fun _ h => Or.inl h,
    rfl, rfl, fun _ _ _ => rfl, fun _ h => Or.inl h, hInv, hfr, hgood,
    fun _ _ => rfl, hpost, hstat⟩

/-- Composing the state relation of the first loop iteration with the
bundle of the tail call (everything except frame and postcondition, which
need per-case reasoning). -/
theorem Concl_comp (g : Geo) (rs : Nat) {re aset aclr pt lv blockEnd : Nat}
    {st st4 : St} {resT : Nat × St}
    (hfr4 : ∀ x ∈ st4.fresh, x ∈ st.fresh)
    (hcons4 : ∀ x ∈ st.fresh, x ∈ st4.fresh ∨ x ∈ tdom st4.mem)
    (hdom4 : ∀ x ∈ tdom st4.mem, x ∈ tdom st.mem ∨ x ∈ st.fresh)
    (hkeep4 : ∀ x ∈ tdom st.mem, x ∈ tdom st4.mem ∨ x ∈ st4.fresh)
    (hpg4 : st4.pgdl = st.pgdl) (hcr4 : st4.crmdPg = st.crmdPg)
    (hfoot4 : ∀ u, u ∉ subT g st.mem (g.maxLv - lv) pt lv → u ∉ st.fresh →
      lookupTbl st4.mem u = lookupTbl st.mem u)
    (hsub4 : ∀ u, u ∈ subT g st4.mem (g.maxLv - lv) pt lv →
      u ∈ subT g st.mem (g.maxLv - lv) pt lv ∨ u ∈ st.fresh)
    (htail : Concl g blockEnd re aset aclr pt lv st4 resT) :
    (∀ x ∈ resT.2.fresh, x ∈ st.fresh) ∧
    (∀ x ∈ st.fresh, x ∈ resT.2.fresh ∨ x ∈ tdom resT.2.mem) ∧
    (∀ x ∈ tdom resT.2.mem, x ∈ tdom st.mem ∨ x ∈ st.fresh) ∧
    (∀ x ∈ tdom st.mem, x ∈ tdom resT.2.mem ∨ x ∈ resT.2.fresh) ∧
    resT.2.pgdl = st.pgdl ∧ resT.2.crmdPg = st.crmdPg ∧
    (∀ u, u ∉ subT g st.mem (g.maxLv - lv) pt lv → u ∉ st.fresh →
      lookupTbl resT.2.mem u = lookupTbl st.mem u) ∧
    (∀ u, u ∈ subT g resT.2.mem (g.maxLv - lv) pt lv →
      u ∈ subT g st.mem (g.maxLv - lv) pt lv ∨ u ∈ st.fresh) ∧
    InvAtB g resT.2.mem (g.maxLv - lv) pt lv = true ∧
    FreshOkB resT.2 = true ∧
    GoodBlocksB g resT.2.mem (g.maxLv - lv) pt lv = true := by
  obtain ⟨tfr, tcons, tdm, tkeep, tpg, tcr, tfoot, tsub, tInv, tfrok, tgood,
    tframe, tpost, tstat⟩ := htail
  have hnotsub4 : ∀ u, u ∉ subT g st.mem (g.maxLv - lv) pt lv → u ∉ st.fresh →
      u ∉ subT g st4.mem (g.maxLv - lv) pt lv := by
    intro u h1 h2 hc
    rcases hsub4 u hc with hc2 | hc2
    · exact h1 hc2
    · exact h2 hc2
  refine ⟨fun x hx => hfr4 x (tfr x hx), ?_, ?_, ?_, by rw [tpg, hpg4],
    by rw [tcr, hcr4], ?_, ?_, tInv, tfrok, tgood⟩
  · intro x hx
    rcases hcons4 x hx with hx2 | hx2
    · exact tcons x hx2
    · rcases tkeep x hx2 with hx3 | hx3
      · exact Or.inr hx3
      · exact Or.inl hx3
  · intro x hx
    rcases tdm x hx with hx2 | hx2
    · exact hdom4 x hx2
    · exact Or.inr (hfr4 x hx2)
  · intro x hx
    rcases hkeep4 x hx with hx2 | hx2
    · exact tkeep x hx2
    · rcases tcons x hx2 with hx3 | hx3
      · exact Or.inr hx3
      · exact Or.inl hx3
  · intro u h1 h2
    rw [tfoot u (hnotsub4 u h1 h2) (fun hc => h2 (hfr4 u hc))]
    exact hfoot4 u h1 h2
  · intro u hu
    rcases tsub u hu with hu2 | hu2
    · exact hsub4 u hu2
    · exact Or.inr (hfr4 u hu2)

end MmuSpec.CpuMmu

namespace MmuSpec.CpuMmu

/-- Continuation of one loop iteration of `UpdateRegionMappingRecursive`
after a fresh next-level table `nt` has been prepared (either zeroed or
populated by a block split): recurse into `nt`, on failure roll the whole
`nt` subtree back, on success wire `nt` in and continue the loop. -/
def URMR_cont (g : Geo) (fuel rs be re aset aclr pt lv i nt : Nat) (live : Bool)
    (stA : St) : Nat × St :=
  let r3 := UpdateRegionMappingRecursive g fuel rs be aset aclr nt (lv + 1) false stA
  if EFI_ERROR r3.1 then
    if IsTableEntry g (entryAt r3.2.mem pt i) lv then (r3.1, r3.2)
    else (r3.1, FreePageTablesRecursive g g.maxLv nt (lv + 1) r3.2)
  else
    let st4 :=
      if IsTableEntry g (entryAt r3.2.mem pt i) lv then r3.2
      else ReplaceTableEntry r3.2 pt i (SetPpnToPte 0 nt) rs live
    UpdateRegionMappingRecursive g fuel be re aset aclr pt lv live st4

set_option maxHeartbeats 1000000

theorem alloc_cont (g : Geo) (fuel : Nat)
    (ih : ∀ (rs re aset aclr pt lv : Nat) (live : Bool) (st : St),
      GeoOkB g = true → lv < g.maxLv →
      InvAtB g st.mem (g.maxLv - lv) pt lv = true →
      FreshOkB st = true →
      rs % 4096 = 0 → re % 4096 = 0 → re ≤ 2 ^ 48 →
      GoodBlocksB g st.mem (g.maxLv - lv) pt lv = true →
      Concl g rs re aset aclr pt lv st
        (UpdateRegionMappingRecursive g fuel rs re aset aclr pt lv live st))
    (rs be re aset aclr pt lv nt : Nat) (live : Bool) (st stA : St) (rest : List Nat)
    (hg : GeoOkB g = true) (hlv : lv < g.maxLv) (hlv1 : lv < g.maxLv - 1)
    (hrs4 : rs % 4096 = 0) (hre4 : re % 4096 = 0) (hre48 : re ≤ 2 ^ 48)
    (hbe4 : be % 4096 = 0) (hbe_le : be ≤ re) (hrs_be : rs < be)
    (hbe_hi : be ≤ (rs / 2 ^ BlockShift g lv + 1) * 2 ^ BlockShift g lv)
    (hInv : InvAtB g st.mem (g.maxLv - lv) pt lv = true)
    (hfrok : FreshOkB st = true)
    (hgood : GoodBlocksB g st.mem (g.maxLv - lv) pt lv = true)
    (htab : IsTableEntry g (entryAt st.mem pt (EntryIndex g lv rs)) lv = false)
    (hfresh : st.fresh = nt :: rest)
    (hInvA : InvAtB g stA.mem (g.maxLv - (lv + 1)) nt (lv + 1) = true)
    (hfrokA : FreshOkB stA = true)
    (hgoodA : GoodBlocksB g stA.mem (g.maxLv - (lv + 1)) nt (lv + 1) = true)
    (hAfr : ∀ x ∈ stA.fresh, x ∈ rest)
    (hAcons : ∀ x ∈ rest, x ∈ stA.fresh ∨ x ∈ tdom stA.mem)
    (hAdom : ∀ x ∈ tdom stA.mem, x = nt ∨ x ∈ tdom st.mem ∨ x ∈ rest)
    (hAkeep : ∀ x ∈ tdom st.mem, x ∈ tdom stA.mem ∨ x ∈ stA.fresh)
    (hApg : stA.pgdl = st.pgdl) (hAcr : stA.crmdPg = st.crmdPg)
    (hAfoot : ∀ u, u ∉ st.fresh → lookupTbl stA.mem u = lookupTbl st.mem u)
    (hAsub : ∀ u ∈ subT g stA.mem (g.maxLv - (lv + 1)) nt (lv + 1),
      u = nt ∨ u ∈ rest)
    (hwalkA : ∀ va, EntryIndex g lv va = EntryIndex g lv rs →
      WalkAttrs g stA.mem (g.maxLv - (lv + 1)) nt (lv + 1) va =
        WalkAttrs g st.mem (g.maxLv - lv) pt lv va) :
    Concl g rs re aset aclr pt lv st
      (URMR_cont g fuel rs be re aset aclr pt lv (EntryIndex g lv rs) nt live stA) := by
  obtain ⟨hw1, hm3, hm5, hmw⟩ := geo_facts hg
  have he2 : g.maxLv - (lv + 1) = g.maxLv - lv - 1 := by omega
  rw [he2] at hInvA hgoodA hAsub hwalkA
  generalize hDD : g.maxLv - lv - 1 = DD at hInvA hgoodA hAsub hwalkA
  have he1 : g.maxLv - lv = DD + 1 := by omega
  rw [he1] at hInv hgood hwalkA
  -- bookkeeping facts about the free list and the table at pt
  rw [freshOk_iff] at hfrok
  obtain ⟨hfn, hfp, hdn⟩ := hfrok
  have hntf : nt ∈ st.fresh := by rw [hfresh]; simp
  have hntd : nt ∉ tdom st.mem := (hfp nt hntf).1
  have hnt0 : nt ≠ 0 := (hfp nt hntf).2.1
  have hnt4 : nt % 4096 = 0 := (hfp nt hntf).2.2.1
  have hnt48 : nt < 2 ^ 48 := (hfp nt hntf).2.2.2
  have hrests : ∀ x ∈ rest, x ∈ st.fresh := by
    intro x hx
    rw [hfresh]
    simp [hx]
  have hInvP := hInv
  rw [invAtB_iff] at hInvP
  obtain ⟨⟨⟨⟨hpt0, hpt4⟩, hpt48⟩, tblp, hlp, hlenp⟩, hallp⟩ := hInvP
  have hptm : pt ∈ tdom st.mem := mem_tdom_of_lookup _ _ _ hlp
  have hptf : pt ∉ st.fresh := fun hc => (hfp pt hc).1 hptm
  have hsubpt_tdom : ∀ u ∈ subT g st.mem (DD + 1) pt lv, u ∈ tdom st.mem :=
    subT_sub_tdom g st.mem (DD + 1) pt lv hInv
  have hsubpt_nf : ∀ u ∈ subT g st.mem (DD + 1) pt lv, u ∉ st.fresh :=
    fun u hu hc => (hfp u hc).1 (hsubpt_tdom u hu)
  set i := EntryIndex g lv rs with hidef
  have hi : i < 2 ^ g.w := EntryIndex_lt g lv rs
  -- the recursive call into nt
  simp only [URMR_cont]
  set r3 := UpdateRegionMappingRecursive g fuel rs be aset aclr nt (lv + 1) false stA
    with hr3def
  have ihr3 := ih rs be aset aclr nt (lv + 1) false stA hg (by omega)
    (by rw [he2, hDD]; exact hInvA) hfrokA hrs4 hbe4 (le_trans hbe_le hre48)
    (by rw [he2, hDD]; exact hgoodA)
  rw [← hr3def] at ihr3
  unfold Concl at ihr3
  rw [he2, hDD] at ihr3
  obtain ⟨rfr, rcons, rdm, rkeep, rpg, rcr, rfoot, rsub, rInv, rfrok, rgood,
    rframe, rpost, rstat⟩ := ihr3
  rw [freshOk_iff] at rfrok
  obtain ⟨rfn, rfp, rdn⟩ := rfrok
  -- the table at pt is untouched by the recursive call
  have hntsubA : ∀ u, u ∈ subT g stA.mem DD nt (lv + 1) → u ∈ st.fresh := by
    intro u hu
    rcases hAsub u hu with rfl | hu2
    · exact hntf
    · exact hrests u hu2
  have hptnA : pt ∉ subT g stA.mem DD nt (lv + 1) := fun hc => hptf (hntsubA pt hc)
  have hptfA : pt ∉ stA.fresh := fun hc => hptf (hrests pt (hAfr pt hc))
  have hfoot3 : ∀ u, u ∉ st.fresh → lookupTbl r3.2.mem u = lookupTbl st.mem u := by
    intro u hu
    rw [rfoot u (fun hc => hu (hntsubA u hc)) (fun hc => hu (hrests u (hAfr u hc)))]
    exact hAfoot u hu
  have hent3 : ∀ j, entryAt r3.2.mem pt j = entryAt st.mem pt j := by
    intro j
    unfold entryAt tblOf
    rw [hfoot3 pt hptf]
  have htab3 : IsTableEntry g (entryAt r3.2.mem pt i) lv = false := by
    rw [hent3]
    exact htab
  have hsub3f : ∀ u ∈ subT g r3.2.mem DD nt (lv + 1), u ∈ st.fresh := by
    intro u hu
    rcases rsub u hu with hu2 | hu2
    · exact hntsubA u hu2
    · exact hrests u (hAfr u hu2)
  have hagpt : ∀ u ∈ subT g st.mem (DD + 1) pt lv,
      lookupTbl r3.2.mem u = lookupTbl st.mem u :=
    fun u hu => hfoot3 u (hsubpt_nf u hu)
  have hsubPt3 : subT g r3.2.mem (DD + 1) pt lv = subT g st.mem (DD + 1) pt lv :=
    subT_congr g st.mem _ (DD + 1) pt lv (by omega) hagpt
  have hInvPt3 : InvAtB g r3.2.mem (DD + 1) pt lv = true := by
    rw [invAtB_congr g st.mem _ (DD + 1) pt lv (by omega) hagpt]
    exact hInv
  have hGoodPt3 : GoodBlocksB g r3.2.mem (DD + 1) pt lv = true := by
    rw [goodBlocksB_congr g st.mem _ (DD + 1) pt lv (by omega) hagpt]
    exact hgood
  have hwalkPt3 : ∀ va, WalkEntry g r3.2.mem (DD + 1) pt lv va =
      WalkEntry g st.mem (DD + 1) pt lv va :=
    walkEntry_congr g st.mem _ (DD + 1) pt lv (by omega) hagpt
  by_cases herr : EFI_ERROR r3.1 = true
  · -- failure: the whole nt subtree is rolled back
    rw [if_pos herr, htab3, if_neg (by exact Bool.false_ne_true)]
    have hInv3nt : InvAtB g r3.2.mem DD nt (lv + 1) = true := rInv
    obtain ⟨fa, fb, fc, ftlb, fpg, fcr, fnd, ffn, ffd, fdm⟩ :=
      FPTR_spec g g.maxLv DD nt (lv + 1) r3.2 hInv3nt (by omega) (by omega)
        rdn rfn (fun x hx => (rfp x hx).1) _ rfl
    have hfootF : ∀ u, u ∉ st.fresh →
        lookupTbl (FreePageTablesRecursive g g.maxLv nt (lv + 1) r3.2).mem u =
          lookupTbl st.mem u := by
      intro u hu
      rw [fb u (fun hc => hu (hsub3f u hc))]
      exact hfoot3 u hu
    have hagptF : ∀ u ∈ subT g st.mem (DD + 1) pt lv,
        lookupTbl (FreePageTablesRecursive g g.maxLv nt (lv + 1) r3.2).mem u =
          lookupTbl st.mem u :=
      fun u hu => hfootF u (hsubpt_nf u hu)
    unfold Concl
    rw [he1]
    refine ⟨?_, ?_, ?_, ?_, ?_, ?_, ?_, ?_, ?_, ?_, ?_, ?_, ?_, Or.inr herr⟩
    · intro x hx
      rcases (fc x).mp hx with hx2 | hx2
      · exact hsub3f x hx2
      · rcases rfr x hx2 with hx3
        exact hrests x (hAfr x hx3)
    · intro x hx
      rw [hfresh] at hx
      rcases List.mem_cons.mp hx with rfl | hx2
      · exact Or.inl ((fc x).mpr (Or.inl (subT_head g r3.2.mem DD x (lv + 1))))
      · have hstep : x ∈ r3.2.fresh ∨ x ∈ tdom r3.2.mem := by
          rcases hAcons x hx2 with hx3 | hx3
          · exact rcons x hx3
          · exact (rkeep x hx3).symm
        rcases hstep with hx3 | hx3
        · exact Or.inl ((fc x).mpr (Or.inr hx3))
        · by_cases hxs : x ∈ subT g r3.2.mem DD nt (lv + 1)
          · exact Or.inl ((fc x).mpr (Or.inl hxs))
          · right
            obtain ⟨tb, htb⟩ := lookup_some_of_tdom _ _ hx3
            apply mem_tdom_of_lookup _ x tb
            rw [fb x hxs]
            exact htb
    · intro x hx
      rcases rdm x (fdm x hx) with hx2 | hx2
      · rcases hAdom x hx2 with rfl | hx3 | hx3
        · exact Or.inr hntf
        · exact Or.inl hx3
        · exact Or.inr (hrests x hx3)
      · exact Or.inr (hrests x (hAfr x hx2))
    · intro x hx
      have hx2 : x ∈ tdom r3.2.mem ∨ x ∈ r3.2.fresh := by
        rcases hAkeep x hx with hxa | hxa
        · exact rkeep x hxa
        · exact (rcons x hxa).symm
      rcases hx2 with hx3 | hx3
      · by_cases hxs : x ∈ subT g r3.2.mem DD nt (lv + 1)
        · exact Or.inr ((fc x).mpr (Or.inl hxs))
        · left
          obtain ⟨tb, htb⟩ := lookup_some_of_tdom _ _ hx3
          apply mem_tdom_of_lookup _ x tb
          rw [fb x hxs]
          exact htb
      · exact Or.inr ((fc x).mpr (Or.inr hx3))
    · rw [fpg, rpg, hApg]
    · rw [fcr, rcr, hAcr]
    · intro u hu huf
      exact hfootF u huf
    · intro u hu
      rw [subT_congr g st.mem _ (DD + 1) pt lv (by omega) hagptF] at hu
      exact Or.inl hu
    · rw [invAtB_congr g st.mem _ (DD + 1) pt lv (by omega) hagptF]
      exact hInv
    · rw [freshOk_iff]
      refine ⟨ffn, ?_, fnd⟩
      intro f hf
      refine ⟨ffd f hf, ?_⟩
      rcases (fc f).mp hf with hf2 | hf2
      · have := subT_props g r3.2.mem DD nt (lv + 1) hInv3nt f hf2
        exact this
      · exact (rfp f hf2).2
    · rw [goodBlocksB_congr g st.mem _ (DD + 1) pt lv (by omega) hagptF]
      exact hgood
    · intro va hva
      unfold WalkAttrs
      rw [walkEntry_congr g st.mem _ (DD + 1) pt lv (by omega) hagptF]
    · intro hsucc
      exact absurd hsucc (error_ne_success herr)
  · -- success: wire nt in and continue the loop
    rw [if_neg herr, htab3, if_neg (by exact Bool.false_ne_true),
      SetPpnToPte_zero hnt4]
    have hsucc3 : r3.1 = EFI_SUCCESS := by
      rcases rstat with h | h
      · exact h
      · exact absurd h herr
    have hdisjW : ∀ j, j < 2 ^ g.w → IsTableEntry g (entryAt r3.2.mem pt j) lv = true →
        ∀ x ∈ subT g r3.2.mem DD nt (lv + 1),
          x ∉ subT g r3.2.mem DD (childOf (entryAt r3.2.mem pt j)) (lv + 1) := by
      intro j hj htj x hx hc
      have htj2 : IsTableEntry g (entryAt st.mem pt j) lv = true := by
        rw [← hent3 j]
        exact htj
      have hsubcj : subT g r3.2.mem DD (childOf (entryAt st.mem pt j)) (lv + 1) =
          subT g st.mem DD (childOf (entryAt st.mem pt j)) (lv + 1) := by
        apply subT_congr g st.mem _ DD _ (lv + 1) (by omega)
        intro u hu
        exact hagpt u (subT_child_sub g st.mem (by omega) hj htj2 u hu)
      rw [hent3 j, hsubcj] at hc
      have hxt : x ∈ tdom st.mem :=
        subT_sub_tdom g st.mem DD _ (lv + 1) ((hallp j hj).2 htj2).1.1 x hc
      exact (hfp x (hsub3f x hx)).1 hxt
    obtain ⟨wInv, wSub, wWalk, wGood⟩ :=
      wire_write_spec g hInvPt3 (by omega) hlv1 hi htab3 rInv
        (fun hc => hptf (hsub3f pt hc)) hnt0 hnt4 hnt48 hdisjW
    -- fields of the wired state
    have hst4 := ReplaceTableEntry_fields r3.2 pt i nt rs live
    set st4 := ReplaceTableEntry r3.2 pt i nt rs live with hst4def
    obtain ⟨hst4m, hst4f, hst4p, hst4c⟩ := hst4
    have hntm3 : nt ∈ tdom r3.2.mem := by
      have := rInv
      rw [show DD = (DD - 1) + 1 from by
        cases DD with
        | zero => rw [invAtB_zero] at this; exact absurd this (by simp)
        | succ k => rfl] at this
      rw [invAtB_iff] at this
      obtain ⟨⟨⟨⟨q0, q4⟩, q48⟩, tbn, hln, _⟩, _⟩ := this
      exact mem_tdom_of_lookup _ _ _ hln
    have htdom4 : ∀ x, x ∈ tdom st4.mem ↔ (x = pt ∨ x ∈ tdom r3.2.mem) := by
      intro x
      rw [hst4m]
      exact tdom_memWrite_iff _ pt x _
    have hfrok4 : FreshOkB st4 = true := by
      rw [freshOk_iff]
      refine ⟨by rw [hst4f]; exact rfn, ?_, ?_⟩
      · intro f hf
        rw [hst4f] at hf
        refine ⟨?_, (rfp f hf).2⟩
        intro hc
        rcases (htdom4 f).mp hc with rfl | hc2
        · exact hptf (hrests f (hAfr f (rfr f hf)))
        · exact (rfp f hf).1 hc2
      · rw [hst4m]
        exact tdom_memWrite_nodup _ pt _ rdn
    have hInv4 : InvAtB g st4.mem (DD + 1) pt lv = true := by
      rw [hst4m]
      exact wInv
    have hGood4 : GoodBlocksB g st4.mem (DD + 1) pt lv = true := by
      rw [hst4m]
      exact wGood hGoodPt3 rgood
    -- the tail call
    have ihtail := ih be re aset aclr pt lv live st4 hg hlv (by rw [he1]; exact hInv4)
      hfrok4 hbe4 hre4 hre48 (by rw [he1]; exact hGood4)
    have ihtailC := ihtail
    unfold Concl at ihtailC
    rw [he1] at ihtailC
    obtain ⟨tfr, tcons, tdm, tkeep, tpg, tcr, tfoot, tsub, tInv, tfrok2, tgood,
      tframe, tpost, tstat⟩ := ihtailC
    -- relation of the wired state to the original one
    have hfr4 : ∀ x ∈ st4.fresh, x ∈ st.fresh := by
      intro x hx
      rw [hst4f] at hx
      exact hrests x (hAfr x (rfr x hx))
    have hcons4 : ∀ x ∈ st.fresh, x ∈ st4.fresh ∨ x ∈ tdom st4.mem := by
      intro x hx
      rw [hfresh] at hx
      rcases List.mem_cons.mp hx with rfl | hx2
      · exact Or.inr ((htdom4 x).mpr (Or.inr hntm3))
      · have hstep : x ∈ r3.2.fresh ∨ x ∈ tdom r3.2.mem := by
          rcases hAcons x hx2 with hx3 | hx3
          · exact rcons x hx3
          · exact (rkeep x hx3).symm
        rcases hstep with hx3 | hx3
        · exact Or.inl (by rw [hst4f]; exact hx3)
        · exact Or.inr ((htdom4 x).mpr (Or.inr hx3))
    have hdom4 : ∀ x ∈ tdom st4.mem, x ∈ tdom st.mem ∨ x ∈ st.fresh := by
      intro x hx
      rcases (htdom4 x).mp hx with rfl | hx2
      · exact Or.inl hptm
      · rcases rdm x hx2 with hx3 | hx3
        · rcases hAdom x hx3 with rfl | hx4 | hx4
          · exact Or.inr hntf
          · exact Or.inl hx4
          · exact Or.inr (hrests x hx4)
        · exact Or.inr (hrests x (hAfr x hx3))
    have hkeep4 : ∀ x ∈ tdom st.mem, x ∈ tdom st4.mem ∨ x ∈ st4.fresh := by
      intro x hx
      have hx2 : x ∈ tdom r3.2.mem ∨ x ∈ r3.2.fresh := by
        rcases hAkeep x hx with hxa | hxa
        · exact rkeep x hxa
        · exact (rcons x hxa).symm
      rcases hx2 with hx3 | hx3
      · exact Or.inl ((htdom4 x).mpr (Or.inr hx3))
      · exact Or.inr (by rw [hst4f]; exact hx3)
    have hfoot4 : ∀ u, u ∉ subT g st.mem (g.maxLv - lv) pt lv → u ∉ st.fresh →
        lookupTbl st4.mem u = lookupTbl st.mem u := by
      rw [he1]
      intro u hu huf
      have hup : u ≠ pt := fun he => hu (he ▸ subT_head g st.mem (DD + 1) pt lv)
      rw [hst4m, lookupTbl_setEntry_ne _ pt u i nt hup]
      exact hfoot3 u huf
    have hsub4 : ∀ u, u ∈ subT g st4.mem (g.maxLv - lv) pt lv →
        u ∈ subT g st.mem (g.maxLv - lv) pt lv ∨ u ∈ st.fresh := by
      rw [he1]
      intro u hu
      rw [hst4m] at hu
      rcases (wSub u).mp hu with hu2 | hu2
      · rw [hsubPt3] at hu2
        exact Or.inl hu2
      · exact Or.inr (hsub3f u hu2)
    obtain ⟨cfr, ccons, cdm, ckeep, cpg, ccr, cfoot, csub, cInv, cfrok, cgood⟩ :=
      Concl_comp g rs hfr4 hcons4 hdom4 hkeep4
        (by rw [hst4p, rpg, hApg]) (by rw [hst4c, rcr, hAcr]) hfoot4 hsub4 ihtail
    -- walk characterization through the wired entry
    have hwAttrs : ∀ va, WalkAttrs g st4.mem (DD + 1) pt lv va =
        if EntryIndex g lv va = i then WalkAttrs g r3.2.mem DD nt (lv + 1) va
        else WalkAttrs g r3.2.mem (DD + 1) pt lv va := by
      intro va
      rw [hst4m]
      unfold WalkAttrs
      rw [wWalk va, apply_ite (Option.map (fun p : Nat × Nat =>
        p.1 &&& PTE_ATTRIBUTES_MASK))]
    have hwalkPtAttrs : ∀ va, WalkAttrs g r3.2.mem (DD + 1) pt lv va =
        WalkAttrs g st.mem (DD + 1) pt lv va := by
      intro va
      unfold WalkAttrs
      rw [hwalkPt3 va]
    unfold Concl
    refine ⟨cfr, ccons, cdm, ckeep, cpg, ccr, cfoot, csub, cInv, cfrok, cgood,
      ?_, ?_, tstat⟩
    · -- frame
      simp only [he1]
      intro va hex
      have hexT : ∀ x, be ≤ x → x < re →
          va % 2 ^ spanOf g lv ≠ x % 2 ^ spanOf g lv :=
        fun x h1 h2 => hex x (by omega) h2
      rw [tframe va hexT, hwAttrs va]
      by_cases hvi : EntryIndex g lv va = i
      · rw [if_pos hvi]
        have hexR := exempt_lift hlv hbe_le hbe_hi (hvi.trans hidef) hex
        rw [rframe va hexR]
        exact hwalkA va (hvi.trans hidef)
      · rw [if_neg hvi]
        exact hwalkPtAttrs va
    · -- postcondition
      simp only [he1]
      intro hsuc hacl va x h1 h2 hcon
      by_cases hxbe : be ≤ x
      · exact tpost hsuc hacl va x hxbe h2 hcon
      · have hxlt : x < be := by omega
        by_cases hy : ∀ y, be ≤ y → y < re →
            va % 2 ^ spanOf g lv ≠ y % 2 ^ spanOf g lv
        · rw [tframe va hy, hwAttrs va]
          have hvi : EntryIndex g lv va = i := by
            rw [hidef, EntryIndex_congr hlv hcon]
            exact idx_in_block h1 (lt_of_lt_of_le hxlt hbe_hi)
          rw [if_pos hvi]
          apply rpost hsucc3 hacl va x h1 hxlt
          have hbs_le : spanOf g (lv + 1) ≤ spanOf g lv := by
            rw [spanOf_eq g lv hlv, ← blockShift_succ]
            omega
          exact mod_pow_congr hcon hbs_le
        · push_neg at hy
          obtain ⟨y, hy1, hy2, hy3⟩ := hy
          exact tpost hsuc hacl va y hy1 hy2 hy3

end MmuSpec.CpuMmu

namespace MmuSpec.CpuMmu

theorem leaf_cont (g : Geo) (fuel : Nat)
    (ih : ∀ (rs re aset aclr pt lv : Nat) (live : Bool) (st : St),
      GeoOkB g = true → lv < g.maxLv →
      InvAtB g st.mem (g.maxLv - lv) pt lv = true →
      FreshOkB st = true →
      rs % 4096 = 0 → re % 4096 = 0 → re ≤ 2 ^ 48 →
      GoodBlocksB g st.mem (g.maxLv - lv) pt lv = true →
      Concl g rs re aset aclr pt lv st
        (UpdateRegionMappingRecursive g fuel rs re aset aclr pt lv live st))
    (rs re aset aclr pt lv : Nat) (live : Bool) (st : St)
    (hg : GeoOkB g = true) (hlv : lv < g.maxLv)
    (hInv : InvAtB g st.mem (g.maxLv - lv) pt lv = true)
    (hfrok : FreshOkB st = true)
    (hrs4 : rs % 4096 = 0) (hre4 : re % 4096 = 0) (hre48 : re ≤ 2 ^ 48)
    (hgood : GoodBlocksB g st.mem (g.maxLv - lv) pt lv = true)
    (hrsre : rs < re) (h2lv : 2 ≤ lv)
    (halign : (rs ||| min re ((rs ||| BlockMask g lv) + 1)) &&& BlockMask g lv = 0)
    (htab : IsTableEntry g (entryAt st.mem pt (EntryIndex g lv rs)) lv = false) :
    Concl g rs re aset aclr pt lv st
      (UpdateRegionMappingRecursive g fuel (min re ((rs ||| BlockMask g lv) + 1))
        re aset aclr pt lv live
        (ReplaceTableEntry st pt (EntryIndex g lv rs)
          (if lv < g.maxLv - 1 then
            SetValidPte (SetPpnToPte
              ((entryAt st.mem pt (EntryIndex g lv rs) &&& not64 aclr) ||| aset) rs) |||
              (PAGE_HGLOBAL ||| PAGE_HUGE ||| PAGE_VALID)
          else
            SetValidPte (SetPpnToPte
              ((entryAt st.mem pt (EntryIndex g lv rs) &&& not64 aclr) ||| aset) rs) |||
              (PAGE_GLOBAL ||| PAGE_VALID)) rs live)) := by
  obtain ⟨hw1, hm3, hm5, hmw⟩ := geo_facts hg
  obtain ⟨hrs0, hbeq⟩ := leaf_branch_arith hg hrsre halign
  rw [hbeq]
  generalize hDD : g.maxLv - lv - 1 = DD at *
  have he1 : g.maxLv - lv = DD + 1 := by omega
  rw [he1] at hInv hgood
  set i := EntryIndex g lv rs with hidef
  have hi : i < 2 ^ g.w := EntryIndex_lt g lv rs
  set e := entryAt st.mem pt i with hedef
  set ev3 := (if lv < g.maxLv - 1 then
      SetValidPte (SetPpnToPte ((e &&& not64 aclr) ||| aset) rs) |||
        (PAGE_HGLOBAL ||| PAGE_HUGE ||| PAGE_VALID)
    else
      SetValidPte (SetPpnToPte ((e &&& not64 aclr) ||| aset) rs) |||
        (PAGE_GLOBAL ||| PAGE_VALID)) with hev3
  have hrs48 : rs < 2 ^ 48 := by omega
  -- classification of the written value
  have hnt3 : IsTableEntry g ev3 lv = false := by
    rw [hev3]
    by_cases hlast : lv < g.maxLv - 1
    · rw [if_pos hlast]
      exact isTable_of_or_hgh g _ lv
    · rw [if_neg hlast]
      exact isTable_last g _ lv (by omega)
  have hhv3 : IsValidHugePage ev3 = true → ev3 &&& PAGE_VALID = PAGE_VALID := by
    intro _
    rw [hev3]
    by_cases hlast : lv < g.maxLv - 1
    · rw [if_pos hlast]
      exact valid_of_or_hgh _
    · rw [if_neg hlast]
      exact valid_of_or_gv _
  have hblk3 : IsBlockEntry g ev3 lv = true := by
    rw [hev3]
    by_cases hlast : lv < g.maxLv - 1
    · rw [if_pos hlast]
      exact isBlock_of_or_hgh g _ lv (by omega)
    · rw [if_neg hlast]
      exact isBlock_of_or_gv g _ lv (by omega)
  have hattr3 : aclr = PTE_ATTRIBUTES_MASK →
      ev3 &&& PTE_ATTRIBUTES_MASK = leafAttrs aset := by
    intro hacl
    subst hacl
    rw [hev3]
    by_cases hlast : lv < g.maxLv - 1
    · rw [if_pos hlast]
      exact leafVal_attrs e aset _ hrs48 (by decide)
    · rw [if_neg hlast]
      exact leafVal_attrs e aset _ hrs48 (by decide)
  obtain ⟨Lsub, LInv, Lwalk, Lgood⟩ :=
    leaf_write_spec g ev3 hInv (by omega) hi htab hnt3 hhv3
  have hst4 := ReplaceTableEntry_fields st pt i ev3 rs live
  set st4 := ReplaceTableEntry st pt i ev3 rs live with hst4def
  obtain ⟨hst4m, hst4f, hst4p, hst4c⟩ := hst4
  rw [freshOk_iff] at hfrok
  obtain ⟨hfn, hfp, hdn⟩ := hfrok
  have hInvP := hInv
  rw [invAtB_iff] at hInvP
  obtain ⟨⟨⟨⟨hpt0, hpt4⟩, hpt48⟩, tblp, hlp, hlenp⟩, hallp⟩ := hInvP
  have hptm : pt ∈ tdom st.mem := mem_tdom_of_lookup _ _ _ hlp
  have hptf : pt ∉ st.fresh := fun hc => (hfp pt hc).1 hptm
  have htdom4 : ∀ x, x ∈ tdom st4.mem ↔ (x = pt ∨ x ∈ tdom st.mem) := by
    intro x
    rw [hst4m]
    exact tdom_memWrite_iff _ pt x _
  have hfrok4 : FreshOkB st4 = true := by
    rw [freshOk_iff]
    refine ⟨by rw [hst4f]; exact hfn, ?_, ?_⟩
    · intro f hf
      rw [hst4f] at hf
      refine ⟨?_, (hfp f hf).2⟩
      intro hc
      rcases (htdom4 f).mp hc with rfl | hc2
      · exact hptf hf
      · exact (hfp f hf).1 hc2
    · rw [hst4m]
      exact tdom_memWrite_nodup _ pt _ hdn
  have hdvd : (4096 : Nat) ∣ 2 ^ BlockShift g lv := by
    rw [show (4096 : Nat) = 2 ^ 12 from by norm_num]
    exact pow_dvd_pow 2 (blockShift_ge_12 g lv)
  have hbe4 : (rs + 2 ^ BlockShift g lv) % 4096 = 0 := by
    obtain ⟨k, hk⟩ := hdvd
    omega
  have hbe_le : rs + 2 ^ BlockShift g lv ≤ re := by
    have h1 : min re ((rs ||| BlockMask g lv) + 1) ≤ re := Nat.min_le_left _ _
    omega
  have hbe_hi : rs + 2 ^ BlockShift g lv =
      (rs / 2 ^ BlockShift g lv + 1) * 2 ^ BlockShift g lv := by
    have h2 : rs / 2 ^ BlockShift g lv * 2 ^ BlockShift g lv = rs :=
      Nat.div_mul_cancel (Nat.dvd_of_mod_eq_zero hrs0)
    rw [Nat.add_mul, one_mul, h2]
  have ihtail := ih (rs + 2 ^ BlockShift g lv) re aset aclr pt lv live st4 hg hlv
    (by rw [he1, hst4m]; exact LInv) hfrok4 hbe4 hre4 hre48
    (by rw [he1, hst4m]; exact Lgood hgood (Or.inl h2lv))
  have ihtailC := ihtail
  unfold Concl at ihtailC
  rw [he1] at ihtailC
  obtain ⟨tfr, tcons, tdm, tkeep, tpg, tcr, tfoot, tsub, tInv, tfrok2, tgood,
    tframe, tpost, tstat⟩ := ihtailC
  obtain ⟨cfr, ccons, cdm, ckeep, cpg, ccr, cfoot, csub, cInv, cfrok, cgood⟩ :=
    Concl_comp g rs
      (by rw [hst4f]; exact fun x hx => hx)
      (by rw [hst4f]; exact fun x hx => Or.inl hx)
      (fun x hx => by
        rcases (htdom4 x).mp hx with rfl | hx2
        · exact Or.inl hptm
        · exact Or.inl hx2)
      (fun x hx => Or.inl ((htdom4 x).mpr (Or.inr hx)))
      (by rw [hst4p]) (by rw [hst4c])
      (by
        rw [he1]
        intro u hu huf
        have hup : u ≠ pt := fun heq => hu (heq ▸ subT_head g st.mem (DD + 1) pt lv)
        rw [hst4m, lookupTbl_setEntry_ne _ pt u i ev3 hup])
      (by
        rw [he1]
        intro u hu
        rw [hst4m, Lsub] at hu
        exact Or.inl hu)
      ihtail
  -- walk characterization for the written block
  have hwalk4 : ∀ va, WalkEntry g st4.mem (DD + 1) pt lv va =
      if EntryIndex g lv va = i then some (ev3, lv)
      else WalkEntry g st.mem (DD + 1) pt lv va := by
    intro va
    rw [hst4m, Lwalk va, if_pos hblk3]
  have hwAttrs : ∀ va, WalkAttrs g st4.mem (DD + 1) pt lv va =
      if EntryIndex g lv va = i then some (ev3 &&& PTE_ATTRIBUTES_MASK)
      else WalkAttrs g st.mem (DD + 1) pt lv va := by
    intro va
    unfold WalkAttrs
    rw [hwalk4 va, apply_ite (Option.map (fun p : Nat × Nat =>
      p.1 &&& PTE_ATTRIBUTES_MASK))]
    rfl
  unfold Concl
  refine ⟨cfr, ccons, cdm, ckeep, cpg, ccr, cfoot, csub, cInv, cfrok, cgood,
    ?_, ?_, tstat⟩
  · -- frame
    simp only [he1]
    intro va hex
    have hexT : ∀ x, rs + 2 ^ BlockShift g lv ≤ x → x < re →
        va % 2 ^ spanOf g lv ≠ x % 2 ^ spanOf g lv :=
      fun x h1 h2 => hex x (by omega) h2
    rw [tframe va hexT, hwAttrs va]
    have hvi : EntryIndex g lv va ≠ i := by
      intro hc
      have hcls : ∃ x, rs ≤ x ∧ x < rs + 2 ^ BlockShift g lv ∧
          va % 2 ^ spanOf g lv = x % 2 ^ spanOf g lv :=
        (block_class_iff hlv hrs0).mpr (hc.trans hidef)
      obtain ⟨x, hx1, hx2, hx3⟩ := hcls
      exact hex x hx1 (by omega) hx3
    rw [if_neg hvi]
  · -- postcondition
    simp only [he1]
    intro hsuc hacl va x h1 h2 hcon
    by_cases hxbe : rs + 2 ^ BlockShift g lv ≤ x
    · exact tpost hsuc hacl va x hxbe h2 hcon
    · have hxlt : x < rs + 2 ^ BlockShift g lv := by omega
      by_cases hy : ∀ y, rs + 2 ^ BlockShift g lv ≤ y → y < re →
          va % 2 ^ spanOf g lv ≠ y % 2 ^ spanOf g lv
      · rw [tframe va hy, hwAttrs va]
        have hvi : EntryIndex g lv va = i := by
          rw [hidef, EntryIndex_congr hlv hcon]
          exact idx_in_block h1 (by omega)
        rw [if_pos hvi, hattr3 hacl]
      · push_neg at hy
        obtain ⟨y, hy1, hy2, hy3⟩ := hy
        exact tpost hsuc hacl va y hy1 hy2 hy3

end MmuSpec.CpuMmu

namespace MmuSpec.CpuMmu

/-- Continuation of one loop iteration through a pre-existing table entry:
recurse into the existing child table (no rollback of its modifications on
failure), then continue the loop. -/
def URMR_contT (g : Geo) (fuel rs be re aset aclr pt lv i : Nat) (live : Bool)
    (st : St) : Nat × St :=
  let tt := childOf (entryAt st.mem pt i)
  let r3 := UpdateRegionMappingRecursive g fuel rs be aset aclr tt (lv + 1) live st
  if EFI_ERROR r3.1 then
    if IsTableEntry g (entryAt r3.2.mem pt i) lv then (r3.1, r3.2)
    else (r3.1, FreePageTablesRecursive g g.maxLv tt (lv + 1) r3.2)
  else
    let st4 :=
      if IsTableEntry g (entryAt r3.2.mem pt i) lv then r3.2
      else ReplaceTableEntry r3.2 pt i (SetPpnToPte 0 tt) rs live
    UpdateRegionMappingRecursive g fuel be re aset aclr pt lv live st4

theorem table_cont (g : Geo) (fuel : Nat)
    (ih : ∀ (rs re aset aclr pt lv : Nat) (live : Bool) (st : St),
      GeoOkB g = true → lv < g.maxLv →
      InvAtB g st.mem (g.maxLv - lv) pt lv = true →
      FreshOkB st = true →
      rs % 4096 = 0 → re % 4096 = 0 → re ≤ 2 ^ 48 →
      GoodBlocksB g st.mem (g.maxLv - lv) pt lv = true →
      Concl g rs re aset aclr pt lv st
        (UpdateRegionMappingRecursive g fuel rs re aset aclr pt lv live st))
    (rs be re aset aclr pt lv : Nat) (live : Bool) (st : St)
    (hg : GeoOkB g = true) (hlv : lv < g.maxLv)
    (hrs4 : rs % 4096 = 0) (hre4 : re % 4096 = 0) (hre48 : re ≤ 2 ^ 48)
    (hbe4 : be % 4096 = 0) (hbe_le : be ≤ re) (hrs_be : rs < be)
    (hbe_hi : be ≤ (rs / 2 ^ BlockShift g lv + 1) * 2 ^ BlockShift g lv)
    (hInv : InvAtB g st.mem (g.maxLv - lv) pt lv = true)
    (hfrok : FreshOkB st = true)
    (hgood : GoodBlocksB g st.mem (g.maxLv - lv) pt lv = true)
    (htab : IsTableEntry g (entryAt st.mem pt (EntryIndex g lv rs)) lv = true) :
    Concl g rs re aset aclr pt lv st
      (URMR_contT g fuel rs be re aset aclr pt lv (EntryIndex g lv rs) live st) := by
  obtain ⟨hw1, hm3, hm5, hmw⟩ := geo_facts hg
  have hlv1 : lv < g.maxLv - 1 := by
    by_contra hc
    have hlast : lv = g.maxLv - 1 := by omega
    rw [isTable_last g _ lv hlast] at htab
    exact Bool.false_ne_true htab
  have he2 : g.maxLv - (lv + 1) = g.maxLv - lv - 1 := by omega
  generalize hDD : g.maxLv - lv - 1 = DD at he2
  have he1 : g.maxLv - lv = DD + 1 := by omega
  rw [he1] at hInv hgood
  rw [freshOk_iff] at hfrok
  obtain ⟨hfn, hfp, hdn⟩ := hfrok
  have hInvP := hInv
  rw [invAtB_iff] at hInvP
  obtain ⟨⟨⟨⟨hpt0, hpt4⟩, hpt48⟩, tblp, hlp, hlenp⟩, hallp⟩ := hInvP
  have hptm : pt ∈ tdom st.mem := mem_tdom_of_lookup _ _ _ hlp
  have hptf : pt ∉ st.fresh := fun hc => (hfp pt hc).1 hptm
  set i := EntryIndex g lv rs with hidef
  have hi : i < 2 ^ g.w := EntryIndex_lt g lv rs
  set e := entryAt st.mem pt i with hedef
  have hchild : InvAtB g st.mem DD (childOf e) (lv + 1) = true :=
    ((hallp i hi).2 htab).1.1
  have hptc : pt ∉ subT g st.mem DD (childOf e) (lv + 1) := ((hallp i hi).2 htab).1.2
  have hchildgood : GoodBlocksB g st.mem DD (childOf e) (lv + 1) = true := by
    rw [goodBlocksB_iff] at hgood
    exact (hgood i hi).2 htab
  -- recursive call into the existing child
  simp only [URMR_contT]
  set r3 := UpdateRegionMappingRecursive g fuel rs be aset aclr (childOf e) (lv + 1)
    live st with hr3def
  have ihr3 := ih rs be aset aclr (childOf e) (lv + 1) live st hg (by omega)
    (by rw [he2]; exact hchild) (by
      rw [freshOk_iff]
      exact ⟨hfn, hfp, hdn⟩) hrs4 hbe4 (le_trans hbe_le hre48)
    (by rw [he2]; exact hchildgood)
  rw [← hr3def] at ihr3
  unfold Concl at ihr3
  rw [he2] at ihr3
  obtain ⟨rfr, rcons, rdm, rkeep, rpg, rcr, rfoot, rsub, rInv, rfrok, rgood,
    rframe, rpost, rstat⟩ := ihr3
  -- the table at pt is untouched by the recursive call
  have hent3 : ∀ j, entryAt r3.2.mem pt j = entryAt st.mem pt j := by
    intro j
    unfold entryAt tblOf
    rw [rfoot pt hptc hptf]
  have htab3 : IsTableEntry g (entryAt r3.2.mem pt i) lv = true := by
    rw [hent3]
    exact htab
  obtain ⟨pInv, pSub, pWalk, pGood⟩ :=
    parent_inv_update g st.fresh hInv (by omega) hi htab rfoot
      (fun x hx => (hfp x hx).1) rInv rsub
  have hwAttrsP : ∀ va, WalkAttrs g r3.2.mem (DD + 1) pt lv va =
      if EntryIndex g lv va = i then WalkAttrs g r3.2.mem DD (childOf e) (lv + 1) va
      else WalkAttrs g st.mem (DD + 1) pt lv va := by
    intro va
    unfold WalkAttrs
    rw [pWalk va, apply_ite (Option.map (fun p : Nat × Nat =>
      p.1 &&& PTE_ATTRIBUTES_MASK))]
  have hwOld : ∀ va, EntryIndex g lv va = i →
      WalkAttrs g st.mem (DD + 1) pt lv va =
        WalkAttrs g st.mem DD (childOf e) (lv + 1) va := by
    intro va hvi
    unfold WalkAttrs
    simp only [WalkEntry]
    rw [hvi, ← hedef, if_pos htab]
  have hfootP : ∀ u, u ∉ subT g st.mem (DD + 1) pt lv → u ∉ st.fresh →
      lookupTbl r3.2.mem u = lookupTbl st.mem u := by
    intro u hu huf
    apply rfoot u ?_ huf
    intro hc
    exact hu (subT_child_sub g st.mem hlv1 hi htab u hc)
  by_cases herr : EFI_ERROR r3.1 = true
  · rw [if_pos herr, htab3, if_pos rfl]
    unfold Concl
    rw [he1]
    refine ⟨rfr, rcons, rdm, rkeep, rpg, rcr, hfootP, pSub, pInv, rfrok,
      pGood hgood rgood, ?_, ?_, Or.inr herr⟩
    · intro va hex
      rw [hwAttrsP va]
      by_cases hvi : EntryIndex g lv va = i
      · rw [if_pos hvi]
        have hexR := exempt_lift hlv hbe_le hbe_hi (hvi.trans hidef) hex
        rw [rframe va hexR]
        exact (hwOld va hvi).symm
      · rw [if_neg hvi]
    · intro hsucc
      exact absurd hsucc (error_ne_success herr)
  · rw [if_neg herr, htab3, if_pos rfl]
    have hsucc3 : r3.1 = EFI_SUCCESS := by
      rcases rstat with h | h
      · exact h
      · exact absurd h herr
    have ihtail := ih be re aset aclr pt lv live r3.2 hg hlv (by rw [he1]; exact pInv)
      rfrok hbe4 hre4 hre48 (by rw [he1]; exact pGood hgood rgood)
    have ihtailC := ihtail
    unfold Concl at ihtailC
    rw [he1] at ihtailC
    obtain ⟨tfr, tcons, tdm, tkeep, tpg, tcr, tfoot, tsub, tInv, tfrok2, tgood,
      tframe, tpost, tstat⟩ := ihtailC
    obtain ⟨cfr, ccons, cdm, ckeep, cpg, ccr, cfoot, csub, cInv, cfrok, cgood⟩ :=
      Concl_comp g rs rfr rcons rdm rkeep rpg rcr
        (by rw [he1]; exact hfootP) (by rw [he1]; exact pSub) ihtail
    unfold Concl
    refine ⟨cfr, ccons, cdm, ckeep, cpg, ccr, cfoot, csub, cInv, cfrok, cgood,
      ?_, ?_, tstat⟩
    · simp only [he1]
      intro va hex
      have hexT : ∀ x, be ≤ x → x < re →
          va % 2 ^ spanOf g lv ≠ x % 2 ^ spanOf g lv :=
        fun x h1 h2 => hex x (by omega) h2
      rw [tframe va hexT, hwAttrsP va]
      by_cases hvi : EntryIndex g lv va = i
      · rw [if_pos hvi]
        have hexR := exempt_lift hlv hbe_le hbe_hi (hvi.trans hidef) hex
        rw [rframe va hexR]
        exact (hwOld va hvi).symm
      · rw [if_neg hvi]
    · simp only [he1]
      intro hsuc hacl va x h1 h2 hcon
      by_cases hxbe : be ≤ x
      · exact tpost hsuc hacl va x hxbe h2 hcon
      · have hxlt : x < be := by omega
        by_cases hy : ∀ y, be ≤ y → y < re →
            va % 2 ^ spanOf g lv ≠ y % 2 ^ spanOf g lv
        · rw [tframe va hy, hwAttrsP va]
          have hvi : EntryIndex g lv va = i := by
            rw [hidef, EntryIndex_congr hlv hcon]
            exact idx_in_block h1 (lt_of_lt_of_le hxlt hbe_hi)
          rw [if_pos hvi]
          apply rpost hsucc3 hacl va x h1 hxlt
          have hbs_le : spanOf g (lv + 1) ≤ spanOf g lv := by
            rw [spanOf_eq g lv hlv, ← blockShift_succ]
            omega
          exact mod_pow_congr hcon hbs_le
        · push_neg at hy
          obtain ⟨y, hy1, hy2, hy3⟩ := hy
          exact tpost hsuc hacl va y hy1 hy2 hy3

end MmuSpec.CpuMmu
